import Mathlib

/-!
# Telomere pattern engine: shallow embedding and verified properties

The engine of `src/telomere` (pattern store, transform registry, built-in
transforms, record/playback state machine) is embedded as Lean functions.

Number model.  `t_float` values are the finite IEEE-754 binary32 numbers,
embedded in `ℚ`; every single-precision operation of the source is the exact
rational operation followed by `f32` (round to nearest, ties to even, gradual
underflow).  `double` operations use `f64`.  No operation of the engine on
in-range data overflows the binary32 range, so infinities are not represented:
an infinite or NaN message argument is outside the model.  The conversion
`(int)f` is truncation inside the range of the 32-bit `int`; outside it, where C
leaves it undefined, it is `INT_MIN`, as on x86-64.

Control model.  Bounded `for` loops are folds over `List.range`; the
unbounded `while` loops of the source take an explicit iteration budget and
return `none` when the budget is exhausted.
-/

namespace Telomere

/-! ## Binary floating point rounding -/

/-- Round a rational to the nearest integer, ties to the even integer. -/
def rne (q : ℚ) : ℤ :=
  let f := ⌊q⌋
  let d := q - f
  if d < 1/2 then f else if 1/2 < d then f + 1 else if f % 2 = 0 then f else f + 1

/-- The power of two `2 ^ e` for an integer exponent, as a rational. -/
def pow2 (e : ℤ) : ℚ :=
  if 0 ≤ e then ((2 ^ e.toNat : ℕ) : ℚ) else 1 / ((2 ^ (-e).toNat : ℕ) : ℚ)

/-- Binary logarithm by repeated halving; the first argument bounds the depth. -/
def log2Aux : ℕ → ℕ → ℕ
  | 0, _ => 0
  | fuel + 1, n => if n < 2 then 0 else log2Aux fuel (n / 2) + 1

/-- Floor of the binary logarithm of a positive natural number. -/
def natLog2 (n : ℕ) : ℕ := log2Aux n n

/-- Floor of the binary logarithm of the magnitude of a non-zero rational. -/
def ilog2 (x : ℚ) : ℤ :=
  let a := |x|
  let e0 : ℤ := (natLog2 a.num.natAbs : ℤ) - (natLog2 a.den : ℤ)
  if a < pow2 e0 then e0 - 1 else e0

/-- Round to the nearest binary floating point number with `prec` significant
bits and least quantum `2 ^ emin`, ties to even. -/
def roundTo (prec : ℕ) (emin : ℤ) (x : ℚ) : ℚ :=
  if x = 0 then 0 else
  let qe := max (ilog2 x - ((prec : ℤ) - 1)) emin
  (rne (x / pow2 qe) : ℚ) * pow2 qe

/-- Values of the C type `float` (`t_float` of `m_pd.h`). -/
abbrev t_float := ℚ

/-- Rounding to IEEE-754 binary32. -/
def f32 (x : ℚ) : t_float := roundTo 24 (-149) x

/-- Rounding to IEEE-754 binary64. -/
def f64 (x : ℚ) : ℚ := roundTo 53 (-1074) x

/-- Single-precision addition. -/
def fadd (a b : t_float) : t_float := f32 (a + b)

/-- Single-precision subtraction. -/
def fsub (a b : t_float) : t_float := f32 (a - b)

/-- Single-precision multiplication. -/
def fmul (a b : t_float) : t_float := f32 (a * b)

/-- Single-precision division (the divisor is non-zero at every use). -/
def fdiv (a b : t_float) : t_float := f32 (a / b)

/-- The conversion `(t_float)i` of an `int`. -/
def float_of_int (i : ℤ) : t_float := f32 (i : ℚ)

/-- The conversion `(int)f` to the 32-bit `int`: truncation toward zero when the
truncated value lies in `[-2^31, 2^31 - 1]`.  For every other value C leaves the
conversion undefined; the code as compiled for x86-64 gets the result of the
conversion instruction `cvttss2si`, which is `INT_MIN`, and that is the value
taken here. -/
def int_of_float (f : t_float) : ℤ :=
  let t : ℤ := if 0 ≤ f then ⌊f⌋ else ⌈f⌉
  if -2147483648 ≤ t ∧ t ≤ 2147483647 then t else -2147483648

/-- The C library function `roundf`: nearest integer, halves away from zero. -/
def roundf (f : t_float) : t_float :=
  if 0 ≤ f then ((⌊f + 1/2⌋ : ℤ) : ℚ) else ((⌈f - 1/2⌉ : ℤ) : ℚ)

/-- Two's complement wrap of an `int` result to 32 bits. -/
def wrap32 (i : ℤ) : ℤ := (i + 2147483648) % 4294967296 - 2147483648

/-! ## Engine state (`telomere.h`) -/

/-- The constant `TELOMERE_MAX_EVENTS`. -/
def TELOMERE_MAX_EVENTS : ℕ := 256

/-- The constant `TELOMERE_DEFAULT_GRID`. -/
def TELOMERE_DEFAULT_GRID : ℤ := 16

/-- The constant `TELOMERE_DEFAULT_TEMPO`. -/
def TELOMERE_DEFAULT_TEMPO : t_float := 120

/-- The struct `t_telomere`.  `pattern` is the memory behind the buffer pointer,
indexed by slot; slots at or beyond `num_events` hold stale or uninitialised
data.  `num_events`, `pattern_alloc` and `play_index` are the non-negative
`int` fields of the same names. -/
structure t_telomere where
  pattern : ℕ → t_float
  num_events : ℕ
  pattern_alloc : ℕ
  euclid_len : ℤ
  quantize_pct : t_float
  grid : ℤ
  tempo : t_float
  cycle_length_ms : ℚ
  cycle_start_time : ℚ
  beats_per_cycle : ℤ
  metric_num : t_float
  metric_den : t_float
  recording : Bool
  armed : Bool
  jitter_amt : t_float
  skip_prob : t_float
  play_index : ℕ
  f_inlet : t_float

/-- The stored pattern as a list: slots `0 .. num_events - 1` of the buffer
(what `pattern_copy_to` copies out). -/
def events (x : t_telomere) : List t_float :=
  (List.range x.num_events).map x.pattern

/-- An atom of a message argument list (`t_atom` of `m_pd.h`). -/
inductive t_atom where
  | A_FLOAT (f : t_float)
  | A_SYMBOL (s : String)

/-- The function `atom_getfloatarg`; `argc` is the length of `argv`. -/
def atom_getfloatarg (which : ℕ) (argv : List t_atom) : t_float :=
  match argv.get? which with
  | some (t_atom.A_FLOAT f) => f
  | _ => 0

/-! ## Pattern store (`telomere_pattern_api.c`) -/

/-- The clamp `if (value < 0.0f) value = 0.0f; if (value > 1.0f) value = 1.0f;`. -/
def clamp_unit (value : t_float) : t_float :=
  let v := if value < 0 then 0 else value
  if v > 1 then 1 else v

/-- The function `pattern_num_events`. -/
def pattern_num_events (x : t_telomere) : ℕ := x.num_events

/-- The function `pattern_get_event`. -/
def pattern_get_event (x : t_telomere) (index : ℤ) : t_float :=
  if index < 0 ∨ index ≥ x.num_events then 0 else x.pattern index.toNat

/-- The function `pattern_set_event`. -/
def pattern_set_event (x : t_telomere) (index : ℤ) (value : t_float) : t_telomere :=
  if index < 0 ∨ index ≥ x.num_events then x
  else { x with pattern := Function.update x.pattern index.toNat (clamp_unit value) }

/-- The doubling loop of `pattern_ensure_capacity`; the first argument bounds
the number of iterations. -/
def grow_alloc : ℕ → ℕ → ℕ → ℕ
  | 0, new_alloc, _ => new_alloc
  | fuel + 1, new_alloc, needed =>
    if new_alloc < needed then
      grow_alloc fuel (if new_alloc < 16 then 16 else new_alloc * 2) needed
    else new_alloc

/-- The function `pattern_ensure_capacity`.  Reallocation keeps the contents of
the old slots; the loop runs at most 32 times for an `int` capacity. -/
def pattern_ensure_capacity (x : t_telomere) (needed : ℕ) : t_telomere :=
  if needed ≤ x.pattern_alloc then x
  else
    let new_alloc := grow_alloc 32 x.pattern_alloc needed
    let new_alloc := if new_alloc > TELOMERE_MAX_EVENTS then TELOMERE_MAX_EVENTS else new_alloc
    { x with pattern_alloc := new_alloc }

/-- The function `pattern_append_event`. -/
def pattern_append_event (x : t_telomere) (value : t_float) : t_telomere :=
  if x.num_events ≥ TELOMERE_MAX_EVENTS then x
  else
    let value := clamp_unit value
    let x1 := pattern_ensure_capacity x (x.num_events + 1)
    { x1 with pattern := Function.update x1.pattern x1.num_events value,
              num_events := x1.num_events + 1 }

/-- The function `pattern_resize`. -/
def pattern_resize (x : t_telomere) (new_size : ℤ) : t_telomere :=
  let new_size := if new_size < 0 then 0 else new_size
  let new_size := if new_size > TELOMERE_MAX_EVENTS then (TELOMERE_MAX_EVENTS : ℤ) else new_size
  let n := new_size.toNat
  let x1 := pattern_ensure_capacity x n
  let x2 : t_telomere :=
    if n > x1.num_events then
      { x1 with pattern := fun i => if x1.num_events ≤ i ∧ i < n then 0 else x1.pattern i }
    else x1
  { x2 with num_events := n }

/-- The function `pattern_clear`. -/
def pattern_clear (x : t_telomere) : t_telomere := { x with num_events := 0 }

/-- The inner `while (j >= 0 && p[j] > key)` loop of `pattern_sort` followed by
`p[j + 1] = key`; the last argument is `j + 1`. -/
def sort_inner (p : ℕ → t_float) (key : t_float) : ℕ → (ℕ → t_float)
  | 0 => Function.update p 0 key
  | j + 1 =>
    if p j > key then sort_inner (Function.update p (j + 1) (p j)) key j
    else Function.update p (j + 1) key

/-- The outer `for (i = 1; i < n; i++)` loop of `pattern_sort`, as a fold over
the values `1 .. n - 1` of `i`. -/
def sort_outer (p : ℕ → t_float) (n : ℕ) : ℕ → t_float :=
  (List.range (n - 1)).foldl (fun p k => sort_inner p (p (k + 1)) (k + 1)) p

/-- The function `pattern_sort` (insertion sort of the first `num_events` slots). -/
def pattern_sort (x : t_telomere) : t_telomere :=
  { x with pattern := sort_outer x.pattern x.num_events }

/-- The function `pattern_replace`; `new_data` is the caller's buffer. -/
def pattern_replace (x : t_telomere) (new_data : List t_float) (count : ℤ) : t_telomere :=
  let count := if count < 0 then 0 else count
  let count := if count > TELOMERE_MAX_EVENTS then (TELOMERE_MAX_EVENTS : ℤ) else count
  let c := count.toNat
  let x1 := pattern_ensure_capacity x c
  { x1 with pattern := fun i => if i < c then new_data.getD i 0 else x1.pattern i,
            num_events := c }

/-- The function `pattern_copy_to`: the copied values and the count. -/
def pattern_copy_to (x : t_telomere) : List t_float × ℕ := (events x, x.num_events)

/-- The function `pattern_get_quantize_pct`. -/
def pattern_get_quantize_pct (x : t_telomere) : t_float := x.quantize_pct

/-- The function `pattern_get_grid`. -/
def pattern_get_grid (x : t_telomere) : ℤ := x.grid

/-- The function `pattern_get_tempo`. -/
def pattern_get_tempo (x : t_telomere) : t_float := x.tempo

/-- The invariant of the pattern store: `0 ≤ length ≤ capacity ≤ MAX_EVENTS`. -/
def store_inv (x : t_telomere) : Prop :=
  x.num_events ≤ x.pattern_alloc ∧ x.pattern_alloc ≤ TELOMERE_MAX_EVENTS

/-- A call of one of the writing operations of the pattern store. -/
inductive t_store_op where
  | set (index : ℤ) (value : t_float)
  | append (value : t_float)
  | resize (new_size : ℤ)
  | clear
  | sort
  | replace (new_data : List t_float) (count : ℤ)

/-- The engine state after a call of a writing operation of the pattern store. -/
def store_apply (x : t_telomere) : t_store_op → t_telomere
  | t_store_op.set index value => pattern_set_event x index value
  | t_store_op.append value => pattern_append_event x value
  | t_store_op.resize new_size => pattern_resize x new_size
  | t_store_op.clear => pattern_clear x
  | t_store_op.sort => pattern_sort x
  | t_store_op.replace new_data count => pattern_replace x new_data count

/-- The inner loop of `pattern_sort` (as `sort_inner`) run on slots that carry,
next to the position that `p[j] > key` compares, a tag that the loop moves along
with the position and never looks at. -/
def sort_inner_tagged (p : ℕ → t_float × ℕ) (key : t_float × ℕ) : ℕ → (ℕ → t_float × ℕ)
  | 0 => Function.update p 0 key
  | j + 1 =>
    if (p j).1 > key.1 then sort_inner_tagged (Function.update p (j + 1) (p j)) key j
    else Function.update p (j + 1) key

/-- The outer loop of `pattern_sort` (as `sort_outer`) on tagged slots. -/
def sort_outer_tagged (p : ℕ → t_float × ℕ) (n : ℕ) : ℕ → t_float × ℕ :=
  (List.range (n - 1)).foldl (fun p k => sort_inner_tagged p (p (k + 1)) (k + 1)) p

/-- The buffer of an engine with every slot tagged by its index. -/
def tagged_pattern (x : t_telomere) : ℕ → t_float × ℕ := fun i => (x.pattern i, i)

/-- The order of tagged slots: by position, and by tag among equal positions. -/
def tagged_lt (a b : t_float × ℕ) : Prop := a.1 < b.1 ∨ (a.1 = b.1 ∧ a.2 < b.2)

/-! ## Built-in transforms (`transforms/*.c`)

`draws i` is the value of `(float)rand() / (float)RAND_MAX` at the `i`-th call
of `rand` made by the handler, a single-precision number in `[0, 1]`. -/

/-- The loop `while (val >= 1.0f) val -= 1.0f;` with an iteration budget. -/
def wrap_down : ℕ → t_float → Option t_float
  | 0, val => if val ≥ 1 then none else some val
  | fuel + 1, val => if val ≥ 1 then wrap_down fuel (fsub val 1) else some val

/-- The loop `while (val < 0.0f) val += 1.0f;` with an iteration budget. -/
def wrap_up : ℕ → t_float → Option t_float
  | 0, val => if val < 0 then none else some val
  | fuel + 1, val => if val < 0 then wrap_up fuel (fadd val 1) else some val

/-- The handler `transform_palindrome` of `palindrome.c`. -/
def transform_palindrome (x : t_telomere) (_argv : List t_atom) : t_telomere :=
  let n := pattern_num_events x
  if n = 0 then x
  else
    let new_size : ℤ := (n : ℤ) * 2
    let buf := (pattern_copy_to x).1
    let x1 := pattern_resize x new_size
    let x2 := (List.range n).foldl (fun x (i : ℕ) =>
      let x := pattern_set_event x i (fmul (buf.getD i 0) (1/2))
      pattern_set_event x (new_size - 1 - i) (fadd (1/2) (fmul (buf.getD i 0) (1/2)))) x1
    pattern_sort x2

/-- The handler `transform_rotate` of `rotate.c`.  A zero grid makes the shift
a division by zero, which has no finite value: the result is `none`. -/
def transform_rotate (fuel : ℕ) (x : t_telomere) (argv : List t_atom) : Option t_telomere :=
  let n := pattern_num_events x
  if n = 0 then some x
  else
    let offset := int_of_float (atom_getfloatarg 0 argv)
    let grid := pattern_get_grid x
    if grid = 0 then none
    else
      let shift := fdiv (float_of_int offset) (float_of_int grid)
      ((List.range n).foldlM (fun x (i : ℕ) => do
        let val ← wrap_down fuel (fadd (pattern_get_event x i) shift)
        let val ← wrap_up fuel val
        pure (pattern_set_event x i val)) x).map pattern_sort

/-- The handler `transform_reverse` of `reverse.c`. -/
def transform_reverse (x : t_telomere) (_argv : List t_atom) : t_telomere :=
  let n := pattern_num_events x
  if n = 0 then x
  else
    let x1 := (List.range n).foldl (fun x (i : ℕ) =>
      let val := fsub 1 (pattern_get_event x i)
      let val := if val < 0 then 0 else val
      let val := if val ≥ 1 then 0 else val
      pattern_set_event x i val) x
    pattern_sort x1

/-- The inner loop `for (i = 0; i < count && idx < new_size; i++)` of
`transform_fast`; the state is `idx` and the engine. -/
def fast_inner (orig : List t_float) (count : ℕ) (new_size : ℤ) (base sub_len : t_float)
    (st : ℕ × t_telomere) : ℕ × t_telomere :=
  (List.range count).foldl (fun st (i : ℕ) =>
    if (st.1 : ℤ) < new_size then
      let val := fadd base (fmul (orig.getD i 0) sub_len)
      let val := if val ≥ 1 then fsub val 1 else val
      (st.1 + 1, pattern_set_event st.2 st.1 val)
    else st) st

/-- The outer loop `for (rep = 0; rep < factor && idx < new_size; rep++)` of
`transform_fast`, with an iteration budget. -/
def fast_outer (orig : List t_float) (count : ℕ) (new_size factor : ℤ) (sub_len : t_float) :
    ℕ → ℤ → ℕ × t_telomere → Option (ℕ × t_telomere)
  | 0, rep, st => if rep < factor ∧ (st.1 : ℤ) < new_size then none else some st
  | fuel + 1, rep, st =>
    if rep < factor ∧ (st.1 : ℤ) < new_size then
      let base := fmul sub_len (float_of_int rep)
      fast_outer orig count new_size factor sub_len fuel (rep + 1)
        (fast_inner orig count new_size base sub_len st)
    else some st

/-- The handler `transform_fast` of `fast.c`.  The product `count * factor` is an
`int` multiplication and wraps to 32 bits. -/
def transform_fast (fuel : ℕ) (x : t_telomere) (argv : List t_atom) : Option t_telomere :=
  let n := pattern_num_events x
  if n = 0 then some x
  else
    let factor := int_of_float (atom_getfloatarg 0 argv)
    let factor := if factor < 2 then 2 else factor
    let (orig, count) := pattern_copy_to x
    let new_size := wrap32 ((count : ℤ) * factor)
    let new_size := if new_size > TELOMERE_MAX_EVENTS then (TELOMERE_MAX_EVENTS : ℤ) else new_size
    let x1 := pattern_resize x new_size
    let sub_len := fdiv 1 (float_of_int factor)
    (fast_outer orig count new_size factor sub_len fuel 0 (0, x1)).map
      (fun st => pattern_sort (pattern_resize st.2 st.1))

/-- The value `transform_fast` stores for copy `rep` of the position `v`:
`base + v * sub_len` with `sub_len = 1.0f / factor` and `base = sub_len * rep`,
reduced by 1 when it reaches 1, then clamped by `pattern_set_event`. -/
def fast_tile (factor : ℤ) (rep : ℕ) (v : t_float) : t_float :=
  let sub_len := fdiv 1 (float_of_int factor)
  let val := fadd (fmul sub_len (float_of_int (rep : ℤ))) (fmul v sub_len)
  clamp_unit (if val ≥ 1 then fsub val 1 else val)

/-- The first `size` elements of the tiling sequence of `transform_fast`,
copies outermost and events innermost: element `idx` is copy `idx / n` of event
`idx % n`. -/
def fast_tiles (factor : ℤ) (orig : List t_float) (size : ℕ) : List t_float :=
  (List.range size).map (fun (idx : ℕ) =>
    fast_tile factor (idx / orig.length) (orig.getD (idx % orig.length) 0))

/-- The handler `transform_slow` of `slow.c`. -/
def transform_slow (x : t_telomere) (argv : List t_atom) : t_telomere :=
  let n := pattern_num_events x
  if n = 0 then x
  else
    let factor := int_of_float (atom_getfloatarg 0 argv)
    let factor := if factor < 2 then 2 else factor
    let scale := fdiv 1 (float_of_int factor)
    let x1 := (List.range n).foldl (fun x (i : ℕ) =>
      pattern_set_event x i (fmul (pattern_get_event x i) scale)) x
    pattern_sort x1

/-- The function `bjorklund` of `euclid.c`: the first `n` entries of the output
array.  The interval decomposition (`counts`, `remainders_arr`) that the source
computes between the two fills is discarded by the source and has no effect on
the array. -/
def bjorklund (n k : ℤ) : List ℤ :=
  let k := if k > n then n else k
  if k ≤ 0 then (List.range n.toNat).map (fun _ => (0 : ℤ))
  else
    let pattern := (List.range n.toNat).map (fun (i : ℕ) => if (i : ℤ) < k then (1 : ℤ) else 0)
    let pattern := (List.range n.toNat).foldl (fun p (i : ℕ) => p.set i 0) pattern
    (List.range k.toNat).foldl (fun p (i : ℕ) => p.set (((i : ℤ) * n) / k).toNat 1) pattern

/-- The handler `transform_euclid` of `euclid.c`. -/
def transform_euclid (x : t_telomere) (argv : List t_atom) : t_telomere :=
  let hits := int_of_float (atom_getfloatarg 0 argv)
  let steps := int_of_float (atom_getfloatarg 1 argv)
  let steps := if steps < 1 then 1 else steps
  let steps := if steps > 64 then 64 else steps
  let hits := if hits < 0 then 0 else hits
  let hits := if hits > steps then steps else hits
  let rhythm := bjorklund steps hits
  let x0 := pattern_clear x
  let step_size := fdiv 1 (float_of_int steps)
  let x1 := (List.range steps.toNat).foldl (fun x (i : ℕ) =>
    if rhythm.getD i 0 ≠ 0 then pattern_append_event x (fmul step_size (float_of_int i))
    else x) x0
  pattern_sort x1

/-- The number of steps `transform_euclid` uses: its argument clamped to `[1, 64]`. -/
def euclid_steps (steps : ℤ) : ℤ := min (max steps 1) 64

/-- The number of hits `transform_euclid` uses: its argument clamped to
`[0, euclid_steps steps]`. -/
def euclid_hits (hits steps : ℤ) : ℤ := min (max hits 0) (euclid_steps steps)

/-- The positions `step_size * floor(i * n / k)`, `i = 0 .. k - 1`, computed as in
`transform_euclid`: `step_size = 1.0f / n`, every operation in single precision. -/
def euclid_positions (n k : ℤ) : List t_float :=
  (List.range k.toNat).map (fun (i : ℕ) =>
    fmul (fdiv 1 (float_of_int n)) (float_of_int ((i : ℤ) * n / k)))

/-- The handler `transform_jitter` of `jitter.c`. -/
def transform_jitter (fuel : ℕ) (draws : ℕ → t_float) (x : t_telomere) (argv : List t_atom) :
    Option t_telomere :=
  let n := pattern_num_events x
  if n = 0 then some x
  else
    let amount := atom_getfloatarg 0 argv
    let amount := if amount < 0 then 0 else amount
    let amount := if amount > 1 then 1 else amount
    ((List.range n).foldlM (fun x (i : ℕ) => do
      let val := pattern_get_event x i
      let r := fsub (fmul (draws i) 2) 1
      let val := fadd val (fmul r amount)
      let val ← wrap_down fuel val
      let val ← wrap_up fuel val
      pure (pattern_set_event x i val)) x).map pattern_sort

/-- The survivor loop shared by `transform_skip` and `transform_degrade`:
event `i` is kept when the `i`-th draw is at least `prob`. -/
def survivors_of (draws : ℕ → t_float) (x : t_telomere) (n : ℕ) (prob : t_float) :
    List t_float :=
  (List.range n).foldl (fun survivors (i : ℕ) =>
    if draws i ≥ prob then survivors ++ [pattern_get_event x i] else survivors) []

/-- The handler `transform_skip` of `skip.c`. -/
def transform_skip (draws : ℕ → t_float) (x : t_telomere) (argv : List t_atom) : t_telomere :=
  let n := pattern_num_events x
  if n = 0 then x
  else
    let prob := atom_getfloatarg 0 argv
    let prob := if prob < 0 then 0 else prob
    let prob := if prob > 1 then 1 else prob
    let survivors := survivors_of draws x n prob
    pattern_replace x survivors survivors.length

/-- The handler `transform_degrade` of `degrade.c`. -/
def transform_degrade (draws : ℕ → t_float) (x : t_telomere) (argv : List t_atom) :
    t_telomere :=
  let n := pattern_num_events x
  if n = 0 then x
  else
    let prob := atom_getfloatarg 0 argv
    let prob := if prob < 0 then 0 else prob
    let prob := if prob > 1 then 1 else prob
    let survivors := survivors_of draws x n prob
    let survivors :=
      if survivors.length = 0 ∧ n > 0 then [pattern_get_event x 0] else survivors
    pattern_replace x survivors survivors.length

/-- The invariant of the per-event loops of the handlers after `i` iterations,
started in state `x`: the length and the grid are kept, and the slots not yet
visited hold what they held. -/
def loop_inv (x : t_telomere) (i : ℕ) (y : t_telomere) : Prop :=
  y.num_events = x.num_events ∧ y.grid = x.grid ∧ ∀ t, i ≤ t → y.pattern t = x.pattern t

/-! ## Transform registry (`telomere_registry.c`) and dispatch -/

/-- Interned symbols (`t_symbol *`); `gensym` returns the same pointer for equal
strings, so pointer equality is string equality. -/
abbrev t_symbol := String

/-- The type `t_transform_fn` of handlers.  The two leading arguments supply the
iteration budget of the wrap loops and the outcomes of `rand`. -/
abbrev t_transform_fn := ℕ → (ℕ → t_float) → t_telomere → List t_atom → Option t_telomere

/-- The struct `t_transform_entry`; the `next` pointer is the tail of the list. -/
structure t_transform_entry where
  name : t_symbol
  fn : t_transform_fn
  description : String
  min_args : ℤ
  max_args : ℤ

/-- The scan of `telomere_register_transform`: overwrite the first entry named
`name` in place, or report that there is none. -/
def registry_overwrite (name : t_symbol) (fn : t_transform_fn) (description : String)
    (min_args max_args : ℤ) : List t_transform_entry → Option (List t_transform_entry)
  | [] => none
  | cur :: rest =>
    if cur.name = name then
      some ({ cur with fn := fn, description := description,
                       min_args := min_args, max_args := max_args } :: rest)
    else (registry_overwrite name fn description min_args max_args rest).map (fun r => cur :: r)

/-- The function `telomere_register_transform`, on the list headed by
`registry_head`. -/
def telomere_register_transform (registry : List t_transform_entry) (name : t_symbol)
    (fn : t_transform_fn) (description : String) (min_args max_args : ℤ) :
    List t_transform_entry :=
  match registry_overwrite name fn description min_args max_args registry with
  | some r => r
  | none =>
    { name := name, fn := fn, description := description,
      min_args := min_args, max_args := max_args } :: registry

/-- The function `telomere_lookup_transform`. -/
def telomere_lookup_transform : List t_transform_entry → t_symbol → Option t_transform_entry
  | [], _ => none
  | cur :: rest, name => if cur.name = name then some cur else telomere_lookup_transform rest name

/-- The registry after a sequence of calls of `telomere_register_transform`,
starting from the empty list (`registry_head = NULL`); a call is given by the
five arguments it passes. -/
def registry_after (calls : List t_transform_entry) : List t_transform_entry :=
  calls.foldl (fun registry c =>
    telomere_register_transform registry c.name c.fn c.description c.min_args c.max_args) []

/-- The names in the order in which `telomere_help_msg` walks the list from
`telomere_get_registry_head`. -/
def help_names (registry : List t_transform_entry) : List t_symbol :=
  registry.map (fun cur => cur.name)

/-- What `telomere_anything` did with a message. -/
inductive t_dispatch where
  | unknown_message
  | arity_error
  | invoked (entry : t_transform_entry)

/-- The method `telomere_anything`: the dispatch decision and the engine state
afterwards (`none` when the invoked handler does not complete). -/
def telomere_anything (registry : List t_transform_entry) (fuel : ℕ) (draws : ℕ → t_float)
    (x : t_telomere) (s : t_symbol) (argv : List t_atom) : t_dispatch × Option t_telomere :=
  match telomere_lookup_transform registry s with
  | none => (t_dispatch.unknown_message, some x)
  | some entry =>
    if (argv.length : ℤ) < entry.min_args ∨
        (entry.max_args ≥ 0 ∧ (argv.length : ℤ) > entry.max_args) then
      (t_dispatch.arity_error, some x)
    else (t_dispatch.invoked entry, entry.fn fuel draws x argv)

/-- The registrations made by `telomere_transforms_builtins_setup`, in order. -/
def builtins_setup (registry : List t_transform_entry) : List t_transform_entry :=
  let r := telomere_register_transform registry "palindrome"
    (fun _ _ x argv => some (transform_palindrome x argv))
    "Append reversed pattern to create palindromic loop" 0 0
  let r := telomere_register_transform r "rotate"
    (fun fuel _ x argv => transform_rotate fuel x argv)
    "Cyclically shift pattern start point by N positions" 1 1
  let r := telomere_register_transform r "reverse"
    (fun _ _ x argv => some (transform_reverse x argv))
    "Reverse the temporal order of the pattern" 0 0
  let r := telomere_register_transform r "fast"
    (fun fuel _ x argv => transform_fast fuel x argv)
    "Compress pattern to repeat N times per cycle" 1 1
  let r := telomere_register_transform r "slow"
    (fun _ _ x argv => some (transform_slow x argv))
    "Expand pattern by factor N (stretch into first 1/N of cycle)" 1 1
  let r := telomere_register_transform r "euclid"
    (fun _ _ x argv => some (transform_euclid x argv))
    "Replace pattern with Euclidean rhythm (hits steps)" 2 2
  let r := telomere_register_transform r "jitter"
    (fun fuel draws x argv => transform_jitter fuel draws x argv)
    "Apply random displacement to event positions" 1 1
  let r := telomere_register_transform r "skip"
    (fun _ draws x argv => some (transform_skip draws x argv))
    "Probabilistically remove events from the pattern" 1 1
  telomere_register_transform r "degrade"
    (fun _ draws x argv => some (transform_degrade draws x argv))
    "Probabilistically remove events (keeps at least one)" 1 1

/-! ## Record and playback (`telomere.c`) -/

/-- What the engine sends to its outlets, its clock and the console. -/
inductive t_output where
  | out_bang
  | out_position (f : t_float)
  | out_count (f : t_float)
  | out_status (f : t_float)
  | clock_delay (ms : ℚ)
  deriving DecidableEq

/-- The local `step` of `telomere_bang`: `1.0f / (t_float)x->grid`. -/
def grid_step (grid : ℤ) : t_float := fdiv 1 (float_of_int grid)

/-- The local `nearest` of `telomere_bang`: `roundf(pos / step) * step`. -/
def nearest_grid_point (grid : ℤ) (pos : t_float) : t_float :=
  fmul (roundf (fdiv pos (grid_step grid))) (grid_step grid)

/-- The quantization block of `telomere_bang`, applied to the wrapped position. -/
def bang_quantize (x : t_telomere) (pos : t_float) : t_float :=
  if x.quantize_pct > 0 ∧ x.grid > 0 then
    let nearest := nearest_grid_point x.grid pos
    let pos := fadd pos (fmul (fsub nearest pos) x.quantize_pct)
    if pos ≥ 1 then fsub pos 1 else pos
  else pos

/-- The recording branch of `telomere_bang`, from the wrapped position on. -/
def bang_record (x : t_telomere) (pos : t_float) : t_telomere × List t_output :=
  let pos := if pos < 0 then 0 else pos
  let pos := bang_quantize x pos
  let x1 := pattern_append_event x pos
  (x1, [t_output.out_count (float_of_int x1.num_events)])

/-- The method `telomere_bang`.  `elapsed` is the result of
`clock_gettimesince(x->cycle_start_time)` and `now` that of
`clock_getlogicaltime()`. -/
def telomere_bang (fuel : ℕ) (elapsed now : ℚ) (x : t_telomere) :
    Option (t_telomere × List t_output) :=
  if x.recording then
    if x.cycle_length_ms = 0 then none
    else
      let pos := f32 (f64 (elapsed / x.cycle_length_ms))
      (wrap_down fuel pos).map (fun pos => bang_record x pos)
  else
    if x.num_events = 0 then some (x, [])
    else
      let x1 := { x with play_index := 0, cycle_start_time := now }
      let delay := f64 (x.pattern 0 * x.cycle_length_ms)
      let delay := if delay < f64 (1/10) then f64 (1/10) else delay
      some (x1, [t_output.clock_delay delay])

/-- The clock callback `telomere_tick`.  `draws i` is the value of
`(float)rand() / (float)RAND_MAX` at the `i`-th call of `rand` made by the
callback; `0.1` is the `double` literal, and a position read into a `double`
keeps its value. -/
def telomere_tick (draws : ℕ → t_float) (x : t_telomere) : t_telomere × List t_output :=
  if x.play_index ≥ x.num_events then
    (x, [t_output.out_count (float_of_int x.num_events)])
  else
    let pos := x.pattern x.play_index
    if x.skip_prob > 0 ∧ draws 0 < x.skip_prob then
      let x1 := { x with play_index := x.play_index + 1 }
      if x1.play_index < x1.num_events then
        let next_pos := x1.pattern x1.play_index
        let delay := f64 (f64 (next_pos * x1.cycle_length_ms) - f64 (pos * x1.cycle_length_ms))
        let delay := if delay < f64 (1/10) then f64 (1/10) else delay
        (x1, [t_output.clock_delay delay])
      else (x1, [t_output.out_count (float_of_int x1.num_events)])
    else
      let used : ℕ := if x.skip_prob > 0 then 1 else 0
      let out_pos :=
        if x.jitter_amt > 0 then
          let r := fsub (fmul (draws used) 2) 1
          let out_pos := fadd pos (fmul r x.jitter_amt)
          let out_pos := if out_pos < 0 then fadd out_pos 1 else out_pos
          if out_pos > 1 then fsub out_pos 1 else out_pos
        else pos
      let x1 := { x with play_index := x.play_index + 1 }
      if x1.play_index < x1.num_events then
        let next_pos := x1.pattern x1.play_index
        let delay := f64 (f64 (next_pos - pos) * x1.cycle_length_ms)
        let delay := if delay < f64 (1/10) then f64 (1/10) else delay
        (x1, [t_output.out_position out_pos, t_output.out_bang, t_output.clock_delay delay])
      else
        (x1, [t_output.out_position out_pos, t_output.out_bang,
          t_output.out_count (float_of_int x1.num_events)])

/-- The method `telomere_float` (a float sets the tempo). -/
def telomere_float (x : t_telomere) (f : t_float) : t_telomere :=
  if f > 0 then
    { x with tempo := f, cycle_length_ms := f64 (f64 (60000 / f) * x.beats_per_cycle) }
  else x

/-- The method `telomere_record`; `now` is the result of `clock_getlogicaltime()`. -/
def telomere_record (now : ℚ) (x : t_telomere) (f : t_float) : t_telomere × List t_output :=
  let x1 := { x with recording := decide (f ≠ 0) }
  let x2 := if x1.recording then { x1 with cycle_start_time := now } else x1
  (x2, [t_output.out_status (if x2.recording then 1 else 0)])

/-- The method `telomere_clear`. -/
def telomere_clear (x : t_telomere) : t_telomere × List t_output :=
  (pattern_clear x, [t_output.out_count 0])

/-- The method `telomere_quantize`. -/
def telomere_quantize (x : t_telomere) (pct : t_float) : t_telomere :=
  let pct := if pct < 0 then 0 else pct
  let pct := if pct > 1 then 1 else pct
  { x with quantize_pct := pct }

/-- The method `telomere_grid`. -/
def telomere_grid (x : t_telomere) (g : t_float) : t_telomere :=
  let gi := int_of_float g
  let gi := if gi < 1 then 1 else gi
  let gi := if gi > 128 then 128 else gi
  { x with grid := gi }

/-- The method `telomere_jitter`. -/
def telomere_jitter (x : t_telomere) (amt : t_float) : t_telomere :=
  let amt := if amt < 0 then 0 else amt
  let amt := if amt > 1 then 1 else amt
  { x with jitter_amt := amt }

/-- The method `telomere_skip`. -/
def telomere_skip (x : t_telomere) (prob : t_float) : t_telomere :=
  let prob := if prob < 0 then 0 else prob
  let prob := if prob > 1 then 1 else prob
  { x with skip_prob := prob }

/-- The method `telomere_beats`. -/
def telomere_beats (x : t_telomere) (b : t_float) : t_telomere :=
  let bi := int_of_float b
  let bi := if bi < 1 then 1 else bi
  { x with beats_per_cycle := bi, cycle_length_ms := f64 (f64 (60000 / x.tempo) * bi) }

/-- Something the object is called with: a message at its inlet (with the
readings of the clock and the outcomes of `rand` that the method will get), or
the callback of its clock. -/
inductive t_message where
  | bang (elapsed now : ℚ)
  | float (f : t_float)
  | anything (s : t_symbol) (argv : List t_atom) (draws : ℕ → t_float)
  | record (f : t_float) (now : ℚ)
  | clear
  | quantize (pct : t_float)
  | grid (g : t_float)
  | jitter (amt : t_float)
  | skip (prob : t_float)
  | beats (b : t_float)
  | tick (draws : ℕ → t_float)

/-- The method table of `telomere_setup`: the engine state and the outputs
after a call (`none` when the method does not return).  Selectors that have a
method of their own never reach `telomere_anything`; the model lets every
selector reach it, which only adds behaviours. -/
def telomere_receive (registry : List t_transform_entry) (fuel : ℕ) (x : t_telomere) :
    t_message → Option (t_telomere × List t_output)
  | t_message.bang elapsed now => telomere_bang fuel elapsed now x
  | t_message.float f => some (telomere_float x f, [])
  | t_message.anything s argv draws =>
    (telomere_anything registry fuel draws x s argv).2.map (fun y => (y, []))
  | t_message.record f now => some (telomere_record now x f)
  | t_message.clear => some (telomere_clear x)
  | t_message.quantize pct => some (telomere_quantize x pct, [])
  | t_message.grid g => some (telomere_grid x g, [])
  | t_message.jitter amt => some (telomere_jitter x amt, [])
  | t_message.skip prob => some (telomere_skip x prob, [])
  | t_message.beats b => some (telomere_beats x b, [])
  | t_message.tick draws => some (telomere_tick draws x)

/-- The engine state after a sequence of calls, with the built-in transforms
registered. -/
def telomere_run (fuel : ℕ) (x : t_telomere) (msgs : List t_message) : Option t_telomere :=
  msgs.foldlM (fun x msg => (telomere_receive (builtins_setup []) fuel x msg).map (fun r => r.1)) x

/-- A message whose float argument, where it sets the tempo, is a finite
single-precision number (below `2^128`). -/
def message_finite : t_message → Prop
  | t_message.float f => f < 2 ^ 128
  | _ => True

/-- The invariant of the clock fields: a positive finite tempo, at least one
beat per cycle, and the cycle length `(60000.0 / (double)tempo) * beats_per_cycle`
in double precision. -/
def clock_inv (x : t_telomere) : Prop :=
  0 < x.tempo ∧ x.tempo < 2 ^ 128 ∧ 1 ≤ x.beats_per_cycle ∧
  x.cycle_length_ms = f64 (f64 (60000 / x.tempo) * x.beats_per_cycle)

/-- The invariant of the clamped parameters. -/
def params_inv (x : t_telomere) : Prop :=
  (1 ≤ x.grid ∧ x.grid ≤ 128) ∧
  (0 ≤ x.quantize_pct ∧ x.quantize_pct ≤ 1) ∧
  (0 ≤ x.jitter_amt ∧ x.jitter_amt ≤ 1) ∧
  (0 ≤ x.skip_prob ∧ x.skip_prob ≤ 1)

/-- Every field of `y` outside the pattern store (buffer, length, capacity) is
as in `x`. -/
def same_settings (x y : t_telomere) : Prop :=
  y = { x with pattern := y.pattern, num_events := y.num_events,
               pattern_alloc := y.pattern_alloc }

/-- Whether an output is a request to the clock. -/
def is_request : t_output → Bool
  | t_output.clock_delay _ => true
  | _ => false

/-- The playback set off by a pending clock request: the clock calls
`telomere_tick`, and calls it again after every request the callback makes.
`draws k` supplies the outcomes of `rand` in callback `k`; the first argument
bounds the number of callbacks.  The result is the list of the outputs of each
callback, in order, and the state after the last one. -/
def run_clock (draws : ℕ → ℕ → t_float) :
    ℕ → ℕ → t_telomere → List (List t_output) × t_telomere
  | 0, _, x => ([], x)
  | fuel + 1, k, x =>
    let r := telomere_tick (draws k) x
    if r.2.any is_request then
      let rest := run_clock draws fuel (k + 1) r.1
      (r.2 :: rest.1, rest.2)
    else ([r.2], r.1)

/-- The constructor `telomere_new`: the engine state it leaves (`getbytes`
returns zeroed memory). -/
def telomere_new (tempo : t_float) : t_telomere :=
  let tempo := if tempo > 0 then tempo else TELOMERE_DEFAULT_TEMPO
  { pattern := fun _ => 0
    num_events := 0
    pattern_alloc := 32
    euclid_len := 0
    quantize_pct := 0
    grid := TELOMERE_DEFAULT_GRID
    tempo := tempo
    cycle_length_ms := f64 (f64 (60000 / tempo) * 4)
    cycle_start_time := 0
    beats_per_cycle := 4
    metric_num := 1
    metric_den := 1
    recording := false
    armed := false
    jitter_amt := 0
    skip_prob := 0
    play_index := 0
    f_inlet := 0 }

/-! ## Concrete engine states used as test inputs -/

/-- A default engine in the recording state with the given grid and quantize
strength. -/
def recording_engine (grid : ℤ) (quantize_pct : t_float) : t_telomere :=
  { telomere_new 0 with recording := true, grid := grid, quantize_pct := quantize_pct }

/-- A registration call for `name` with a handler that leaves the engine as it
is. -/
def call_of (name : t_symbol) : t_transform_entry :=
  { name := name, fn := fun _ _ x _ => some x, description := "", min_args := 0,
    max_args := -1 }

/-- A default engine whose buffer, of capacity `alloc`, holds the positions `l`. -/
def engine_with (l : List t_float) (alloc : ℕ) : t_telomere :=
  { telomere_new 0 with
    pattern := fun i => l.getD i 0, num_events := l.length, pattern_alloc := alloc }

/-! ## Rounding lemmas -/

theorem pow2_eq (e : ℤ) : pow2 e = (2 : ℚ) ^ e := by
  unfold pow2
  split_ifs with h
  · obtain ⟨n, rfl⟩ := Int.eq_ofNat_of_zero_le h
    simp
  · push_neg at h
    obtain ⟨n, hn⟩ := Int.eq_ofNat_of_zero_le (by omega : 0 ≤ -e)
    have : e = -(n : ℤ) := by omega
    subst this
    simp

theorem pow2_pos (e : ℤ) : 0 < pow2 e := by
  rw [pow2_eq]; positivity

theorem log2Aux_spec : ∀ (fuel n : ℕ), 1 ≤ n → n ≤ fuel →
    2 ^ log2Aux fuel n ≤ n ∧ n < 2 ^ (log2Aux fuel n + 1)
  | 0, n, h1, h2 => by omega
  | fuel + 1, n, h1, h2 => by
    unfold log2Aux
    split_ifs with h
    · simp; omega
    · have ih := log2Aux_spec fuel (n / 2) (by omega) (by omega)
      obtain ⟨a, b⟩ := ih
      constructor
      · rw [pow_succ]; omega
      · rw [pow_succ]; omega

theorem natLog2_spec (n : ℕ) (h : 1 ≤ n) :
    2 ^ natLog2 n ≤ n ∧ n < 2 ^ (natLog2 n + 1) :=
  log2Aux_spec n n h le_rfl

theorem ilog2_spec (x : ℚ) (hx : x ≠ 0) :
    (2 : ℚ) ^ ilog2 x ≤ |x| ∧ |x| < (2 : ℚ) ^ (ilog2 x + 1) := by
  have ha : 0 < |x| := abs_pos.mpr hx
  have hnum : 0 < (|x|).num := Rat.num_pos.mpr ha
  have hden : 0 < (|x|).den := (|x|).den_pos
  obtain ⟨n1, n2⟩ := natLog2_spec (|x|).num.natAbs (by omega)
  obtain ⟨d1, d2⟩ := natLog2_spec (|x|).den (by omega)
  have hxe : |x| = ((|x|).num.natAbs : ℚ) / ((|x|).den : ℚ) := by
    have h3 : (((|x|).num.natAbs : ℕ) : ℚ) = ((|x|).num : ℚ) := by
      rw [← Int.cast_natCast, Int.natAbs_of_nonneg hnum.le]
    rw [h3]
    exact (Rat.num_div_den (|x|)).symm
  set N := (|x|).num.natAbs with hN
  set D := (|x|).den with hD
  have hDq : (0 : ℚ) < (D : ℚ) := by exact_mod_cast hden
  have n1q : (2 : ℚ) ^ (natLog2 N : ℤ) ≤ N := by
    rw [zpow_natCast]; exact_mod_cast n1
  have n2q : (N : ℚ) < (2 : ℚ) ^ ((natLog2 N : ℤ) + 1) := by
    have : (N : ℚ) < (2 : ℚ) ^ (natLog2 N + 1) := by exact_mod_cast n2
    rwa [← zpow_natCast, Nat.cast_add, Nat.cast_one] at this
  have d1q : (2 : ℚ) ^ (natLog2 D : ℤ) ≤ D := by
    rw [zpow_natCast]; exact_mod_cast d1
  have d2q : (D : ℚ) < (2 : ℚ) ^ ((natLog2 D : ℤ) + 1) := by
    have : (D : ℚ) < (2 : ℚ) ^ (natLog2 D + 1) := by exact_mod_cast d2
    rwa [← zpow_natCast, Nat.cast_add, Nat.cast_one] at this
  have two_pos : (0 : ℚ) < 2 := by norm_num
  have lo : (2 : ℚ) ^ ((natLog2 N : ℤ) - natLog2 D - 1) ≤ |x| := by
    rw [hxe, le_div_iff₀ hDq]
    calc (2 : ℚ) ^ ((natLog2 N : ℤ) - natLog2 D - 1) * D
        ≤ (2 : ℚ) ^ ((natLog2 N : ℤ) - natLog2 D - 1) * (2 : ℚ) ^ ((natLog2 D : ℤ) + 1) :=
          mul_le_mul_of_nonneg_left d2q.le (by positivity)
      _ = (2 : ℚ) ^ (natLog2 N : ℤ) := by
          rw [← zpow_add₀ (by norm_num : (2 : ℚ) ≠ 0)]; congr 1; ring
      _ ≤ N := n1q
  have hi : |x| < (2 : ℚ) ^ ((natLog2 N : ℤ) - natLog2 D + 1) := by
    rw [hxe, div_lt_iff₀ hDq]
    calc (N : ℚ) < (2 : ℚ) ^ ((natLog2 N : ℤ) + 1) := n2q
      _ = (2 : ℚ) ^ ((natLog2 N : ℤ) - natLog2 D + 1) * (2 : ℚ) ^ (natLog2 D : ℤ) := by
          rw [← zpow_add₀ (by norm_num : (2 : ℚ) ≠ 0)]; congr 1; ring
      _ ≤ (2 : ℚ) ^ ((natLog2 N : ℤ) - natLog2 D + 1) * D :=
          mul_le_mul_of_nonneg_left d1q (by positivity)
  unfold ilog2
  simp only [← hN, ← hD, pow2_eq]
  split_ifs with hlt
  · refine ⟨lo, ?_⟩
    have : (natLog2 N : ℤ) - natLog2 D - 1 + 1 = (natLog2 N : ℤ) - natLog2 D := by ring
    rw [this]; exact hlt
  · exact ⟨not_lt.mp hlt, hi⟩


theorem rne_intCast (n : ℤ) : rne (n : ℚ) = n := by
  unfold rne
  simp

theorem rne_cases (q : ℚ) : rne q = ⌊q⌋ ∨ rne q = ⌊q⌋ + 1 := by
  unfold rne
  simp only
  split_ifs <;> simp

theorem rne_mono {a b : ℚ} (h : a ≤ b) : rne a ≤ rne b := by
  have hf : ⌊a⌋ ≤ ⌊b⌋ := Int.floor_le_floor h
  rcases lt_or_eq_of_le hf with hlt | heq
  · rcases rne_cases a with ha | ha <;> rcases rne_cases b with hb | hb <;> omega
  · have hd : a - ⌊a⌋ ≤ b - ⌊b⌋ := by rw [heq]; linarith
    unfold rne
    simp only
    rw [heq] at hd ⊢
    split_ifs <;> first | omega | (exfalso; linarith)

theorem rne_neg (q : ℚ) : rne (-q) = -rne q := by
  by_cases hq : (⌊q⌋ : ℚ) = q
  · rw [← hq, ← Int.cast_neg, rne_intCast, rne_intCast]
  · have h1 : (⌊q⌋ : ℚ) < q := lt_of_le_of_ne (Int.floor_le q) hq
    have h2 : q < ⌊q⌋ + 1 := Int.lt_floor_add_one q
    have hfl : ⌊-q⌋ = -⌊q⌋ - 1 := by
      rw [Int.floor_eq_iff]
      push_cast
      constructor <;> linarith
    unfold rne
    simp only
    rw [hfl]
    push_cast
    split_ifs <;> first | omega | (exfalso; linarith)

theorem rne_nonneg {q : ℚ} (h : 0 ≤ q) : 0 ≤ rne q := by
  have := rne_mono h
  rwa [show (0 : ℚ) = ((0 : ℤ) : ℚ) by simp, rne_intCast] at this

theorem ilog2_neg (x : ℚ) : ilog2 (-x) = ilog2 x := by
  unfold ilog2
  simp only [abs_neg]

theorem roundTo_zero (prec : ℕ) (emin : ℤ) : roundTo prec emin 0 = 0 := by
  simp [roundTo]

theorem roundTo_neg (prec : ℕ) (emin : ℤ) (x : ℚ) :
    roundTo prec emin (-x) = -roundTo prec emin x := by
  unfold roundTo
  by_cases hx : x = 0
  · simp [hx]
  · simp only [neg_eq_zero, hx, if_false, ilog2_neg, neg_div, rne_neg]
    push_cast
    ring

theorem roundTo_nonneg (prec : ℕ) (emin : ℤ) {x : ℚ} (h : 0 ≤ x) :
    0 ≤ roundTo prec emin x := by
  unfold roundTo
  split_ifs
  · exact le_refl _
  · have hp := pow2_pos (max (ilog2 x - ((prec : ℤ) - 1)) emin)
    have : 0 ≤ rne (x / pow2 (max (ilog2 x - ((prec : ℤ) - 1)) emin)) :=
      rne_nonneg (div_nonneg h hp.le)
    have h2 : (0 : ℚ) ≤ (rne (x / pow2 (max (ilog2 x - ((prec : ℤ) - 1)) emin)) : ℚ) := by
      exact_mod_cast this
    exact mul_nonneg h2 hp.le

theorem ilog2_le_of_abs_le {x y : ℚ} (hx : x ≠ 0) (hy : y ≠ 0) (h : |x| ≤ |y|) :
    ilog2 x ≤ ilog2 y := by
  obtain ⟨a, _⟩ := ilog2_spec x hx
  obtain ⟨_, d⟩ := ilog2_spec y hy
  have : (2 : ℚ) ^ ilog2 x < (2 : ℚ) ^ (ilog2 y + 1) := lt_of_le_of_lt (le_trans a h) d
  have := (zpow_lt_zpow_iff_right₀ (by norm_num : (1 : ℚ) < 2)).mp this
  omega

theorem roundTo_mono_pos (prec : ℕ) (hprec : 1 ≤ prec) (emin : ℤ) {x y : ℚ}
    (hx : 0 < x) (h : x ≤ y) : roundTo prec emin x ≤ roundTo prec emin y := by
  have hy : 0 < y := lt_of_lt_of_le hx h
  have hle := ilog2_le_of_abs_le hx.ne' hy.ne' (by rw [abs_of_pos hx, abs_of_pos hy]; exact h)
  obtain ⟨x1, x2⟩ := ilog2_spec x hx.ne'
  obtain ⟨y1, y2⟩ := ilog2_spec y hy.ne'
  rw [abs_of_pos hx] at x1 x2
  rw [abs_of_pos hy] at y1 y2
  unfold roundTo
  simp only [hx.ne', hy.ne', if_false, pow2_eq]
  set qx := max (ilog2 x - ((prec : ℤ) - 1)) emin with hqx
  set qy := max (ilog2 y - ((prec : ℤ) - 1)) emin with hqy
  have hqle : qx ≤ qy := max_le_max (by omega) le_rfl
  have two_ne : (2 : ℚ) ≠ 0 := by norm_num
  rcases lt_or_eq_of_le hqle with hlt | heq
  · -- different quanta: separate the results by the power of two 2^(ilog2 y)
    have hqy' : qy = ilog2 y - ((prec : ℤ) - 1) := by
      rcases max_cases (ilog2 y - ((prec : ℤ) - 1)) emin with ⟨e, _⟩ | ⟨e, _⟩
      · exact e
      · exfalso
        have : emin ≤ qx := le_max_right _ _
        omega
    have hqxle : ilog2 x - ((prec : ℤ) - 1) ≤ qx := le_max_left _ _
    have hey : ilog2 x + 1 ≤ ilog2 y := by omega
    -- upper bound for the rounding of x
    have hk : 0 ≤ ilog2 y - qx := by omega
    obtain ⟨k, hkk⟩ := Int.eq_ofNat_of_zero_le hk
    have hxq : x / (2 : ℚ) ^ qx ≤ (((2 : ℤ) ^ k : ℤ) : ℚ) := by
      rw [div_le_iff₀ (by positivity)]
      push_cast
      rw [← zpow_natCast, ← hkk, ← zpow_add₀ two_ne]
      have : ilog2 y - qx + qx = ilog2 y := by ring
      rw [this]
      exact le_trans x2.le (zpow_le_zpow_right₀ (by norm_num) hey)
    have hrx := rne_mono hxq
    rw [rne_intCast] at hrx
    have hrxq : (rne (x / (2 : ℚ) ^ qx) : ℚ) ≤ (2 : ℚ) ^ (k : ℤ) := by
      rw [zpow_natCast]; exact_mod_cast hrx
    have hux : (rne (x / (2 : ℚ) ^ qx) : ℚ) * (2 : ℚ) ^ qx ≤ (2 : ℚ) ^ ilog2 y := by
      calc (rne (x / (2 : ℚ) ^ qx) : ℚ) * (2 : ℚ) ^ qx
          ≤ (2 : ℚ) ^ (k : ℤ) * (2 : ℚ) ^ qx :=
            mul_le_mul_of_nonneg_right hrxq (by positivity)
        _ = (2 : ℚ) ^ ilog2 y := by
            rw [← zpow_add₀ two_ne, ← hkk]; congr 1; ring
    -- lower bound for the rounding of y
    have hj : 0 ≤ ilog2 y - qy := by omega
    obtain ⟨j, hjj⟩ := Int.eq_ofNat_of_zero_le hj
    have hyq : (((2 : ℤ) ^ j : ℤ) : ℚ) ≤ y / (2 : ℚ) ^ qy := by
      rw [le_div_iff₀ (by positivity)]
      push_cast
      rw [← zpow_natCast, ← hjj, ← zpow_add₀ two_ne]
      have : ilog2 y - qy + qy = ilog2 y := by ring
      rw [this]
      exact y1
    have hry := rne_mono hyq
    rw [rne_intCast] at hry
    have hryq : (2 : ℚ) ^ (j : ℤ) ≤ (rne (y / (2 : ℚ) ^ qy) : ℚ) := by
      rw [zpow_natCast]; exact_mod_cast hry
    have hly : (2 : ℚ) ^ ilog2 y ≤ (rne (y / (2 : ℚ) ^ qy) : ℚ) * (2 : ℚ) ^ qy := by
      calc (2 : ℚ) ^ ilog2 y = (2 : ℚ) ^ (j : ℤ) * (2 : ℚ) ^ qy := by
            rw [← zpow_add₀ two_ne, ← hjj]; congr 1; ring
        _ ≤ (rne (y / (2 : ℚ) ^ qy) : ℚ) * (2 : ℚ) ^ qy :=
            mul_le_mul_of_nonneg_right hryq (by positivity)
    exact le_trans hux hly
  · rw [← heq]
    have : rne (x / (2 : ℚ) ^ qx) ≤ rne (y / (2 : ℚ) ^ qx) :=
      rne_mono (div_le_div_of_nonneg_right h (by positivity))
    have hq : (rne (x / (2 : ℚ) ^ qx) : ℚ) ≤ (rne (y / (2 : ℚ) ^ qx) : ℚ) := by
      exact_mod_cast this
    exact mul_le_mul_of_nonneg_right hq (by positivity)

theorem roundTo_mono (prec : ℕ) (hprec : 1 ≤ prec) (emin : ℤ) {x y : ℚ} (h : x ≤ y) :
    roundTo prec emin x ≤ roundTo prec emin y := by
  rcases lt_trichotomy x 0 with hx | hx | hx
  · rcases lt_or_le y 0 with hy | hy
    · have := roundTo_mono_pos prec hprec emin (neg_pos.mpr hy) (neg_le_neg h)
      rw [roundTo_neg, roundTo_neg] at this
      linarith
    · have h1 := roundTo_nonneg prec emin (neg_pos.mpr hx).le
      rw [roundTo_neg] at h1
      have h2 := roundTo_nonneg prec emin hy
      linarith
  · subst hx
    rw [roundTo_zero]
    exact roundTo_nonneg prec emin h
  · exact roundTo_mono_pos prec hprec emin hx h

theorem roundTo_fix (prec : ℕ) (emin : ℤ) (m e : ℤ) (hm : |m| < 2 ^ prec) (he : emin ≤ e) :
    roundTo prec emin ((m : ℚ) * (2 : ℚ) ^ e) = (m : ℚ) * (2 : ℚ) ^ e := by
  by_cases hm0 : m = 0
  · subst hm0; simp [roundTo_zero]
  have two_ne : (2 : ℚ) ≠ 0 := by norm_num
  have hx : (m : ℚ) * (2 : ℚ) ^ e ≠ 0 := by
    apply mul_ne_zero
    · exact_mod_cast hm0
    · positivity
  obtain ⟨x1, x2⟩ := ilog2_spec _ hx
  set L := ilog2 ((m : ℚ) * (2 : ℚ) ^ e) with hL
  have habs : |(m : ℚ) * (2 : ℚ) ^ e| = (|m| : ℤ) * (2 : ℚ) ^ e := by
    rw [abs_mul, abs_of_pos (by positivity : (0 : ℚ) < (2 : ℚ) ^ e)]
    push_cast
    rfl
  have hlt : (2 : ℚ) ^ L < (2 : ℚ) ^ ((prec : ℤ) + e) := by
    calc (2 : ℚ) ^ L ≤ |(m : ℚ) * (2 : ℚ) ^ e| := x1
      _ = (|m| : ℤ) * (2 : ℚ) ^ e := habs
      _ < (2 : ℚ) ^ (prec : ℤ) * (2 : ℚ) ^ e := by
          apply mul_lt_mul_of_pos_right _ (by positivity)
          rw [zpow_natCast]
          exact_mod_cast hm
      _ = (2 : ℚ) ^ ((prec : ℤ) + e) := by rw [← zpow_add₀ two_ne]
  have hLlt : L < (prec : ℤ) + e := (zpow_lt_zpow_iff_right₀ (by norm_num : (1 : ℚ) < 2)).mp hlt
  unfold roundTo
  simp only [hx, if_false, pow2_eq, ← hL]
  set q := max (L - ((prec : ℤ) - 1)) emin with hq
  have hqe : q ≤ e := max_le (by omega) he
  obtain ⟨k, hk⟩ := Int.eq_ofNat_of_zero_le (by omega : 0 ≤ e - q)
  have hdiv : (m : ℚ) * (2 : ℚ) ^ e / (2 : ℚ) ^ q = ((m * 2 ^ k : ℤ) : ℚ) := by
    rw [mul_div_assoc, ← zpow_sub₀ two_ne, hk]
    push_cast
    rw [zpow_natCast]
  rw [hdiv, rne_intCast]
  push_cast
  rw [mul_assoc, ← zpow_natCast, ← hk, ← zpow_add₀ two_ne]
  congr 2
  ring


/-! ### Facts about `f32` -/

theorem f32_mono {x y : ℚ} (h : x ≤ y) : f32 x ≤ f32 y :=
  roundTo_mono 24 (by norm_num) (-149) h

theorem f32_zero : f32 0 = 0 := roundTo_zero 24 (-149)

theorem f32_nonneg {x : ℚ} (h : 0 ≤ x) : 0 ≤ f32 x := roundTo_nonneg 24 (-149) h

theorem f32_nonpos {x : ℚ} (h : x ≤ 0) : f32 x ≤ 0 := by
  have := f32_mono h
  rwa [f32_zero] at this

theorem f32_neg (x : ℚ) : f32 (-x) = -f32 x := roundTo_neg 24 (-149) x

/-- Every `m * 2 ^ e` with `|m| < 2 ^ 24` and `e ≥ -149` is a binary32 number. -/
theorem f32_fix (m e : ℤ) (hm : |m| < 2 ^ 24) (he : -149 ≤ e) :
    f32 ((m : ℚ) * (2 : ℚ) ^ e) = (m : ℚ) * (2 : ℚ) ^ e :=
  roundTo_fix 24 (-149) m e hm he

theorem f32_intCast (m : ℤ) (hm : |m| < 2 ^ 24) : f32 (m : ℚ) = (m : ℚ) := by
  have := f32_fix m 0 hm (by norm_num)
  simpa using this

theorem f32_one : f32 1 = 1 := by
  have := f32_intCast 1 (by norm_num)
  simpa using this

theorem f32_half : f32 (1/2) = 1/2 := by
  have := f32_fix 1 (-1) (by norm_num) (by norm_num)
  norm_num at this
  simpa using this

theorem f32_le_one {x : ℚ} (h : x ≤ 1) : f32 x ≤ 1 := by
  have := f32_mono h
  rwa [f32_one] at this

theorem f32_one_le {x : ℚ} (h : 1 ≤ x) : 1 ≤ f32 x := by
  have := f32_mono h
  rwa [f32_one] at this

theorem f32_le_half {x : ℚ} (h : x ≤ 1/2) : f32 x ≤ 1/2 := by
  have := f32_mono h
  rwa [f32_half] at this

theorem f32_half_le {x : ℚ} (h : 1/2 ≤ x) : 1/2 ≤ f32 x := by
  have := f32_mono h
  rwa [f32_half] at this

/-! ### The range of the rounding function -/

theorem rne_abs_le (q : ℚ) (n : ℕ) (h : |q| ≤ (2 : ℚ) ^ n) : |rne q| ≤ 2 ^ n := by
  have h1 := abs_le.mp h
  have hi : (((2 : ℤ) ^ n : ℤ) : ℚ) = (2 : ℚ) ^ n := by push_cast; rfl
  have a := rne_mono (show q ≤ (((2 : ℤ) ^ n : ℤ) : ℚ) by rw [hi]; exact h1.2)
  have b := rne_mono (show ((-(2 : ℤ) ^ n : ℤ) : ℚ) ≤ q by push_cast; exact h1.1)
  rw [rne_intCast] at a b
  exact abs_le.mpr ⟨b, a⟩

/-- Rounding is the identity on its own results. -/
theorem roundTo_idem (prec : ℕ) (hprec : 1 ≤ prec) (emin : ℤ) (x : ℚ) :
    roundTo prec emin (roundTo prec emin x) = roundTo prec emin x := by
  by_cases hx : x = 0
  · subst hx; simp [roundTo_zero]
  have two_ne : (2 : ℚ) ≠ 0 := by norm_num
  obtain ⟨_, x2⟩ := ilog2_spec x hx
  have hdef : roundTo prec emin x =
      (rne (x / (2 : ℚ) ^ (max (ilog2 x - ((prec : ℤ) - 1)) emin)) : ℚ) *
        (2 : ℚ) ^ (max (ilog2 x - ((prec : ℤ) - 1)) emin) := by
    unfold roundTo
    simp only [hx, if_false, pow2_eq]
  set q := max (ilog2 x - ((prec : ℤ) - 1)) emin with hq
  have hq1 : ilog2 x - ((prec : ℤ) - 1) ≤ q := le_max_left _ _
  have hq2 : emin ≤ q := le_max_right _ _
  have hbound : |x / (2 : ℚ) ^ q| ≤ (2 : ℚ) ^ prec := by
    rw [abs_div, abs_of_pos (by positivity : (0 : ℚ) < (2 : ℚ) ^ q), div_le_iff₀ (by positivity)]
    calc |x| ≤ (2 : ℚ) ^ (ilog2 x + 1) := x2.le
      _ ≤ (2 : ℚ) ^ ((prec : ℤ) + q) := zpow_le_zpow_right₀ (by norm_num) (by omega)
      _ = (2 : ℚ) ^ prec * (2 : ℚ) ^ q := by rw [zpow_add₀ two_ne, zpow_natCast]
  have hm := rne_abs_le _ prec hbound
  set m := rne (x / (2 : ℚ) ^ q) with hmdef
  rw [hdef]
  rcases lt_or_eq_of_le hm with hlt | heq
  · exact roundTo_fix prec emin m q hlt hq2
  · -- the result is a power of two: write it with the next exponent
    obtain ⟨p, hp⟩ : ∃ p : ℕ, prec = p + 1 := ⟨prec - 1, by omega⟩
    have hhalf : ∃ m2 : ℤ, m = 2 * m2 ∧ |m2| < 2 ^ prec := by
      rcases abs_choice m with h | h
      · refine ⟨2 ^ p, ?_, ?_⟩
        · rw [h] at heq; rw [heq, hp, pow_succ]; ring
        · rw [abs_of_pos (by positivity), hp]
          exact pow_lt_pow_right₀ (by norm_num) (by omega)
      · refine ⟨-(2 ^ p), ?_, ?_⟩
        · rw [h] at heq
          have : m = -(2 ^ prec) := by omega
          rw [this, hp, pow_succ]; ring
        · rw [abs_neg, abs_of_pos (by positivity), hp]
          exact pow_lt_pow_right₀ (by norm_num) (by omega)
    obtain ⟨m2, hm2, hlt2⟩ := hhalf
    have hre : (m : ℚ) * (2 : ℚ) ^ q = (m2 : ℚ) * (2 : ℚ) ^ (q + 1) := by
      rw [hm2, zpow_add₀ two_ne]
      push_cast
      ring
    rw [hre]
    exact roundTo_fix prec emin m2 (q + 1) hlt2 (by omega)

theorem f32_idem (x : ℚ) : f32 (f32 x) = f32 x := roundTo_idem 24 (by norm_num) (-149) x

theorem f32_pos_of_ge {x : ℚ} (h : (1 : ℚ) / 128 ≤ x) : 0 < f32 x := by
  have h1 := f32_fix 1 (-7) (by norm_num) (by norm_num)
  have h2 : ((1 : ℤ) : ℚ) * (2 : ℚ) ^ (-7 : ℤ) = 1 / 128 := by
    rw [zpow_neg]; norm_num
  rw [h2] at h1
  have := f32_mono h
  rw [h1] at this
  linarith

theorem roundf_mono {a b : t_float} (h : a ≤ b) : roundf a ≤ roundf b := by
  unfold roundf
  split_ifs with h1 h2 h2
  · exact_mod_cast Int.floor_le_floor (by linarith)
  · exfalso; linarith
  · have c1 : ⌈a - 1 / 2⌉ ≤ 0 := by
      rw [Int.ceil_le]; push_cast; linarith
    have c2 : 0 ≤ ⌊b + 1 / 2⌋ := by
      rw [Int.le_floor]; push_cast; linarith
    exact_mod_cast le_trans c1 c2
  · exact_mod_cast Int.ceil_le_ceil (by linarith)

theorem roundf_nonneg {a : t_float} (h : 0 ≤ a) : 0 ≤ roundf a := by
  unfold roundf
  simp only [h, if_true]
  have : 0 ≤ ⌊a + 1 / 2⌋ := by
    rw [Int.le_floor]; push_cast; linarith
  exact_mod_cast this

/-! ## Pattern store lemmas -/

theorem int_of_float_intCast (z : ℤ) (h0 : -2147483648 ≤ z) (h1 : z ≤ 2147483647) :
    int_of_float ((z : ℤ) : ℚ) = z := by
  have ht : (if (0 : ℚ) ≤ (z : ℚ) then ⌊(z : ℚ)⌋ else ⌈(z : ℚ)⌉) = z := by
    split_ifs <;> simp
  unfold int_of_float
  simp only [ht]
  rw [if_pos ⟨h0, h1⟩]

/-- Below the `int` range the conversion gives `INT_MIN`. -/
theorem int_of_float_intCast_low (z : ℤ) (h : z < -2147483648) :
    int_of_float ((z : ℤ) : ℚ) = -2147483648 := by
  have ht : (if (0 : ℚ) ≤ (z : ℚ) then ⌊(z : ℚ)⌋ else ⌈(z : ℚ)⌉) = z := by
    split_ifs <;> simp
  unfold int_of_float
  simp only [ht]
  rw [if_neg (fun hc => by omega)]

/-- The result of the conversion is an `int`. -/
theorem int_of_float_range (f : t_float) :
    -2147483648 ≤ int_of_float f ∧ int_of_float f ≤ 2147483647 := by
  unfold int_of_float
  dsimp only
  split_ifs with h1 h2 h2
  · exact h2
  · omega
  · exact h2
  · omega

theorem events_length (x : t_telomere) : (events x).length = x.num_events := by
  simp [events]

theorem foldl_num_events {α : Type} (f : t_telomere → α → t_telomere)
    (hf : ∀ x a, (f x a).num_events = x.num_events) (l : List α) (x : t_telomere) :
    (l.foldl f x).num_events = x.num_events := by
  induction l generalizing x with
  | nil => rfl
  | cons a l ih => rw [List.foldl_cons, ih, hf]

@[simp] theorem pattern_set_event_num_events (x : t_telomere) (i : ℤ) (v : t_float) :
    (pattern_set_event x i v).num_events = x.num_events := by
  unfold pattern_set_event
  split_ifs <;> rfl

@[simp] theorem pattern_sort_num_events (x : t_telomere) :
    (pattern_sort x).num_events = x.num_events := rfl

@[simp] theorem pattern_ensure_capacity_num_events (x : t_telomere) (needed : ℕ) :
    (pattern_ensure_capacity x needed).num_events = x.num_events := by
  unfold pattern_ensure_capacity
  split_ifs <;> rfl

@[simp] theorem pattern_ensure_capacity_pattern (x : t_telomere) (needed : ℕ) :
    (pattern_ensure_capacity x needed).pattern = x.pattern := by
  unfold pattern_ensure_capacity
  split_ifs <;> rfl

/-- The clamped size used by `pattern_resize` and `pattern_replace`. -/
theorem clamp_size_eq (new_size : ℤ) :
    (if (if new_size < 0 then 0 else new_size) > (TELOMERE_MAX_EVENTS : ℤ)
      then (TELOMERE_MAX_EVENTS : ℤ) else (if new_size < 0 then 0 else new_size))
      = min (max new_size 0) 256 := by
  unfold TELOMERE_MAX_EVENTS
  split_ifs <;> omega

theorem pattern_resize_num_events (x : t_telomere) (new_size : ℤ) :
    (pattern_resize x new_size).num_events = (min (max new_size 0) 256).toNat := by
  unfold pattern_resize
  simp only [clamp_size_eq]

theorem pattern_resize_pattern (x : t_telomere) (new_size : ℤ) (i : ℕ) :
    (pattern_resize x new_size).pattern i =
      if x.num_events ≤ i ∧ i < (min (max new_size 0) 256).toNat then 0 else x.pattern i := by
  unfold pattern_resize
  simp only [clamp_size_eq, pattern_ensure_capacity_num_events, pattern_ensure_capacity_pattern]
  by_cases h : (min (max new_size 0) 256).toNat > x.num_events
  · simp only [h, if_true]
  · simp only [h, if_false, pattern_ensure_capacity_pattern]
    have : ¬ (x.num_events ≤ i ∧ i < (min (max new_size 0) 256).toNat) := by omega
    simp only [this, if_false]

theorem transform_palindrome_num_events (x : t_telomere) (argv : List t_atom)
    (h : 1 ≤ x.num_events) :
    (transform_palindrome x argv).num_events = min (2 * x.num_events) 256 := by
  unfold transform_palindrome pattern_num_events
  have h0 : x.num_events ≠ 0 := by omega
  simp only [h0, if_false, pattern_sort_num_events]
  rw [foldl_num_events _ (fun x a => by simp), pattern_resize_num_events]
  omega

/-! ## Correctness of `pattern_sort` -/

/-- The first `n` slots of a buffer, as a list. -/
theorem slots_succ (p : ℕ → t_float) (n : ℕ) :
    (List.range (n + 1)).map p = (List.range n).map p ++ [p n] := by
  rw [List.range_succ, List.map_append, List.map_singleton]

theorem slots_congr {p q : ℕ → t_float} {n : ℕ} (h : ∀ t, t < n → p t = q t) :
    (List.range n).map p = (List.range n).map q := by
  apply List.map_congr_left
  intro a ha
  exact h a (List.mem_range.mp ha)

theorem sorted_snoc {l : List t_float} {b : t_float} (hs : l.Sorted (· ≤ ·))
    (hb : ∀ a ∈ l, a ≤ b) : (l ++ [b]).Sorted (· ≤ ·) := by
  apply List.pairwise_append.mpr
  refine ⟨hs, List.pairwise_singleton _ _, ?_⟩
  intro a ha c hc
  rw [List.mem_singleton] at hc
  subst hc
  exact hb a ha

theorem sorted_of_snoc {l : List t_float} {b : t_float} (hs : (l ++ [b]).Sorted (· ≤ ·)) :
    l.Sorted (· ≤ ·) ∧ ∀ a ∈ l, a ≤ b := by
  have h := List.pairwise_append.mp hs
  exact ⟨h.1, fun a ha => h.2.2 a ha b (List.mem_singleton_self _)⟩

theorem slots_one (p : ℕ → t_float) : (List.range 1).map p = [p 0] := rfl

theorem sort_inner_spec (key : t_float) :
    ∀ (m : ℕ) (p : ℕ → t_float),
      (∀ t, m < t → sort_inner p key m t = p t) ∧
      ((List.range (m + 1)).map (sort_inner p key m)).Perm ((List.range m).map p ++ [key]) ∧
      (((List.range m).map p).Sorted (· ≤ ·) →
        ((List.range (m + 1)).map (sort_inner p key m)).Sorted (· ≤ ·)) := by
  intro m
  induction m with
  | zero =>
    intro p
    refine ⟨?_, ?_, ?_⟩
    · intro t ht
      simp only [sort_inner]
      exact Function.update_noteq (by omega) _ _
    · simp only [sort_inner, slots_one, Function.update_same, List.range_zero, List.map_nil,
        List.nil_append]
      exact List.Perm.refl _
    · intro _
      simp only [sort_inner, slots_one]
      exact List.sorted_singleton _
  | succ j ih =>
    intro p
    by_cases hgt : p j > key
    · have hdef : sort_inner p key (j + 1) =
          sort_inner (Function.update p (j + 1) (p j)) key j := by
        simp only [sort_inner, hgt, if_true]
      obtain ⟨ia, ib, ic⟩ := ih (Function.update p (j + 1) (p j))
      have hlow : (List.range j).map (Function.update p (j + 1) (p j)) = (List.range j).map p :=
        slots_congr (fun t ht => Function.update_noteq (by omega) _ _)
      rw [hlow] at ib ic
      have hq : sort_inner p key (j + 1) (j + 1) = p j := by
        rw [hdef, ia (j + 1) (by omega)]
        exact Function.update_same _ _ _
      refine ⟨?_, ?_, ?_⟩
      · intro t ht
        rw [hdef, ia t (by omega)]
        exact Function.update_noteq (by omega) _ _
      · rw [slots_succ (sort_inner p key (j + 1)) (j + 1), hq, slots_succ p j]
        have h1 : ((List.range (j + 1)).map (sort_inner p key (j + 1)) ++ [p j]).Perm
            (((List.range j).map p ++ [key]) ++ [p j]) := by
          rw [hdef]; exact ib.append_right _
        refine h1.trans ?_
        rw [List.append_assoc, List.append_assoc]
        exact List.Perm.append_left _ (List.Perm.swap _ _ _)
      · intro hs
        rw [slots_succ (sort_inner p key (j + 1)) (j + 1), hq]
        rw [slots_succ] at hs
        have hs' := sorted_of_snoc hs
        have hsorted := ic hs'.1
        rw [← hdef] at hsorted ib
        apply sorted_snoc hsorted
        intro a ha
        have ha' := ib.mem_iff.mp ha
        rcases List.mem_append.mp ha' with h1 | h1
        · exact hs'.2 a h1
        · rw [List.mem_singleton] at h1
          subst h1
          exact le_of_lt hgt
    · have hdef : sort_inner p key (j + 1) = Function.update p (j + 1) key := by
        simp only [sort_inner, hgt, if_false]
      have hlow : (List.range (j + 1)).map (Function.update p (j + 1) key)
          = (List.range (j + 1)).map p :=
        slots_congr (fun t ht => Function.update_noteq (by omega) _ _)
      refine ⟨?_, ?_, ?_⟩
      · intro t ht
        rw [hdef]
        exact Function.update_noteq (by omega) _ _
      · rw [hdef, slots_succ (Function.update p (j + 1) key), hlow, Function.update_same]
      · intro hs
        rw [hdef, slots_succ (Function.update p (j + 1) key), hlow, Function.update_same]
        apply sorted_snoc hs
        intro a ha
        rw [slots_succ] at hs ha
        have hs' := sorted_of_snoc hs
        have hle : p j ≤ key := not_lt.mp hgt
        rcases List.mem_append.mp ha with h1 | h1
        · exact le_trans (hs'.2 a h1) hle
        · rw [List.mem_singleton] at h1
          subst h1
          exact hle

/-- The state of `sort_outer` after `m` iterations. -/
theorem sort_outer_step (p : ℕ → t_float) (m : ℕ) :
    (List.range (m + 1)).foldl (fun p k => sort_inner p (p (k + 1)) (k + 1)) p =
      sort_inner ((List.range m).foldl (fun p k => sort_inner p (p (k + 1)) (k + 1)) p)
        (((List.range m).foldl (fun p k => sort_inner p (p (k + 1)) (k + 1)) p) (m + 1))
        (m + 1) := by
  rw [List.range_succ, List.foldl_append]
  rfl

theorem sort_outer_invariant (p : ℕ → t_float) :
    ∀ m : ℕ,
      (∀ t, m < t →
        (List.range m).foldl (fun p k => sort_inner p (p (k + 1)) (k + 1)) p t = p t) ∧
      ((List.range (m + 1)).map
        ((List.range m).foldl (fun p k => sort_inner p (p (k + 1)) (k + 1)) p)).Perm
          ((List.range (m + 1)).map p) ∧
      ((List.range (m + 1)).map
        ((List.range m).foldl (fun p k => sort_inner p (p (k + 1)) (k + 1)) p)).Sorted (· ≤ ·) := by
  intro m
  induction m with
  | zero =>
    refine ⟨fun t _ => rfl, ?_, ?_⟩
    · exact List.Perm.refl _
    · simp only [List.range_zero, List.foldl_nil, slots_one]
      exact List.sorted_singleton _
  | succ m ih =>
    obtain ⟨ha, hb, hc⟩ := ih
    rw [sort_outer_step]
    set pm := (List.range m).foldl (fun p k => sort_inner p (p (k + 1)) (k + 1)) p with hpm
    obtain ⟨ia, ib, ic⟩ := sort_inner_spec (pm (m + 1)) (m + 1) pm
    refine ⟨?_, ?_, ?_⟩
    · intro t ht
      rw [ia t ht, ha t (by omega)]
    · refine ib.trans ?_
      rw [slots_succ p (m + 1), ha (m + 1) (by omega)]
      exact hb.append_right _
    · exact ic hc

theorem sort_outer_spec (p : ℕ → t_float) (n : ℕ) :
    (∀ t, n ≤ t → sort_outer p n t = p t) ∧
    ((List.range n).map (sort_outer p n)).Perm ((List.range n).map p) ∧
    ((List.range n).map (sort_outer p n)).Sorted (· ≤ ·) := by
  cases n with
  | zero =>
    refine ⟨fun t _ => rfl, ?_, ?_⟩ <;> simp
  | succ m =>
    obtain ⟨ha, hb, hc⟩ := sort_outer_invariant p m
    unfold sort_outer
    simp only [Nat.add_sub_cancel]
    exact ⟨fun t ht => ha t (by omega), hb, hc⟩

theorem events_pattern_sort_perm (x : t_telomere) :
    (events (pattern_sort x)).Perm (events x) :=
  (sort_outer_spec x.pattern x.num_events).2.1

theorem events_pattern_sort_sorted (x : t_telomere) :
    (events (pattern_sort x)).Sorted (· ≤ ·) :=
  (sort_outer_spec x.pattern x.num_events).2.2

theorem pattern_sort_pattern_beyond (x : t_telomere) (t : ℕ) (h : x.num_events ≤ t) :
    (pattern_sort x).pattern t = x.pattern t :=
  (sort_outer_spec x.pattern x.num_events).1 t h

/-- When a sorted list is a rearrangement of the stored events, it is what
`pattern_sort` leaves. -/
theorem events_pattern_sort_eq (x : t_telomere) (l : List t_float)
    (hp : l.Perm (events x)) (hs : l.Sorted (· ≤ ·)) :
    events (pattern_sort x) = l :=
  List.eq_of_perm_of_sorted ((events_pattern_sort_perm x).trans hp.symm)
    (events_pattern_sort_sorted x) hs

theorem events_pattern_sort_of_sorted (x : t_telomere) (hs : (events x).Sorted (· ≤ ·)) :
    events (pattern_sort x) = events x :=
  events_pattern_sort_eq x (events x) (List.Perm.refl _) hs

theorem sorted_perm_eq_insertionSort {l m : List t_float} (hp : l.Perm m)
    (hs : l.Sorted (· ≤ ·)) : l = m.insertionSort (· ≤ ·) :=
  List.eq_of_perm_of_sorted (hp.trans (List.perm_insertionSort _ _).symm) hs
    (List.sorted_insertionSort _ _)

/-! ## Skip and degrade -/

theorem pattern_get_event_of_lt (x : t_telomere) (i : ℕ) (h : i < x.num_events) :
    pattern_get_event x (i : ℤ) = x.pattern i := by
  unfold pattern_get_event
  have : ¬ ((i : ℤ) < 0 ∨ (i : ℤ) ≥ (x.num_events : ℤ)) := by omega
  simp only [this, if_false, Int.toNat_ofNat]

theorem survivors_of_eq (draws : ℕ → t_float) (x : t_telomere) (prob : t_float) :
    ∀ m : ℕ, m ≤ x.num_events →
      survivors_of draws x m prob =
        ((List.range m).filter (fun i => decide (prob ≤ draws i))).map x.pattern := by
  intro m
  induction m with
  | zero => intro _; rfl
  | succ m ih =>
    intro hm
    have ih' := ih (by omega)
    unfold survivors_of at ih' ⊢
    rw [List.range_succ, List.foldl_append, ih', List.filter_append, List.map_append]
    simp only [List.foldl_cons, List.foldl_nil, ge_iff_le]
    by_cases hd : prob ≤ draws m
    · simp only [hd, if_true, List.filter_cons, decide_True, List.filter_nil, List.map_cons,
        List.map_nil]
      rw [pattern_get_event_of_lt x m (by omega)]
    · simp only [hd, if_false, List.filter_cons, decide_False, List.filter_nil, List.map_nil,
        List.append_nil]
      simp

theorem events_pattern_replace (x : t_telomere) (l : List t_float) (h : l.length ≤ 256) :
    events (pattern_replace x l (l.length : ℤ)) = l := by
  unfold pattern_replace events
  simp only [clamp_size_eq]
  have hc : (min (max (l.length : ℤ) 0) 256).toNat = l.length := by omega
  simp only [hc]
  apply List.ext_getElem
  · simp
  · intro i h1 h2
    simp only [List.length_map, List.length_range] at h1
    simp only [List.getElem_map, List.getElem_range, h1, if_true]
    exact List.getD_eq_getElem l 0 h2

theorem pattern_replace_num_events (x : t_telomere) (l : List t_float) (h : l.length ≤ 256) :
    (pattern_replace x l (l.length : ℤ)).num_events = l.length := by
  unfold pattern_replace
  simp only [clamp_size_eq]
  omega

theorem filter_range_length_le (n : ℕ) (f : ℕ → Bool) :
    ((List.range n).filter f).length ≤ n := by
  have := List.length_filter_le f (List.range n)
  simpa using this

theorem transform_skip_eq (draws : ℕ → t_float) (x : t_telomere) (argv : List t_atom) :
    transform_skip draws x argv =
      if x.num_events = 0 then x
      else pattern_replace x
        (survivors_of draws x x.num_events (clamp_unit (atom_getfloatarg 0 argv)))
        ((survivors_of draws x x.num_events (clamp_unit (atom_getfloatarg 0 argv))).length : ℤ) :=
  rfl

theorem transform_degrade_eq (draws : ℕ → t_float) (x : t_telomere) (argv : List t_atom) :
    transform_degrade draws x argv =
      if x.num_events = 0 then x
      else pattern_replace x
        (if (survivors_of draws x x.num_events (clamp_unit (atom_getfloatarg 0 argv))).length = 0
            ∧ x.num_events > 0
          then [pattern_get_event x 0]
          else survivors_of draws x x.num_events (clamp_unit (atom_getfloatarg 0 argv)))
        ((if (survivors_of draws x x.num_events (clamp_unit (atom_getfloatarg 0 argv))).length = 0
            ∧ x.num_events > 0
          then [pattern_get_event x 0]
          else survivors_of draws x x.num_events
            (clamp_unit (atom_getfloatarg 0 argv))).length : ℤ) :=
  rfl

theorem events_transform_skip (draws : ℕ → t_float) (x : t_telomere) (argv : List t_atom)
    (hcap : x.num_events ≤ 256) :
    events (transform_skip draws x argv) =
      ((List.range x.num_events).filter
        (fun i => decide (clamp_unit (atom_getfloatarg 0 argv) ≤ draws i))).map x.pattern := by
  rw [transform_skip_eq]
  by_cases h0 : x.num_events = 0
  · simp only [h0, if_true, List.range_zero, List.filter_nil, List.map_nil]
    unfold events
    rw [h0]
    rfl
  · simp only [h0, if_false]
    rw [survivors_of_eq draws x _ x.num_events le_rfl]
    apply events_pattern_replace
    rw [List.length_map]
    exact le_trans (filter_range_length_le _ _) hcap

theorem events_transform_degrade (draws : ℕ → t_float) (x : t_telomere) (argv : List t_atom)
    (h1 : 1 ≤ x.num_events) (hcap : x.num_events ≤ 256) :
    events (transform_degrade draws x argv) =
      if ((List.range x.num_events).filter
        (fun i => decide (clamp_unit (atom_getfloatarg 0 argv) ≤ draws i))).length = 0
      then [x.pattern 0]
      else ((List.range x.num_events).filter
        (fun i => decide (clamp_unit (atom_getfloatarg 0 argv) ≤ draws i))).map x.pattern := by
  rw [transform_degrade_eq]
  have h0 : x.num_events ≠ 0 := by omega
  have hpos : x.num_events > 0 := by omega
  simp only [h0, if_false]
  rw [survivors_of_eq draws x _ x.num_events le_rfl]
  simp only [List.length_map, hpos, and_true]
  split_ifs with hz
  · have := pattern_get_event_of_lt x 0 (by omega)
    simp only [Nat.cast_zero] at this
    rw [this]
    exact events_pattern_replace x [x.pattern 0] (by simp)
  · apply events_pattern_replace
    rw [List.length_map]
    exact le_trans (filter_range_length_le _ _) hcap

/-! ## Loops that rewrite every event in place -/

/-- A loop `for (i = 0; i < m; i++) pattern_set_event(x, i, g(i, pattern_get_event(x, i)))`
with `m ≤ num_events` rewrites slot `t < m` to the clamped `g t (pattern[t])` and
touches nothing else. -/
theorem pointwise_loop (g : ℕ → t_float → t_float) (x : t_telomere) :
    ∀ m : ℕ, m ≤ x.num_events →
      (List.range m).foldl
        (fun x (i : ℕ) => pattern_set_event x i (g i (pattern_get_event x i))) x =
      { x with pattern := fun t => if t < m then clamp_unit (g t (x.pattern t)) else x.pattern t }
    := by
  intro m
  induction m with
  | zero =>
    intro _
    simp only [List.range_zero, List.foldl_nil, Nat.not_lt_zero, if_false]
  | succ m ih =>
    intro hm
    rw [List.range_succ, List.foldl_append, ih (by omega)]
    simp only [List.foldl_cons, List.foldl_nil]
    have hidx : ¬ ((m : ℤ) < 0 ∨ (m : ℤ) ≥ (x.num_events : ℤ)) := by omega
    unfold pattern_set_event pattern_get_event
    simp only [hidx, if_false, Int.toNat_ofNat, lt_irrefl]
    congr 1
    funext t
    by_cases htm : t = m
    · subst htm
      simp
    · rw [Function.update_noteq htm]
      by_cases hlt : t < m
      · have : t < m + 1 := by omega
        simp only [hlt, this, if_true]
      · have : ¬ t < m + 1 := by omega
        simp only [hlt, this, if_false]

theorem events_pointwise (x : t_telomere) (f : t_float → t_float) :
    events { x with pattern := fun t =>
      if t < x.num_events then f (x.pattern t) else x.pattern t } = (events x).map f := by
  unfold events
  simp only [List.map_map]
  apply List.map_congr_left
  intro a ha
  have := List.mem_range.mp ha
  simp only [Function.comp, this, if_true]

/-! ## Reverse -/

/-- The value `transform_reverse` computes for a position before storing it. -/
theorem reverse_value_range (p : t_float) :
    0 ≤ (if (if fsub 1 p < 0 then 0 else fsub 1 p) ≥ 1 then 0
          else (if fsub 1 p < 0 then 0 else fsub 1 p)) ∧
    (if (if fsub 1 p < 0 then 0 else fsub 1 p) ≥ 1 then (0 : t_float)
          else (if fsub 1 p < 0 then 0 else fsub 1 p)) < 1 := by
  split_ifs <;> constructor <;> linarith

theorem clamp_unit_of_mem {v : t_float} (h0 : 0 ≤ v) (h1 : v ≤ 1) : clamp_unit v = v := by
  unfold clamp_unit
  have : ¬ v < 0 := not_lt.mpr h0
  have h2 : ¬ v > 1 := not_lt.mpr h1
  simp only [this, if_false, h2]

/-- What `transform_reverse` does to one position. -/
theorem events_transform_reverse_perm (x : t_telomere) (argv : List t_atom) :
    (events (transform_reverse x argv)).Perm
      ((events x).map (fun p =>
        if (if fsub 1 p < 0 then 0 else fsub 1 p) ≥ 1 then 0
        else (if fsub 1 p < 0 then 0 else fsub 1 p))) ∧
    (events (transform_reverse x argv)).Sorted (· ≤ ·) := by
  unfold transform_reverse pattern_num_events
  by_cases h0 : x.num_events = 0
  · simp only [h0, if_true]
    have : events x = [] := by unfold events; rw [h0]; rfl
    rw [this]
    exact ⟨List.Perm.refl _, List.sorted_nil⟩
  · simp only [h0, if_false]
    have hloop := pointwise_loop (fun _ v =>
        if (if fsub 1 v < 0 then 0 else fsub 1 v) ≥ 1 then 0
        else (if fsub 1 v < 0 then 0 else fsub 1 v)) x x.num_events le_rfl
    simp only at hloop
    rw [hloop]
    refine ⟨?_, events_pattern_sort_sorted _⟩
    refine (events_pattern_sort_perm _).trans ?_
    have hcl : ∀ v : t_float, clamp_unit
        (if (if fsub 1 v < 0 then 0 else fsub 1 v) ≥ 1 then 0
          else (if fsub 1 v < 0 then 0 else fsub 1 v)) =
        (if (if fsub 1 v < 0 then 0 else fsub 1 v) ≥ 1 then 0
          else (if fsub 1 v < 0 then 0 else fsub 1 v)) := fun v =>
      clamp_unit_of_mem (reverse_value_range v).1 (reverse_value_range v).2.le
    simp only [hcl]
    rw [events_pointwise x (fun v =>
        if (if fsub 1 v < 0 then 0 else fsub 1 v) ≥ 1 then 0
        else (if fsub 1 v < 0 then 0 else fsub 1 v))]

/-! ## Palindrome -/

/-- The loop of `transform_palindrome` on a pattern already resized to `2 * n`
events: after `m ≤ n` iterations the first `m` slots hold the clamped `a` values
and the last `m` of the `2 * n` slots hold the clamped `b` values, mirrored. -/
theorem palindrome_loop (a b : ℕ → t_float) (n : ℕ) (y : t_telomere)
    (hy : y.num_events = 2 * n) :
    ∀ m : ℕ, m ≤ n →
      (List.range m).foldl (fun x (i : ℕ) =>
        pattern_set_event (pattern_set_event x i (a i)) ((n : ℤ) * 2 - 1 - i) (b i)) y =
      { y with pattern := fun t =>
          if t < m then clamp_unit (a t)
          else if 2 * n - m ≤ t ∧ t < 2 * n then clamp_unit (b (2 * n - 1 - t))
          else y.pattern t } := by
  intro m
  induction m with
  | zero =>
    intro _
    simp only [List.range_zero, List.foldl_nil, Nat.not_lt_zero, if_false]
    have hp : (fun t => if 2 * n - 0 ≤ t ∧ t < 2 * n then clamp_unit (b (2 * n - 1 - t))
        else y.pattern t) = y.pattern := by
      funext t
      have : ¬ (2 * n - 0 ≤ t ∧ t < 2 * n) := by omega
      simp only [this, if_false]
    rw [hp]
  | succ m ih =>
    intro hm
    rw [List.range_succ, List.foldl_append, ih (by omega)]
    simp only [List.foldl_cons, List.foldl_nil]
    have hidx : ¬ ((m : ℤ) < 0 ∨ (m : ℤ) ≥ (y.num_events : ℤ)) := by omega
    have hidx2 : ¬ ((n : ℤ) * 2 - 1 - (m : ℤ) < 0 ∨
        (n : ℤ) * 2 - 1 - (m : ℤ) ≥ (y.num_events : ℤ)) := by omega
    have htn : ((n : ℤ) * 2 - 1 - (m : ℤ)).toNat = 2 * n - 1 - m := by omega
    unfold pattern_set_event
    simp only [hidx, hidx2, if_false, Int.toNat_ofNat, htn]
    congr 1
    funext t
    by_cases ht2 : t = 2 * n - 1 - m
    · subst ht2
      have c1 : ¬ (2 * n - 1 - m < m + 1) := by omega
      have c2 : 2 * n - (m + 1) ≤ 2 * n - 1 - m ∧ 2 * n - 1 - m < 2 * n := by omega
      have c3 : 2 * n - 1 - (2 * n - 1 - m) = m := by omega
      simp only [Function.update_same, c1, c2, if_false, if_true, and_self, c3]
    · rw [Function.update_noteq ht2]
      by_cases ht1 : t = m
      · subst ht1
        simp
      · rw [Function.update_noteq ht1]
        by_cases hlt : t < m
        · have : t < m + 1 := by omega
          simp only [hlt, this, if_true]
        · have h1 : ¬ t < m + 1 := by omega
          simp only [hlt, h1, if_false]
          by_cases hr : 2 * n - m ≤ t ∧ t < 2 * n
          · have : 2 * n - (m + 1) ≤ t ∧ t < 2 * n := by omega
            simp only [hr, this, and_self, if_true]
          · have : ¬ (2 * n - (m + 1) ≤ t ∧ t < 2 * n) := by omega
            simp only [hr, this, if_false]

/-- The indices `0 .. 2n-1` are the indices `0 .. n-1` followed by their mirror
images `2n-1-j`, up to order. -/
theorem range_double_perm (n : ℕ) :
    (List.range (2 * n)).Perm
      (List.range n ++ (List.range n).map (fun j => 2 * n - 1 - j)) := by
  rw [List.perm_ext_iff_of_nodup (List.nodup_range _)]
  · intro t
    simp only [List.mem_range, List.mem_append, List.mem_map]
    constructor
    · intro ht
      by_cases h : t < n
      · exact Or.inl h
      · exact Or.inr ⟨2 * n - 1 - t, by omega, by omega⟩
    · rintro (h | ⟨j, hj, rfl⟩) <;> omega
  · rw [List.nodup_append]
    refine ⟨List.nodup_range _, ?_, ?_⟩
    · apply List.Nodup.map_on _ (List.nodup_range _)
      intro a ha b hb hab
      rw [List.mem_range] at ha hb
      omega
    · intro t h1 h2
      rw [List.mem_range] at h1
      obtain ⟨j, hj, rfl⟩ := List.mem_map.mp h2
      rw [List.mem_range] at hj
      omega

theorem half_mono {p q : t_float} (h : p ≤ q) : fmul p (1/2) ≤ fmul q (1/2) := by
  unfold fmul
  apply f32_mono
  linarith

theorem half_range {p : t_float} (h0 : 0 ≤ p) (h1 : p ≤ 1) :
    0 ≤ fmul p (1/2) ∧ fmul p (1/2) ≤ 1/2 := by
  unfold fmul
  exact ⟨f32_nonneg (by linarith), f32_le_half (by linarith)⟩

theorem mirror_mono {p q : t_float} (h : p ≤ q) :
    fadd (1/2) (fmul p (1/2)) ≤ fadd (1/2) (fmul q (1/2)) := by
  unfold fadd
  apply f32_mono
  have := half_mono h
  linarith

theorem mirror_range {p : t_float} (h0 : 0 ≤ p) (h1 : p ≤ 1) :
    1/2 ≤ fadd (1/2) (fmul p (1/2)) ∧ fadd (1/2) (fmul p (1/2)) ≤ 1 := by
  have := half_range h0 h1
  unfold fadd
  exact ⟨f32_half_le (by linarith), f32_le_one (by linarith)⟩

theorem getD_events (x : t_telomere) (i : ℕ) (h : i < x.num_events) :
    (events x).getD i 0 = x.pattern i := by
  unfold events
  rw [List.getD_eq_getElem _ _ (by simpa using h)]
  simp

/-- Before its final sort, `transform_palindrome` holds the halved positions
followed by the mirrored positions in reverse index order. -/
theorem events_transform_palindrome_perm (x : t_telomere) (argv : List t_atom)
    (h1 : 1 ≤ x.num_events) (h2 : x.num_events ≤ 128)
    (hr : ∀ p ∈ events x, 0 ≤ p ∧ p < 1) :
    (events (transform_palindrome x argv)).Perm
      ((events x).map (fun p => fmul p (1/2)) ++
        (events x).map (fun p => fadd (1/2) (fmul p (1/2)))) := by
  unfold transform_palindrome pattern_num_events pattern_copy_to
  have h0 : x.num_events ≠ 0 := by omega
  simp only [h0, if_false]
  refine (events_pattern_sort_perm _).trans ?_
  have hy : (pattern_resize x ((x.num_events : ℤ) * 2)).num_events = 2 * x.num_events := by
    rw [pattern_resize_num_events]
    omega
  have hloop := palindrome_loop (fun i => fmul ((events x).getD i 0) (1/2))
    (fun i => fadd (1/2) (fmul ((events x).getD i 0) (1/2))) x.num_events
    (pattern_resize x ((x.num_events : ℤ) * 2)) hy x.num_events le_rfl
  simp only at hloop
  rw [hloop]
  have hmem : ∀ i, i < x.num_events → 0 ≤ x.pattern i ∧ x.pattern i < 1 := by
    intro i hi
    apply hr
    unfold events
    exact List.mem_map.mpr ⟨i, List.mem_range.mpr hi, rfl⟩
  have hev : ∀ (P : ℕ → t_float) (z : t_telomere), z.num_events = 2 * x.num_events →
      events { z with pattern := P } = (List.range (2 * x.num_events)).map P := by
    intro P z hz
    unfold events
    simp only [hz]
  rw [hev _ _ hy]
  refine ((range_double_perm x.num_events).map _).trans ?_
  rw [List.map_append, List.map_map]
  have hA : (events x).map (fun p => fmul p (1/2)) =
      (List.range x.num_events).map (fun i => fmul (x.pattern i) (1/2)) := by
    unfold events
    rw [List.map_map]
    rfl
  have hB : (events x).map (fun p => fadd (1/2) (fmul p (1/2))) =
      (List.range x.num_events).map (fun i => fadd (1/2) (fmul (x.pattern i) (1/2))) := by
    unfold events
    rw [List.map_map]
    rfl
  rw [hA, hB]
  have e1 : ∀ i ∈ List.range x.num_events,
      (fun t =>
        if t < x.num_events then clamp_unit (fmul ((events x).getD t 0) (1/2))
        else if 2 * x.num_events - x.num_events ≤ t ∧ t < 2 * x.num_events then
          clamp_unit (fadd (1/2) (fmul ((events x).getD (2 * x.num_events - 1 - t) 0) (1/2)))
        else (pattern_resize x ((x.num_events : ℤ) * 2)).pattern t) i =
      (fun i => fmul (x.pattern i) (1/2)) i := by
    intro i hi
    rw [List.mem_range] at hi
    have hb := hmem i hi
    have hh := half_range hb.1 hb.2.le
    simp only [hi, if_true, getD_events x i hi]
    exact clamp_unit_of_mem hh.1 (by linarith [hh.2])
  have e2 : ∀ i ∈ List.range x.num_events,
      ((fun t =>
        if t < x.num_events then clamp_unit (fmul ((events x).getD t 0) (1/2))
        else if 2 * x.num_events - x.num_events ≤ t ∧ t < 2 * x.num_events then
          clamp_unit (fadd (1/2) (fmul ((events x).getD (2 * x.num_events - 1 - t) 0) (1/2)))
        else (pattern_resize x ((x.num_events : ℤ) * 2)).pattern t) ∘
          (fun j => 2 * x.num_events - 1 - j)) i =
      (fun i => fadd (1/2) (fmul (x.pattern i) (1/2))) i := by
    intro i hi
    rw [List.mem_range] at hi
    have hb := hmem i hi
    have hh := mirror_range hb.1 hb.2.le
    have c1 : ¬ (2 * x.num_events - 1 - i < x.num_events) := by omega
    have c2 : 2 * x.num_events - x.num_events ≤ 2 * x.num_events - 1 - i ∧
        2 * x.num_events - 1 - i < 2 * x.num_events := by omega
    have c3 : 2 * x.num_events - 1 - (2 * x.num_events - 1 - i) = i := by omega
    simp only [Function.comp, c1, c2, c3, if_false, if_true, and_self, getD_events x i hi]
    exact clamp_unit_of_mem (by linarith [hh.1]) hh.2
  rw [List.map_congr_left e1, List.map_congr_left e2]

theorem events_transform_palindrome (x : t_telomere) (argv : List t_atom)
    (h1 : 1 ≤ x.num_events) (h2 : x.num_events ≤ 128)
    (hs : (events x).Sorted (· ≤ ·)) (hr : ∀ p ∈ events x, 0 ≤ p ∧ p < 1) :
    events (transform_palindrome x argv) =
      (events x).map (fun p => fmul p (1/2)) ++
        (events x).map (fun p => fadd (1/2) (fmul p (1/2))) := by
  have hp := events_transform_palindrome_perm x argv h1 h2 hr
  have hsorted : (events (transform_palindrome x argv)).Sorted (· ≤ ·) := by
    unfold transform_palindrome
    have h0 : pattern_num_events x ≠ 0 := by unfold pattern_num_events; omega
    simp only [h0, if_false]
    exact events_pattern_sort_sorted _
  apply List.eq_of_perm_of_sorted hp hsorted
  apply List.pairwise_append.mpr
  refine ⟨?_, ?_, ?_⟩
  · exact List.Pairwise.map _ (fun a b hab => half_mono hab) hs
  · exact List.Pairwise.map _ (fun a b hab => mirror_mono hab) hs
  · intro a ha b hb
    obtain ⟨p, hp1, rfl⟩ := List.mem_map.mp ha
    obtain ⟨q, hq1, rfl⟩ := List.mem_map.mp hb
    have := (half_range (hr p hp1).1 (hr p hp1).2.le).2
    have := (mirror_range (hr q hq1).1 (hr q hq1).2.le).1
    linarith

/-! ## Euclid -/

theorem step_bound : ∀ n : ℕ, n < 65 → f32 (1 / (n : ℚ)) * ((n : ℚ) - 1) ≤ 1 := by
  decide!

theorem foldl_set_length (f : ℕ → ℕ) (v : ℤ) (idx : List ℕ) (l : List ℤ) :
    (idx.foldl (fun p i => p.set (f i) v) l).length = l.length := by
  induction idx generalizing l with
  | nil => rfl
  | cons a idx ih => rw [List.foldl_cons, ih, List.length_set]

theorem foldl_set_getD (f : ℕ → ℕ) (v : ℤ) (idx : List ℕ) (l : List ℤ) (j : ℕ) :
    (idx.foldl (fun p i => p.set (f i) v) l).getD j 0 =
      if (∃ i ∈ idx, f i = j) ∧ j < l.length then v else l.getD j 0 := by
  induction idx generalizing l with
  | nil => simp
  | cons a idx ih =>
    rw [List.foldl_cons, ih, List.length_set]
    by_cases hj : j < l.length
    · by_cases h1 : ∃ i ∈ idx, f i = j
      · have h2 : ∃ i ∈ a :: idx, f i = j := by
          obtain ⟨i, hi, e⟩ := h1
          exact ⟨i, List.mem_cons_of_mem _ hi, e⟩
        simp only [h1, h2, hj, and_self, if_true]
      · by_cases ha : f a = j
        · have h2 : ∃ i ∈ a :: idx, f i = j := ⟨a, List.mem_cons_self _ _, ha⟩
          simp only [h1, h2, hj, false_and, if_false, and_self, if_true]
          subst ha
          rw [List.getD_eq_getElem _ _ (by rw [List.length_set]; exact hj)]
          simp
        · have h2 : ¬ ∃ i ∈ a :: idx, f i = j := by
            rintro ⟨i, hi, e⟩
            rcases List.mem_cons.mp hi with rfl | hi'
            · exact ha e
            · exact h1 ⟨i, hi', e⟩
          simp only [h1, h2, false_and, if_false]
          rw [List.getD_eq_getElem _ _ (by rw [List.length_set]; exact hj),
            List.getD_eq_getElem _ _ hj, List.getElem_set_ne ha]
    · have hd : ∀ m : List ℤ, m.length = l.length → m.getD j 0 = 0 := by
        intro m hm
        rw [List.getD_eq_default]
        omega
      simp only [hj, and_false, if_false]
      rw [hd _ (List.length_set _ _ _), hd l rfl]

/-- The slots marked by `bjorklund`. -/
theorem bjorklund_getD (n k : ℕ) (hk : k ≤ n) (j : ℕ) (hj : j < n) :
    (bjorklund (n : ℤ) (k : ℤ)).getD j 0 = if ∃ i, i < k ∧ i * n / k = j then 1 else 0 := by
  unfold bjorklund
  have hkn : ¬ ((k : ℤ) > (n : ℤ)) := by omega
  simp only [hkn, if_false, Int.toNat_ofNat]
  by_cases hk0 : (k : ℤ) ≤ 0
  · have hk00 : k = 0 := by omega
    subst hk00
    simp only [Nat.cast_zero, le_refl, if_true, Nat.not_lt_zero, false_and, exists_false,
      if_false]
    rw [List.getD_eq_getElem _ _ (by simpa using hj)]
    simp
  · simp only [hk0, if_false]
    have hfun : (fun (p : List ℤ) (i : ℕ) => p.set (((i : ℤ) * (n : ℤ)) / (k : ℤ)).toNat 1) =
        (fun (p : List ℤ) (i : ℕ) => p.set ((fun i => i * n / k) i) 1) := by
      funext p i
      have : ((i : ℤ) * (n : ℤ)) / (k : ℤ) = ((i * n / k : ℕ) : ℤ) := by
        push_cast
        rfl
      rw [this, Int.toNat_ofNat]
    rw [hfun, foldl_set_getD (fun i => i * n / k) 1]
    have hzero := foldl_set_getD (fun i => i) 0 (List.range n)
      ((List.range n).map (fun (i : ℕ) => if (i : ℤ) < (k : ℤ) then (1 : ℤ) else 0)) j
    have hlen : ((List.range n).foldl (fun p (i : ℕ) => p.set i 0)
        ((List.range n).map (fun (i : ℕ) => if (i : ℤ) < (k : ℤ) then (1 : ℤ) else 0))).length = n := by
      rw [foldl_set_length (fun i => i) 0]
      simp
    have hin : (∃ i ∈ List.range n, (fun i => i) i = j) ∧
        j < ((List.range n).map (fun (i : ℕ) => if (i : ℤ) < (k : ℤ) then (1 : ℤ) else 0)).length := by
      refine ⟨⟨j, List.mem_range.mpr hj, rfl⟩, by simpa using hj⟩
    rw [if_pos hin] at hzero
    rw [hlen, hzero]
    simp only [List.mem_range, hj, and_true]

theorem bjorklund_length (n k : ℕ) : (bjorklund (n : ℤ) (k : ℤ)).length = n := by
  unfold bjorklund
  simp only [Int.toNat_ofNat]
  split_ifs
  · simp
  · rw [foldl_set_length (fun (i : ℕ) => (((i : ℤ) * (n : ℤ)) / ((n : ℤ))).toNat) 1,
      foldl_set_length (fun i => i) 0]
    simp
  · simp
  · rw [foldl_set_length (fun (i : ℕ) => (((i : ℤ) * (n : ℤ)) / ((k : ℤ))).toNat) 1,
      foldl_set_length (fun i => i) 0]
    simp

/-- The marked slots are strictly increasing, hence distinct. -/
theorem slot_strict_mono (n k : ℕ) (hk : k ≤ n) (hk0 : 0 < k) {i i2 : ℕ} (h : i < i2) :
    i * n / k < i2 * n / k := by
  have h1 : i * n / k + 1 ≤ i2 * n / k := by
    rw [Nat.le_div_iff_mul_le hk0]
    have h2 : i * n / k * k ≤ i * n := Nat.div_mul_le_self _ _
    have h3 : (i + 1) * n ≤ i2 * n := Nat.mul_le_mul_right _ h
    nlinarith
  omega

theorem slot_lt (n k : ℕ) (hk : k ≤ n) (hk0 : 0 < k) {i : ℕ} (h : i < k) : i * n / k < n := by
  rw [Nat.div_lt_iff_lt_mul hk0]
  have hn : 0 < n := by omega
  rw [Nat.mul_comm n k]
  exact Nat.mul_lt_mul_of_pos_right h hn

theorem slots_sorted (n k : ℕ) (hk : k ≤ n) :
    ((List.range k).map (fun i => i * n / k)).Sorted (· < ·) := by
  rcases Nat.eq_zero_or_pos k with hk0 | hk0
  · subst hk0; simp
  · apply List.Pairwise.map _ _ (List.pairwise_lt_range k)
    intro a b hab
    exact slot_strict_mono n k hk hk0 hab

/-- The indices of the marked slots, in increasing order, are the values
`floor(i * n / k)` for `i = 0 .. k - 1`. -/
theorem marked_slots (n k : ℕ) (hk : k ≤ n) :
    (List.range n).filter (fun j => decide ((bjorklund (n : ℤ) (k : ℤ)).getD j 0 ≠ 0)) =
      (List.range k).map (fun i => i * n / k) := by
  apply List.eq_of_perm_of_sorted (r := (· < ·))
  · rw [List.perm_ext_iff_of_nodup]
    · intro j
      simp only [List.mem_filter, List.mem_range, decide_eq_true_eq, List.mem_map]
      constructor
      · rintro ⟨hj, hne⟩
        rw [bjorklund_getD n k hk j hj] at hne
        by_cases he : ∃ i, i < k ∧ i * n / k = j
        · exact he
        · simp only [he, if_false, ne_eq, not_true] at hne
      · rintro ⟨i, hi, rfl⟩
        have hk0 : 0 < k := by omega
        have hlt := slot_lt n k hk hk0 hi
        refine ⟨hlt, ?_⟩
        rw [bjorklund_getD n k hk _ hlt]
        have : ∃ i2, i2 < k ∧ i2 * n / k = i * n / k := ⟨i, hi, rfl⟩
        simp only [this, if_true]
        norm_num
    · exact (List.nodup_range n).filter _
    · exact (slots_sorted n k hk).nodup
  · exact (List.pairwise_lt_range n).filter _
  · exact slots_sorted n k hk

theorem events_pattern_append_event (x : t_telomere) (v : t_float) (h : x.num_events < 256) :
    events (pattern_append_event x v) = events x ++ [clamp_unit v] ∧
    (pattern_append_event x v).num_events = x.num_events + 1 := by
  unfold pattern_append_event TELOMERE_MAX_EVENTS
  have hn : ¬ x.num_events ≥ 256 := by omega
  simp only [hn, if_false, pattern_ensure_capacity_num_events, pattern_ensure_capacity_pattern,
    and_true]
  unfold events
  simp only
  rw [slots_succ, Function.update_same]
  congr 1
  exact slots_congr (fun t ht => Function.update_noteq (by omega) _ _)

theorem events_foldl_append (g : ℕ → t_float) (is : List ℕ) (x : t_telomere)
    (h : x.num_events + is.length ≤ 256) :
    events (is.foldl (fun x (i : ℕ) => pattern_append_event x (g i)) x) =
      events x ++ is.map (fun i => clamp_unit (g i)) ∧
    (is.foldl (fun x (i : ℕ) => pattern_append_event x (g i)) x).num_events =
      x.num_events + is.length := by
  induction is generalizing x with
  | nil => simp
  | cons a is ih =>
    rw [List.length_cons] at h
    have ha := events_pattern_append_event x (g a) (by omega)
    have := ih (pattern_append_event x (g a)) (by rw [ha.2]; omega)
    rw [List.foldl_cons, this.1, this.2, ha.1, ha.2, List.length_cons, List.map_cons]
    constructor
    · simp
    · omega

theorem foldl_cond {α : Type} (c : ℕ → Bool) (F : α → ℕ → α) (l : List ℕ) (x0 : α) :
    l.foldl (fun x i => if c i = true then F x i else x) x0 = (l.filter c).foldl F x0 := by
  induction l generalizing x0 with
  | nil => rfl
  | cons a l ih =>
    rw [List.foldl_cons, List.filter_cons]
    by_cases h : c a = true
    · simp only [h, if_true, List.foldl_cons]
      exact ih _
    · simp only [h, if_false]
      exact ih _

/-- The position `step_size * j` stored by `transform_euclid` for slot `j` of `n`. -/
theorem euclid_value (n j : ℕ) (hn1 : 1 ≤ n) (hn : n ≤ 64) (hj : j < n) :
    fmul (fdiv 1 (float_of_int (n : ℤ))) (float_of_int (j : ℤ)) = f32 (f32 (1 / (n : ℚ)) * (j : ℚ)) := by
  unfold fmul fdiv float_of_int
  have h1 := f32_intCast (n : ℤ) (by rw [abs_lt]; constructor <;> omega)
  have h2 := f32_intCast (j : ℤ) (by rw [abs_lt]; constructor <;> omega)
  rw [h1, h2]
  push_cast
  rfl

theorem euclid_value_range (n j : ℕ) (hn1 : 1 ≤ n) (hn : n ≤ 64) (hj : j < n) :
    0 ≤ f32 (f32 (1 / (n : ℚ)) * (j : ℚ)) ∧ f32 (f32 (1 / (n : ℚ)) * (j : ℚ)) ≤ 1 := by
  have hs : 0 ≤ f32 (1 / (n : ℚ)) := f32_nonneg (by positivity)
  have hb := step_bound n (by omega)
  have hjq : (j : ℚ) ≤ (n : ℚ) - 1 := by
    have : (j : ℚ) + 1 ≤ (n : ℚ) := by exact_mod_cast hj
    linarith
  constructor
  · exact f32_nonneg (mul_nonneg hs (by positivity))
  · apply f32_le_one
    calc f32 (1 / (n : ℚ)) * (j : ℚ) ≤ f32 (1 / (n : ℚ)) * ((n : ℚ) - 1) :=
          mul_le_mul_of_nonneg_left hjq hs
      _ ≤ 1 := hb

theorem euclid_value_mono (n : ℕ) {j j2 : ℕ} (h : j ≤ j2) :
    f32 (f32 (1 / (n : ℚ)) * (j : ℚ)) ≤ f32 (f32 (1 / (n : ℚ)) * (j2 : ℚ)) := by
  apply f32_mono
  apply mul_le_mul_of_nonneg_left _ (f32_nonneg (by positivity))
  exact_mod_cast h

/-- The events left by the append loop and sort of `transform_euclid` for `n`
steps and `k ≤ n` hits. -/
theorem euclid_events (x : t_telomere) (n k : ℕ) (hn1 : 1 ≤ n) (hn : n ≤ 64) (hk : k ≤ n) :
    events (pattern_sort ((List.range n).foldl (fun x (i : ℕ) =>
      if (bjorklund (n : ℤ) (k : ℤ)).getD i 0 ≠ 0 then
        pattern_append_event x (fmul (fdiv 1 (float_of_int (n : ℤ))) (float_of_int (i : ℤ)))
      else x) (pattern_clear x))) =
    (List.range k).map (fun i =>
      fmul (fdiv 1 (float_of_int (n : ℤ))) (float_of_int ((i * n / k : ℕ) : ℤ))) := by
  have hfold : (List.range n).foldl (fun x (i : ℕ) =>
      if (bjorklund (n : ℤ) (k : ℤ)).getD i 0 ≠ 0 then
        pattern_append_event x (fmul (fdiv 1 (float_of_int (n : ℤ))) (float_of_int (i : ℤ)))
      else x) (pattern_clear x) =
      ((List.range k).map (fun i => i * n / k)).foldl (fun x (i : ℕ) =>
        pattern_append_event x (fmul (fdiv 1 (float_of_int (n : ℤ))) (float_of_int (i : ℤ))))
        (pattern_clear x) := by
    rw [← marked_slots n k hk, ← foldl_cond]
    congr 1
    funext y i
    simp only [decide_eq_true_eq]
  rw [hfold]
  have hc0 : (pattern_clear x).num_events = 0 := rfl
  have hlen : ((List.range k).map (fun i => i * n / k)).length = k := by simp
  have hev := (events_foldl_append
    (fun (i : ℕ) => fmul (fdiv 1 (float_of_int (n : ℤ))) (float_of_int (i : ℤ)))
    ((List.range k).map (fun i => i * n / k)) (pattern_clear x)
    (by rw [hc0, hlen]; omega)).1
  have hce : events (pattern_clear x) = [] := rfl
  rw [hce, List.nil_append, List.map_map] at hev
  have hk0 : ∀ i ∈ List.range k, 0 < k := by
    intro i hi
    have := List.mem_range.mp hi
    omega
  have hvals : (List.range k).map ((fun (i : ℕ) =>
      clamp_unit (fmul (fdiv 1 (float_of_int (n : ℤ))) (float_of_int (i : ℤ)))) ∘
        (fun i => i * n / k)) =
      (List.range k).map (fun i => f32 (f32 (1 / (n : ℚ)) * ((i * n / k : ℕ) : ℚ))) := by
    apply List.map_congr_left
    intro i hi
    have hlt := slot_lt n k hk (hk0 i hi) (List.mem_range.mp hi)
    simp only [Function.comp]
    rw [euclid_value n _ hn1 hn hlt]
    exact clamp_unit_of_mem (euclid_value_range n _ hn1 hn hlt).1
      (euclid_value_range n _ hn1 hn hlt).2
  rw [hvals] at hev
  have hsorted : ((List.range k).map
      (fun i => f32 (f32 (1 / (n : ℚ)) * ((i * n / k : ℕ) : ℚ)))).Sorted (· ≤ ·) := by
    apply List.Pairwise.map _ _ (List.pairwise_lt_range k)
    intro a b hab
    apply euclid_value_mono
    rcases Nat.eq_zero_or_pos k with h0 | h0
    · subst h0
      simp
    · exact (slot_strict_mono n k hk h0 hab).le
  rw [events_pattern_sort_of_sorted _ (by rw [hev]; exact hsorted), hev]
  apply List.map_congr_left
  intro i hi
  have hlt := slot_lt n k hk (hk0 i hi) (List.mem_range.mp hi)
  exact (euclid_value n _ hn1 hn hlt).symm

/-! ## Fast -/

/-- The inner loop of `transform_fast` started at slot `idx0` of a pattern of
`S` events: after `m` iterations slots `idx0 .. min (idx0 + m) S - 1` hold the
clamped wrapped values. -/
theorem fast_inner_loop (orig : List t_float) (S : ℕ) (base sub_len : t_float)
    (idx0 : ℕ) (y : t_telomere) (hy : y.num_events = S) :
    ∀ m : ℕ,
      (List.range m).foldl (fun (st : ℕ × t_telomere) (i : ℕ) =>
        if (st.1 : ℤ) < (S : ℤ) then
          (st.1 + 1, pattern_set_event st.2 st.1
            (if fadd base (fmul (orig.getD i 0) sub_len) ≥ 1
              then fsub (fadd base (fmul (orig.getD i 0) sub_len)) 1
              else fadd base (fmul (orig.getD i 0) sub_len)))
        else st) (idx0, y) =
      (min (idx0 + m) (max S idx0),
        { y with pattern := fun t =>
            if idx0 ≤ t ∧ t < min (idx0 + m) S then
              clamp_unit (if fadd base (fmul (orig.getD (t - idx0) 0) sub_len) ≥ 1
                then fsub (fadd base (fmul (orig.getD (t - idx0) 0) sub_len)) 1
                else fadd base (fmul (orig.getD (t - idx0) 0) sub_len))
            else y.pattern t }) := by
  intro m
  induction m with
  | zero =>
    simp only [List.range_zero, List.foldl_nil, Nat.add_zero]
    have h1 : min idx0 (max S idx0) = idx0 := by omega
    have hp : (fun t => if idx0 ≤ t ∧ t < min idx0 S then
        clamp_unit (if fadd base (fmul (orig.getD (t - idx0) 0) sub_len) ≥ 1
          then fsub (fadd base (fmul (orig.getD (t - idx0) 0) sub_len)) 1
          else fadd base (fmul (orig.getD (t - idx0) 0) sub_len))
        else y.pattern t) = y.pattern := by
      funext t
      have : ¬ (idx0 ≤ t ∧ t < min idx0 S) := by omega
      simp only [this, if_false]
    rw [h1, hp]
  | succ m ih =>
    rw [List.range_succ, List.foldl_append, ih]
    simp only [List.foldl_cons, List.foldl_nil]
    by_cases hlt : idx0 + m < S
    · have c1 : ((min (idx0 + m) (max S idx0) : ℕ) : ℤ) < (S : ℤ) := by omega
      have e1 : min (idx0 + m) (max S idx0) = idx0 + m := by omega
      have e2 : min (idx0 + (m + 1)) (max S idx0) = idx0 + m + 1 := by omega
      simp only [c1, if_true]
      rw [e2, e1]
      congr 1
      unfold pattern_set_event
      have hidx : ¬ (((idx0 + m : ℕ) : ℤ) < 0 ∨ ((idx0 + m : ℕ) : ℤ) ≥ (y.num_events : ℤ)) := by
        omega
      simp only [hidx, if_false, Int.toNat_ofNat]
      congr 1
      funext t
      by_cases ht : t = idx0 + m
      · subst ht
        have c2 : idx0 ≤ idx0 + m ∧ idx0 + m < min (idx0 + (m + 1)) S := by omega
        have c3 : idx0 + m - idx0 = m := by omega
        simp only [Function.update_same, c2, and_self, if_true, c3]
      · rw [Function.update_noteq ht]
        by_cases hr : idx0 ≤ t ∧ t < min (idx0 + m) S
        · have : idx0 ≤ t ∧ t < min (idx0 + (m + 1)) S := by omega
          simp only [hr, this, and_self, if_true]
        · have : ¬ (idx0 ≤ t ∧ t < min (idx0 + (m + 1)) S) := by omega
          simp only [hr, this, if_false]
    · have c1 : ¬ (((min (idx0 + m) (max S idx0) : ℕ) : ℤ) < (S : ℤ)) := by omega
      have e2 : min (idx0 + (m + 1)) (max S idx0) = min (idx0 + m) (max S idx0) := by omega
      simp only [c1, if_false]
      rw [e2]
      congr 2
      funext t
      by_cases hr : idx0 ≤ t ∧ t < min (idx0 + m) S
      · have : idx0 ≤ t ∧ t < min (idx0 + (m + 1)) S := by omega
        simp only [hr, this, and_self, if_true]
      · have : ¬ (idx0 ≤ t ∧ t < min (idx0 + (m + 1)) S) := by omega
        simp only [hr, this, if_false]

theorem fast_inner_eq (orig : List t_float) (n S : ℕ) (base sub_len : t_float)
    (idx0 : ℕ) (y : t_telomere) (hy : y.num_events = S) :
    fast_inner orig n (S : ℤ) base sub_len (idx0, y) =
      (min (idx0 + n) (max S idx0),
        { y with pattern := fun t =>
            if idx0 ≤ t ∧ t < min (idx0 + n) S then
              clamp_unit (if fadd base (fmul (orig.getD (t - idx0) 0) sub_len) ≥ 1
                then fsub (fadd base (fmul (orig.getD (t - idx0) 0) sub_len)) 1
                else fadd base (fmul (orig.getD (t - idx0) 0) sub_len))
            else y.pattern t }) :=
  fast_inner_loop orig S base sub_len idx0 y hy n

/-- The outer loop of `transform_fast`: with enough budget it ends with `idx = S`
and the first `S` slots holding the tiling sequence. -/
theorem fast_outer_spec (orig : List t_float) (n S F : ℕ) (hS : S ≤ n * F) :
    ∀ (fuel r : ℕ) (st : ℕ × t_telomere),
      st.1 = min (r * n) S → st.2.num_events = S →
      (∀ t, t < st.1 → st.2.pattern t = fast_tile (F : ℤ) (t / n) (orig.getD (t % n) 0)) →
      r ≤ F → S ≤ st.1 + fuel * n →
      ∃ st2 : ℕ × t_telomere,
        fast_outer orig n (S : ℤ) (F : ℤ) (fdiv 1 (float_of_int (F : ℤ))) fuel (r : ℤ) st
          = some st2 ∧
        st2.1 = S ∧ st2.2.num_events = S ∧
        (∀ t, t < S → st2.2.pattern t = fast_tile (F : ℤ) (t / n) (orig.getD (t % n) 0)) := by
  intro fuel
  induction fuel with
  | zero =>
    intro r st h1 h2 h3 _ h5
    have hidx : st.1 = S := by omega
    refine ⟨st, ?_, hidx, h2, fun t ht => h3 t (by omega)⟩
    unfold fast_outer
    have : ¬ ((r : ℤ) < (F : ℤ) ∧ (st.1 : ℤ) < (S : ℤ)) := by omega
    simp only [this, if_false]
  | succ fuel ih =>
    intro r st h1 h2 h3 h4 h5
    by_cases hc : (r : ℤ) < (F : ℤ) ∧ (st.1 : ℤ) < (S : ℤ)
    · have hrn : st.1 = r * n := by omega
      have hlt : r * n < S := by omega
      unfold fast_outer
      simp only [hc, and_self, if_true]
      obtain ⟨i0, y⟩ := st
      simp only at hrn h2 h3 h5 hlt
      subst hrn
      rw [fast_inner_eq orig n S _ _ (r * n) y h2]
      have hcast : ((r : ℤ) + 1) = ((r + 1 : ℕ) : ℤ) := by push_cast; rfl
      rw [hcast]
      apply ih (r + 1)
      · simp only
        have : (r + 1) * n = r * n + n := by ring
        rw [this]
        omega
      · exact h2
      · intro t ht
        simp only at ht ⊢
        by_cases hin : r * n ≤ t ∧ t < min (r * n + n) S
        · simp only [hin, and_self, if_true]
          have hdiv : t / n = r := by
            apply Nat.div_eq_of_lt_le
            · rw [Nat.mul_comm] at hin; rw [Nat.mul_comm]; exact hin.1
            · have : (r + 1) * n = r * n + n := by ring
              rw [this]; omega
          have hmod : t % n = t - r * n := by
            have := Nat.div_add_mod t n
            rw [hdiv] at this
            have h' : n * r = r * n := Nat.mul_comm _ _
            omega
          rw [hdiv, hmod]
          rfl
        · simp only [hin, if_false]
          apply h3
          omega
      · omega
      · simp only
        have : (r + 1) * n = r * n + n := by ring
        have h6 : (fuel + 1) * n = fuel * n + n := by ring
        omega
    · have hidx : st.1 = S := by
        rcases Nat.lt_or_ge r F with h | h
        · omega
        · have hr : r = F := by omega
          rw [hr] at h1
          have : F * n = n * F := Nat.mul_comm _ _
          omega
      refine ⟨st, ?_, hidx, h2, fun t ht => h3 t (by omega)⟩
      unfold fast_outer
      simp only [hc, if_false]

theorem clamp_toNat_of_le (S : ℕ) (h : S ≤ 256) : (min (max (S : ℤ) 0) 256).toNat = S := by
  omega

theorem wrap32_of_small (z : ℤ) (h0 : 0 ≤ z) (h1 : z < 2147483648) : wrap32 z = z := by
  unfold wrap32
  omega

/-- What `transform_fast` leaves when `count * factor` does not overflow. -/
theorem transform_fast_spec (x : t_telomere) (f : ℤ) (fuel : ℕ) (F : ℕ)
    (hF : (F : ℤ) = max f 2)
    (h1 : 1 ≤ x.num_events) (hov : (x.num_events : ℤ) * max f 2 < 2147483648)
    (hfuel : 256 ≤ fuel) :
    ∃ r : t_telomere,
      transform_fast fuel x [t_atom.A_FLOAT (f : ℚ)] = some r ∧
      r.num_events = min (x.num_events * F) 256 ∧
      (events r).Perm (fast_tiles (F : ℤ) (events x) (min (x.num_events * F) 256)) ∧
      (events r).Sorted (· ≤ ·) := by
  have hn0 : x.num_events ≠ 0 := by omega
  have a0 : atom_getfloatarg 0 [t_atom.A_FLOAT (f : ℚ)] = (f : ℚ) := rfl
  have hfle : f ≤ 2147483647 := by
    have hm : (0 : ℤ) ≤ max f 2 := le_trans (by norm_num) (le_max_right f 2)
    have hn1 : (1 : ℤ) ≤ (x.num_events : ℤ) := by exact_mod_cast h1
    have hmul := le_mul_of_one_le_left hm hn1
    have hmax := le_max_left f 2
    omega
  have hfac : (if int_of_float ((f : ℤ) : ℚ) < 2 then 2 else int_of_float ((f : ℤ) : ℚ)) =
      (F : ℤ) := by
    rw [hF]
    by_cases hlo : -2147483648 ≤ f
    · rw [int_of_float_intCast f hlo hfle]
      split_ifs <;> omega
    · rw [int_of_float_intCast_low f (by omega)]
      split_ifs <;> omega
  have hF2 : 2 ≤ F := by omega
  set S := min (x.num_events * F) 256 with hSdef
  have hns : (if wrap32 ((x.num_events : ℤ) * (F : ℤ)) > (TELOMERE_MAX_EVENTS : ℤ)
      then (TELOMERE_MAX_EVENTS : ℤ) else wrap32 ((x.num_events : ℤ) * (F : ℤ))) = (S : ℤ) := by
    rw [wrap32_of_small _ (by positivity) (by rw [hF]; exact hov)]
    unfold TELOMERE_MAX_EVENTS
    have : (x.num_events : ℤ) * (F : ℤ) = ((x.num_events * F : ℕ) : ℤ) := by push_cast; rfl
    rw [this]
    split_ifs <;> omega
  have hS256 : S ≤ 256 := Nat.min_le_right _ _
  have hy : (pattern_resize x (S : ℤ)).num_events = S := by
    rw [pattern_resize_num_events]
    exact clamp_toNat_of_le S hS256
  have hSle : S ≤ x.num_events * F := Nat.min_le_left _ _
  obtain ⟨st2, hrun, hi, hnum, hpat⟩ := fast_outer_spec (events x) x.num_events S F hSle
    fuel 0 (0, pattern_resize x (S : ℤ)) (by simp) hy (fun t ht => by simp at ht)
    (by omega) (by
      have : fuel ≤ fuel * x.num_events := Nat.le_mul_of_pos_right _ (by omega)
      simp only
      omega)
  have hrun' : fast_outer (events x) x.num_events (S : ℤ) (F : ℤ) (fdiv 1 (float_of_int (F : ℤ)))
      fuel 0 (0, pattern_resize x (S : ℤ)) = some st2 := by
    simpa using hrun
  refine ⟨pattern_sort (pattern_resize st2.2 (st2.1 : ℤ)), ?_, ?_, ?_, ?_⟩
  · unfold transform_fast pattern_num_events pattern_copy_to
    simp only [hn0, if_false, a0, hfac, hns, hrun', Option.map_some']
  · rw [pattern_sort_num_events, pattern_resize_num_events, hi]
    exact clamp_toNat_of_le S hS256
  · refine (events_pattern_sort_perm _).trans ?_
    have hS2 : (min (max (S : ℤ) 0) 256).toNat = S := clamp_toNat_of_le S hS256
    have hev : events (pattern_resize st2.2 (st2.1 : ℤ)) =
        fast_tiles (F : ℤ) (events x) S := by
      have hlen : (events x).length = x.num_events := events_length x
      unfold fast_tiles
      rw [hlen]
      unfold events
      rw [pattern_resize_num_events, hi, hS2]
      apply List.map_congr_left
      intro t ht
      rw [List.mem_range] at ht
      rw [pattern_resize_pattern, hS2, hnum]
      have : ¬ (S ≤ t ∧ t < S) := by omega
      simp only [this, if_false]
      exact hpat t ht
    rw [hev]
  · exact events_pattern_sort_sorted _

/-! ## Recording a tap -/

theorem grid_step_eq (g : ℕ) (hg : g ≤ 128) : grid_step (g : ℤ) = f32 (1 / (g : ℚ)) := by
  unfold grid_step fdiv float_of_int
  rw [f32_intCast (g : ℤ) (by rw [abs_lt]; constructor <;> omega)]
  push_cast
  rfl

theorem grid_step_facts : ∀ g : ℕ, g < 129 → 1 ≤ g →
    f32 ((g : ℚ) * f32 (1 / (g : ℚ))) ≤ 1 ∧
    roundf (f32 (1 / f32 (1 / (g : ℚ)))) ≤ (g : ℚ) := by
  decide!

theorem grid_step_pos (g : ℕ) (h1 : 1 ≤ g) (hg : g ≤ 128) : 0 < f32 (1 / (g : ℚ)) := by
  apply f32_pos_of_ge
  have hgq : (g : ℚ) ≤ 128 := by exact_mod_cast hg
  have hg0 : (0 : ℚ) < (g : ℚ) := by exact_mod_cast h1
  exact one_div_le_one_div_of_le hg0 hgq

/-- The nearest grid point computed by `telomere_bang` lies in `[0, 1]`. -/
theorem nearest_grid_point_range (g : ℕ) (h1 : 1 ≤ g) (hg : g ≤ 128) (pos : t_float)
    (h0 : 0 ≤ pos) (hp : pos ≤ 1) :
    0 ≤ nearest_grid_point (g : ℤ) pos ∧ nearest_grid_point (g : ℤ) pos ≤ 1 := by
  unfold nearest_grid_point fmul fdiv
  rw [grid_step_eq g hg]
  have hs := grid_step_pos g h1 hg
  obtain ⟨f1, f2⟩ := grid_step_facts g (by omega) h1
  have hy0 : 0 ≤ f32 (pos / f32 (1 / (g : ℚ))) := f32_nonneg (div_nonneg h0 hs.le)
  have hk0 := roundf_nonneg hy0
  have hyle : f32 (pos / f32 (1 / (g : ℚ))) ≤ f32 (1 / f32 (1 / (g : ℚ))) :=
    f32_mono (div_le_div_of_nonneg_right hp hs.le)
  have hkle : roundf (f32 (pos / f32 (1 / (g : ℚ)))) ≤ (g : ℚ) :=
    le_trans (roundf_mono hyle) f2
  constructor
  · exact f32_nonneg (mul_nonneg hk0 hs.le)
  · exact le_trans (f32_mono (mul_le_mul_of_nonneg_right hkle hs.le)) f1

/-- The quantized position lies in `[0, 1]`, so the clamp of the store does not
change it. -/
theorem bang_quantize_range (x : t_telomere) (pos : t_float)
    (hg : 1 ≤ x.grid ∧ x.grid ≤ 128) (hq : 0 ≤ x.quantize_pct ∧ x.quantize_pct ≤ 1)
    (hf : f32 pos = pos) (h0 : 0 ≤ pos) (hp : pos < 1) :
    0 ≤ bang_quantize x pos ∧ bang_quantize x pos ≤ 1 := by
  unfold bang_quantize
  by_cases hc : x.quantize_pct > 0 ∧ x.grid > 0
  · simp only [hc, and_self, if_true]
    obtain ⟨g, hgg⟩ := Int.eq_ofNat_of_zero_le (by omega : 0 ≤ x.grid)
    rw [hgg]
    have hN := nearest_grid_point_range g (by omega) (by omega) pos h0 hp.le
    set N := nearest_grid_point (g : ℤ) pos with hNdef
    set q := x.quantize_pct with hqdef
    have hd_lo : -pos ≤ fsub N pos := by
      unfold fsub
      have := f32_mono (show -pos ≤ N - pos by linarith [hN.1])
      rwa [f32_neg, hf] at this
    have hd_hi : fsub N pos ≤ 1 := by
      unfold fsub
      exact f32_le_one (by linarith [hN.2])
    have he_lo : -pos ≤ fmul (fsub N pos) q := by
      unfold fmul
      have hprod : -pos ≤ fsub N pos * q := by
        rcases le_or_lt 0 (fsub N pos) with hd | hd
        · have := mul_nonneg hd hq.1
          linarith
        · nlinarith [hq.1, hq.2]
      have := f32_mono hprod
      rwa [f32_neg, hf] at this
    have he_hi : fmul (fsub N pos) q ≤ 1 := by
      unfold fmul
      apply f32_le_one
      rcases le_or_lt 0 (fsub N pos) with hd | hd
      · nlinarith [hq.1, hq.2]
      · nlinarith [hq.1, hq.2]
    have hv_lo : 0 ≤ fadd pos (fmul (fsub N pos) q) := by
      unfold fadd
      exact f32_nonneg (by linarith)
    have hv_hi : fadd pos (fmul (fsub N pos) q) ≤ 2 := by
      unfold fadd
      have := f32_mono (show pos + fmul (fsub N pos) q ≤ 2 by linarith)
      have h2 : f32 2 = 2 := by
        have := f32_intCast 2 (by norm_num)
        simpa using this
      rwa [h2] at this
    set v := fadd pos (fmul (fsub N pos) q) with hv
    split_ifs with hge
    · have hge1 : (1 : ℚ) ≤ v := hge
      show 0 ≤ f32 (v - 1) ∧ f32 (v - 1) ≤ 1
      exact ⟨f32_nonneg (by linarith), f32_le_one (by linarith)⟩
    · have hlt : v < 1 := not_le.mp hge
      exact ⟨hv_lo, hlt.le⟩
  · simp only [hc, if_false]
    exact ⟨h0, hp.le⟩

theorem wrap_down_of_lt (fuel : ℕ) (v : t_float) (h : v < 1) : wrap_down fuel v = some v := by
  have hn : ¬ v ≥ 1 := not_le.mpr h
  cases fuel <;> simp only [wrap_down, hn, if_false]

/-- The recording branch of `telomere_bang` for an elapsed fraction in `[0,1)`. -/
theorem telomere_bang_recording (fuel : ℕ) (elapsed now : ℚ) (x : t_telomere)
    (hrec : x.recording = true) (hcyc : x.cycle_length_ms ≠ 0)
    (hp : f32 (f64 (elapsed / x.cycle_length_ms)) < 1) :
    telomere_bang fuel elapsed now x =
      some (bang_record x (f32 (f64 (elapsed / x.cycle_length_ms)))) := by
  unfold telomere_bang
  simp only [hrec, if_true, hcyc, if_false, wrap_down_of_lt fuel _ hp, Option.map_some']

theorem bang_record_events (x : t_telomere) (pos : t_float) (hfull : x.num_events < 256)
    (hg : 1 ≤ x.grid ∧ x.grid ≤ 128) (hq : 0 ≤ x.quantize_pct ∧ x.quantize_pct ≤ 1)
    (hf : f32 pos = pos) (h0 : 0 ≤ pos) (hp : pos < 1) :
    events (bang_record x pos).1 = events x ++ [bang_quantize x pos] ∧
    (bang_record x pos).1.num_events = x.num_events + 1 := by
  unfold bang_record
  have hn : ¬ pos < 0 := not_lt.mpr h0
  simp only [hn, if_false]
  have ha := events_pattern_append_event x (bang_quantize x pos) hfull
  have hr := bang_quantize_range x pos hg hq hf h0 hp
  rw [clamp_unit_of_mem hr.1 hr.2] at ha
  exact ha

/-! ## Capacity growth -/

theorem grow_alloc_doubling :
    ∀ (fuel a needed : ℕ), 16 ≤ a → needed ≤ a * 2 ^ fuel →
      ∃ j : ℕ, grow_alloc fuel a needed = a * 2 ^ j ∧ needed ≤ a * 2 ^ j ∧
        (a < needed → 1 ≤ j) ∧ (needed ≤ a → j = 0)
  | 0, a, needed, _, h => by
    refine ⟨0, ?_, by simpa using h, ?_, fun _ => rfl⟩
    · simp [grow_alloc]
    · intro hlt
      simp at h
      omega
  | fuel + 1, a, needed, ha, h => by
    by_cases hlt : a < needed
    · have ha16 : ¬ a < 16 := by omega
      have hstep : grow_alloc (fuel + 1) a needed = grow_alloc fuel (a * 2) needed := by
        simp only [grow_alloc, hlt, if_true, ha16, if_false]
      have h2 : needed ≤ a * 2 * 2 ^ fuel := by
        rw [pow_succ] at h
        calc needed ≤ a * (2 ^ fuel * 2) := h
          _ = a * 2 * 2 ^ fuel := by ring
      obtain ⟨j, hj1, hj2, _, _⟩ := grow_alloc_doubling fuel (a * 2) needed (by omega) h2
      refine ⟨j + 1, ?_, ?_, fun _ => by omega, fun hle => by omega⟩
      · rw [hstep, hj1, pow_succ]; ring
      · rw [pow_succ]
        calc needed ≤ a * 2 * 2 ^ j := hj2
          _ = a * (2 ^ j * 2) := by ring
    · refine ⟨0, ?_, by simp; omega, fun h => absurd h hlt, fun _ => rfl⟩
      simp only [grow_alloc, hlt, if_false, pow_zero, Nat.mul_one]

theorem grow_alloc_ge (a needed : ℕ) (hn : needed ≤ 256) :
    needed ≤ grow_alloc 32 a needed ∧ a ≤ grow_alloc 32 a needed := by
  by_cases hlt : a < needed
  · by_cases ha : a < 16
    · have hstep : grow_alloc 32 a needed = grow_alloc 31 16 needed := by
        simp only [grow_alloc, hlt, if_true, ha]
      obtain ⟨j, hj1, hj2, _, _⟩ := grow_alloc_doubling 31 16 needed (le_refl _)
        (by norm_num; omega)
      rw [hstep, hj1]
      refine ⟨hj2, ?_⟩
      have : 1 ≤ 2 ^ j := Nat.one_le_two_pow
      nlinarith
    · obtain ⟨j, hj1, hj2, _, _⟩ := grow_alloc_doubling 32 a needed (by omega)
        (by
          have : (2 : ℕ) ^ 32 = 4294967296 := by norm_num
          rw [this]; omega)
      rw [hj1]
      refine ⟨hj2, ?_⟩
      have : 1 ≤ 2 ^ j := Nat.one_le_two_pow
      nlinarith
  · have : grow_alloc 32 a needed = a := by
      simp only [grow_alloc, hlt, if_false]
    rw [this]
    omega

/-- What `pattern_ensure_capacity` does to the capacity, for a request within
the 256-event bound. -/
theorem pattern_ensure_capacity_alloc (x : t_telomere) (needed : ℕ) (hn : needed ≤ 256)
    (hx : x.pattern_alloc ≤ 256) :
    needed ≤ (pattern_ensure_capacity x needed).pattern_alloc ∧
    (pattern_ensure_capacity x needed).pattern_alloc ≤ 256 ∧
    x.pattern_alloc ≤ (pattern_ensure_capacity x needed).pattern_alloc ∧
    ((pattern_ensure_capacity x needed).pattern_alloc = x.pattern_alloc ∨
      (16 ≤ x.pattern_alloc → ∃ j : ℕ, 1 ≤ j ∧
        (pattern_ensure_capacity x needed).pattern_alloc = min (x.pattern_alloc * 2 ^ j) 256)) := by
  unfold pattern_ensure_capacity TELOMERE_MAX_EVENTS
  by_cases hle : needed ≤ x.pattern_alloc
  · rw [if_pos hle]
    exact ⟨hle, hx, le_refl _, Or.inl rfl⟩
  · rw [if_neg hle]
    show needed ≤ (if grow_alloc 32 x.pattern_alloc needed > 256 then 256
        else grow_alloc 32 x.pattern_alloc needed) ∧
      (if grow_alloc 32 x.pattern_alloc needed > 256 then 256
        else grow_alloc 32 x.pattern_alloc needed) ≤ 256 ∧
      x.pattern_alloc ≤ (if grow_alloc 32 x.pattern_alloc needed > 256 then 256
        else grow_alloc 32 x.pattern_alloc needed) ∧
      ((if grow_alloc 32 x.pattern_alloc needed > 256 then 256
        else grow_alloc 32 x.pattern_alloc needed) = x.pattern_alloc ∨
      (16 ≤ x.pattern_alloc → ∃ j : ℕ, 1 ≤ j ∧
        (if grow_alloc 32 x.pattern_alloc needed > 256 then 256
        else grow_alloc 32 x.pattern_alloc needed) = min (x.pattern_alloc * 2 ^ j) 256))
    have hg := grow_alloc_ge x.pattern_alloc needed hn
    refine ⟨?_, ?_, ?_, Or.inr ?_⟩
    · split_ifs <;> omega
    · split_ifs <;> omega
    · split_ifs <;> omega
    · intro h16
      obtain ⟨j, hj1, _, hj3, _⟩ := grow_alloc_doubling 32 x.pattern_alloc needed h16
        (by
          have : (2 : ℕ) ^ 32 = 4294967296 := by norm_num
          rw [this]; omega)
      refine ⟨j, hj3 (by omega), ?_⟩
      rw [hj1]
      split_ifs <;> omega

/-- Every field other than the capacity is kept by `pattern_ensure_capacity`. -/
theorem pattern_ensure_capacity_eq (x : t_telomere) (needed : ℕ) :
    pattern_ensure_capacity x needed =
      { x with pattern_alloc := (pattern_ensure_capacity x needed).pattern_alloc } := by
  unfold pattern_ensure_capacity
  split_ifs <;> rfl

@[simp] theorem pattern_set_event_alloc (x : t_telomere) (i : ℤ) (v : t_float) :
    (pattern_set_event x i v).pattern_alloc = x.pattern_alloc := by
  unfold pattern_set_event
  split_ifs <;> rfl

theorem pattern_append_event_alloc (x : t_telomere) (v : t_float) :
    (pattern_append_event x v).pattern_alloc =
      if x.num_events ≥ 256 then x.pattern_alloc
      else (pattern_ensure_capacity x (x.num_events + 1)).pattern_alloc := by
  unfold pattern_append_event TELOMERE_MAX_EVENTS
  split_ifs <;> rfl

theorem pattern_append_event_num_events (x : t_telomere) (v : t_float) :
    (pattern_append_event x v).num_events =
      if x.num_events ≥ 256 then x.num_events else x.num_events + 1 := by
  unfold pattern_append_event TELOMERE_MAX_EVENTS
  split_ifs
  · rfl
  · simp only [pattern_ensure_capacity_num_events]

theorem pattern_resize_alloc (x : t_telomere) (new_size : ℤ) :
    (pattern_resize x new_size).pattern_alloc =
      (pattern_ensure_capacity x (min (max new_size 0) 256).toNat).pattern_alloc := by
  unfold pattern_resize
  simp only [clamp_size_eq]
  split_ifs <;> rfl

theorem pattern_replace_alloc (x : t_telomere) (l : List t_float) (count : ℤ) :
    (pattern_replace x l count).pattern_alloc =
      (pattern_ensure_capacity x (min (max count 0) 256).toNat).pattern_alloc := by
  unfold pattern_replace
  simp only [clamp_size_eq]

theorem pattern_replace_num_events_eq (x : t_telomere) (l : List t_float) (count : ℤ) :
    (pattern_replace x l count).num_events = (min (max count 0) 256).toNat := by
  unfold pattern_replace
  simp only [clamp_size_eq]

theorem clamp_unit_range (v : t_float) : 0 ≤ clamp_unit v ∧ clamp_unit v ≤ 1 := by
  unfold clamp_unit
  simp only
  split_ifs <;> constructor <;> linarith

theorem clamp_toNat_le (n : ℤ) : (min (max n 0) 256).toNat ≤ 256 := by
  omega

/-! ## The store invariant under the writing operations -/

theorem ensure_capacity_step (x : t_telomere) (needed : ℕ) (hn : needed ≤ 256)
    (hx : store_inv x) :
    needed ≤ (pattern_ensure_capacity x needed).pattern_alloc ∧
    (pattern_ensure_capacity x needed).pattern_alloc ≤ 256 ∧
    x.pattern_alloc ≤ (pattern_ensure_capacity x needed).pattern_alloc ∧
    (16 ≤ x.pattern_alloc →
      (pattern_ensure_capacity x needed).pattern_alloc = x.pattern_alloc ∨
      ∃ j : ℕ, 1 ≤ j ∧
        (pattern_ensure_capacity x needed).pattern_alloc = min (x.pattern_alloc * 2 ^ j) 256) := by
  obtain ⟨h1, h2, h3, h4⟩ := pattern_ensure_capacity_alloc x needed hn hx.2
  refine ⟨h1, h2, h3, fun h16 => ?_⟩
  rcases h4 with h | h
  · exact Or.inl h
  · exact Or.inr (h h16)

theorem store_apply_step (x : t_telomere) (op : t_store_op) (hx : store_inv x) :
    store_inv (store_apply x op) ∧
    x.pattern_alloc ≤ (store_apply x op).pattern_alloc ∧
    (16 ≤ x.pattern_alloc →
      (store_apply x op).pattern_alloc = x.pattern_alloc ∨
      ∃ j : ℕ, 1 ≤ j ∧ (store_apply x op).pattern_alloc = min (x.pattern_alloc * 2 ^ j) 256) := by
  have hx1 : x.num_events ≤ x.pattern_alloc := hx.1
  have hx2 : x.pattern_alloc ≤ 256 := hx.2
  cases op with
  | set index value =>
    simp only [store_apply]
    unfold store_inv
    rw [pattern_set_event_alloc, pattern_set_event_num_events]
    exact ⟨hx, le_refl _, fun _ => Or.inl rfl⟩
  | append value =>
    simp only [store_apply]
    unfold store_inv TELOMERE_MAX_EVENTS
    rw [pattern_append_event_alloc, pattern_append_event_num_events]
    by_cases hfull : x.num_events ≥ 256
    · rw [if_pos hfull, if_pos hfull]
      exact ⟨⟨hx1, hx2⟩, le_refl _, fun _ => Or.inl rfl⟩
    · rw [if_neg hfull, if_neg hfull]
      obtain ⟨h1, h2, h3, h4⟩ := ensure_capacity_step x (x.num_events + 1) (by omega) hx
      exact ⟨⟨h1, h2⟩, h3, h4⟩
  | resize new_size =>
    simp only [store_apply]
    unfold store_inv TELOMERE_MAX_EVENTS
    rw [pattern_resize_alloc, pattern_resize_num_events]
    obtain ⟨h1, h2, h3, h4⟩ := ensure_capacity_step x (min (max new_size 0) 256).toNat
      (clamp_toNat_le new_size) hx
    exact ⟨⟨h1, h2⟩, h3, h4⟩
  | clear =>
    exact ⟨⟨Nat.zero_le _, hx2⟩, le_refl _, fun _ => Or.inl rfl⟩
  | sort =>
    exact ⟨⟨hx1, hx2⟩, le_refl _, fun _ => Or.inl rfl⟩
  | replace new_data count =>
    simp only [store_apply]
    unfold store_inv TELOMERE_MAX_EVENTS
    rw [pattern_replace_alloc, pattern_replace_num_events_eq]
    obtain ⟨h1, h2, h3, h4⟩ := ensure_capacity_step x (min (max count 0) 256).toNat
      (clamp_toNat_le count) hx
    exact ⟨⟨h1, h2⟩, h3, h4⟩

theorem pattern_append_event_pattern (x : t_telomere) (v : t_float)
    (h : x.num_events < TELOMERE_MAX_EVENTS) :
    (pattern_append_event x v).pattern =
      Function.update x.pattern x.num_events (clamp_unit v) := by
  unfold pattern_append_event
  have hn : ¬ x.num_events ≥ TELOMERE_MAX_EVENTS := not_le.mpr h
  rw [if_neg hn]
  show Function.update (pattern_ensure_capacity x (x.num_events + 1)).pattern
    (pattern_ensure_capacity x (x.num_events + 1)).num_events (clamp_unit v) = _
  rw [pattern_ensure_capacity_pattern, pattern_ensure_capacity_num_events]

/-- Doubling a capacity out of 32, 64, 128, 256 any number of times and capping
the result at 256 gives one of the four again. -/
theorem doubling_closed (a j : ℕ) (ha : a = 32 ∨ a = 64 ∨ a = 128 ∨ a = 256) :
    min (a * 2 ^ j) 256 = 32 ∨ min (a * 2 ^ j) 256 = 64 ∨ min (a * 2 ^ j) 256 = 128 ∨
      min (a * 2 ^ j) 256 = 256 := by
  rcases Nat.lt_or_ge j 4 with hj | hj
  · interval_cases j <;> rcases ha with h | h | h | h <;> subst h <;> decide
  · have h16 : 2 ^ 4 ≤ 2 ^ j := Nat.pow_le_pow_right (by norm_num) hj
    have : 256 ≤ a * 2 ^ j := by
      have ha32 : 32 ≤ a := by rcases ha with h | h | h | h <;> omega
      calc 256 ≤ 32 * 2 ^ 4 := by norm_num
        _ ≤ a * 2 ^ j := Nat.mul_le_mul ha32 h16
    right; right; right
    exact Nat.min_eq_right this

theorem store_reachable (ops : List t_store_op) :
    ∀ x : t_telomere, store_inv x →
      (x.pattern_alloc = 32 ∨ x.pattern_alloc = 64 ∨ x.pattern_alloc = 128 ∨
        x.pattern_alloc = 256) →
      store_inv (ops.foldl store_apply x) ∧
      ((ops.foldl store_apply x).pattern_alloc = 32 ∨
        (ops.foldl store_apply x).pattern_alloc = 64 ∨
        (ops.foldl store_apply x).pattern_alloc = 128 ∨
        (ops.foldl store_apply x).pattern_alloc = 256) := by
  induction ops with
  | nil => exact fun x hx ha => ⟨hx, ha⟩
  | cons op ops ih =>
    intro x hx ha
    obtain ⟨h1, _, h3⟩ := store_apply_step x op hx
    rw [List.foldl_cons]
    apply ih _ h1
    have h16 : 16 ≤ x.pattern_alloc := by rcases ha with h | h | h | h <;> omega
    rcases h3 h16 with h | ⟨j, _, h⟩
    · rw [h]; exact ha
    · rw [h]; exact doubling_closed _ j ha

/-! ## The transform registry -/

theorem registry_overwrite_spec (name : t_symbol) (fn : t_transform_fn) (description : String)
    (min_args max_args : ℤ) :
    ∀ registry : List t_transform_entry,
      (registry_overwrite name fn description min_args max_args registry = none ∧
        name ∉ help_names registry) ∨
      (∃ r, registry_overwrite name fn description min_args max_args registry = some r ∧
        name ∈ help_names registry ∧
        help_names r = help_names registry ∧
        telomere_lookup_transform r name =
          some { name := name, fn := fn, description := description,
                 min_args := min_args, max_args := max_args } ∧
        ∀ other, other ≠ name →
          telomere_lookup_transform r other = telomere_lookup_transform registry other) := by
  intro registry
  induction registry with
  | nil =>
    left
    exact ⟨rfl, by simp [help_names]⟩
  | cons cur rest ih =>
    by_cases hc : cur.name = name
    · right
      refine ⟨{ cur with fn := fn, description := description,
                         min_args := min_args, max_args := max_args } :: rest, ?_, ?_, ?_, ?_, ?_⟩
      · simp only [registry_overwrite, hc, if_true]
      · simp [help_names, hc]
      · simp [help_names]
      · simp only [telomere_lookup_transform, hc, if_true]
      · intro other ho
        have h1 : ¬ cur.name = other := by rw [hc]; exact fun h => ho h.symm
        simp only [telomere_lookup_transform, h1, if_false]
    · rcases ih with ⟨h1, h2⟩ | ⟨r, h1, h2, h3, h4, h5⟩
      · left
        refine ⟨?_, ?_⟩
        · simp only [registry_overwrite, hc, if_false, h1, Option.map_none']
        · intro hmem
          simp only [help_names, List.map_cons, List.mem_cons] at hmem
          rcases hmem with h | h
          · exact hc h.symm
          · exact h2 h
      · right
        refine ⟨cur :: r, ?_, ?_, ?_, ?_, ?_⟩
        · simp only [registry_overwrite, hc, if_false, h1, Option.map_some']
        · simp only [help_names, List.map_cons, List.mem_cons]
          exact Or.inr h2
        · simp only [help_names, List.map_cons] at h3 ⊢
          rw [h3]
        · simp only [telomere_lookup_transform, hc, if_false]
          exact h4
        · intro other ho
          by_cases hco : cur.name = other
          · simp only [telomere_lookup_transform, hco, if_true]
          · simp only [telomere_lookup_transform, hco, if_false]
            exact h5 other ho

theorem register_of_mem (registry : List t_transform_entry) (name : t_symbol)
    (fn : t_transform_fn) (description : String) (min_args max_args : ℤ)
    (h : name ∈ help_names registry) :
    help_names (telomere_register_transform registry name fn description min_args max_args) =
      help_names registry := by
  rcases registry_overwrite_spec name fn description min_args max_args registry with
    ⟨_, h2⟩ | ⟨r, h1, _, h3, _, _⟩
  · exact absurd h h2
  · unfold telomere_register_transform
    rw [h1]
    exact h3

theorem register_of_not_mem (registry : List t_transform_entry) (name : t_symbol)
    (fn : t_transform_fn) (description : String) (min_args max_args : ℤ)
    (h : name ∉ help_names registry) :
    telomere_register_transform registry name fn description min_args max_args =
      { name := name, fn := fn, description := description,
        min_args := min_args, max_args := max_args } :: registry := by
  rcases registry_overwrite_spec name fn description min_args max_args registry with
    ⟨h1, _⟩ | ⟨r, _, h2, _, _, _⟩
  · unfold telomere_register_transform
    rw [h1]
  · exact absurd h2 h

theorem register_names (registry : List t_transform_entry) (name : t_symbol)
    (fn : t_transform_fn) (description : String) (min_args max_args : ℤ) :
    help_names (telomere_register_transform registry name fn description min_args max_args) =
      if name ∈ help_names registry then help_names registry
      else name :: help_names registry := by
  by_cases h : name ∈ help_names registry
  · rw [if_pos h, register_of_mem _ _ _ _ _ _ h]
  · rw [if_neg h, register_of_not_mem _ _ _ _ _ _ h]
    rfl

theorem register_lookup_same (registry : List t_transform_entry) (name : t_symbol)
    (fn : t_transform_fn) (description : String) (min_args max_args : ℤ) :
    telomere_lookup_transform
        (telomere_register_transform registry name fn description min_args max_args) name =
      some { name := name, fn := fn, description := description,
             min_args := min_args, max_args := max_args } := by
  rcases registry_overwrite_spec name fn description min_args max_args registry with
    ⟨h1, _⟩ | ⟨r, h1, _, _, h4, _⟩
  · unfold telomere_register_transform
    rw [h1]
    simp only [telomere_lookup_transform, if_true]
  · unfold telomere_register_transform
    rw [h1]
    exact h4

theorem register_lookup_other (registry : List t_transform_entry) (name : t_symbol)
    (fn : t_transform_fn) (description : String) (min_args max_args : ℤ)
    (other : t_symbol) (ho : other ≠ name) :
    telomere_lookup_transform
        (telomere_register_transform registry name fn description min_args max_args) other =
      telomere_lookup_transform registry other := by
  rcases registry_overwrite_spec name fn description min_args max_args registry with
    ⟨h1, _⟩ | ⟨r, h1, _, _, _, h5⟩
  · unfold telomere_register_transform
    rw [h1]
    have : ¬ name = other := fun h => ho h.symm
    simp only [telomere_lookup_transform, this, if_false]
  · unfold telomere_register_transform
    rw [h1]
    exact h5 other ho

/-- The registry after one more call. -/
theorem registry_after_snoc (calls : List t_transform_entry) (c : t_transform_entry) :
    registry_after (calls ++ [c]) =
      telomere_register_transform (registry_after calls) c.name c.fn c.description
        c.min_args c.max_args := by
  unfold registry_after
  rw [List.foldl_append]
  rfl

theorem registry_after_names_snoc (calls : List t_transform_entry) (c : t_transform_entry) :
    help_names (registry_after (calls ++ [c])) =
      if c.name ∈ help_names (registry_after calls) then help_names (registry_after calls)
      else c.name :: help_names (registry_after calls) := by
  rw [registry_after_snoc, register_names]

theorem registry_after_mem (calls : List t_transform_entry) (a : t_symbol) :
    a ∈ help_names (registry_after calls) ↔ a ∈ calls.map (fun c => c.name) := by
  induction calls using List.reverseRecOn with
  | nil => simp [registry_after, help_names]
  | append_singleton calls c ih =>
    rw [registry_after_names_snoc, List.map_append, List.mem_append, List.map_singleton,
      List.mem_singleton]
    by_cases h : c.name ∈ help_names (registry_after calls)
    · rw [if_pos h]
      constructor
      · intro ha
        exact Or.inl (ih.mp ha)
      · rintro (ha | ha)
        · exact ih.mpr ha
        · rw [ha]; exact h
    · rw [if_neg h, List.mem_cons]
      constructor
      · rintro (ha | ha)
        · exact Or.inr ha
        · exact Or.inl (ih.mp ha)
      · rintro (ha | ha)
        · exact Or.inr (ih.mpr ha)
        · exact Or.inl ha

theorem registry_after_nodup (calls : List t_transform_entry) :
    (help_names (registry_after calls)).Nodup := by
  induction calls using List.reverseRecOn with
  | nil => simp [registry_after, help_names]
  | append_singleton calls c ih =>
    rw [registry_after_names_snoc]
    by_cases h : c.name ∈ help_names (registry_after calls)
    · rw [if_pos h]; exact ih
    · rw [if_neg h]; exact List.nodup_cons.mpr ⟨h, ih⟩

theorem registry_after_dedup (calls : List t_transform_entry) :
    help_names (registry_after calls) = (calls.map (fun c => c.name)).reverse.dedup := by
  induction calls using List.reverseRecOn with
  | nil => simp [registry_after, help_names]
  | append_singleton calls c ih =>
    rw [registry_after_names_snoc, List.map_append, List.map_singleton, List.reverse_append,
      List.reverse_singleton, List.singleton_append]
    by_cases h : c.name ∈ help_names (registry_after calls)
    · rw [if_pos h]
      have h' : c.name ∈ (calls.map (fun c => c.name)).reverse := by
        rw [List.mem_reverse]; exact (registry_after_mem calls c.name).mp h
      rw [List.dedup_cons_of_mem h', ih]
    · rw [if_neg h]
      have h' : c.name ∉ (calls.map (fun c => c.name)).reverse := by
        rw [List.mem_reverse]; exact fun hm => h ((registry_after_mem calls c.name).mpr hm)
      rw [List.dedup_cons_of_not_mem h', ih]

/-- A name whose first registration came later is enumerated earlier. -/
theorem registry_after_order (calls : List t_transform_entry) (a b : t_symbol)
    (ha : a ∈ calls.map (fun c => c.name))
    (hlt : List.indexOf b (calls.map (fun c => c.name)) <
      List.indexOf a (calls.map (fun c => c.name))) :
    List.indexOf a (help_names (registry_after calls)) <
      List.indexOf b (help_names (registry_after calls)) := by
  induction calls using List.reverseRecOn with
  | nil => simp at ha
  | append_singleton calls c ih =>
    rw [List.map_append, List.map_singleton] at ha hlt
    rw [registry_after_names_snoc]
    have hblt : List.indexOf b (calls.map (fun c => c.name)) <
        (calls.map (fun c => c.name)).length ∨ b ∉ calls.map (fun c => c.name) := by
      by_cases hb : b ∈ calls.map (fun c => c.name)
      · exact Or.inl (List.indexOf_lt_length.mpr hb)
      · exact Or.inr hb
    by_cases ha' : a ∈ calls.map (fun c => c.name)
    · -- both registered before this call
      have hai : List.indexOf a (calls.map (fun c => c.name) ++ [c.name]) =
          List.indexOf a (calls.map (fun c => c.name)) := List.indexOf_append_of_mem ha'
      have hal : List.indexOf a (calls.map (fun c => c.name)) <
          (calls.map (fun c => c.name)).length := List.indexOf_lt_length.mpr ha'
      have hb' : b ∈ calls.map (fun c => c.name) := by
        by_contra hb
        have hbi : List.indexOf b (calls.map (fun c => c.name) ++ [c.name]) ≥
            (calls.map (fun c => c.name)).length := by
          rw [List.indexOf_append_of_not_mem hb]
          omega
        omega
      have hbi : List.indexOf b (calls.map (fun c => c.name) ++ [c.name]) =
          List.indexOf b (calls.map (fun c => c.name)) := List.indexOf_append_of_mem hb'
      rw [hai, hbi] at hlt
      have hrec := ih ha' hlt
      by_cases h : c.name ∈ help_names (registry_after calls)
      · rw [if_pos h]; exact hrec
      · rw [if_neg h]
        have hca : ¬ c.name = a := fun e =>
          h (e ▸ (registry_after_mem calls a).mpr ha')
        have hcb : ¬ c.name = b := fun e =>
          h (e ▸ (registry_after_mem calls b).mpr hb')
        rw [List.indexOf_cons_ne _ hca, List.indexOf_cons_ne _ hcb]
        omega
    · -- `a` is registered for the first time by this call
      have hac : a = c.name := by
        rcases List.mem_append.mp ha with h | h
        · exact absurd h ha'
        · exact List.mem_singleton.mp h
      have hcn : c.name ∉ help_names (registry_after calls) := by
        rw [← hac]; exact fun hm => ha' ((registry_after_mem calls a).mp hm)
      rw [if_neg hcn]
      have hba : ¬ c.name = b := by
        intro e
        rw [← e, ← hac] at hlt
        exact lt_irrefl _ hlt
      rw [hac, List.indexOf_cons_self, List.indexOf_cons_ne _ hba]
      omega

/-! ## The wrap loops complete -/

theorem wrap_down_some :
    ∀ (fuel k : ℕ) (val : t_float), k ≤ fuel → k ≤ 16777215 → val ≤ (k : ℚ) →
      ∃ w, wrap_down fuel val = some w ∧ w < 1 ∧ (val < 1 → w = val) ∧ (1 ≤ val → 0 ≤ w)
  | 0, k, val, hk, _, hv => by
    have hk0 : k = 0 := by omega
    subst hk0
    have hlt : val < 1 := by
      have : val ≤ 0 := by simpa using hv
      linarith
    have hn : ¬ val ≥ 1 := not_le.mpr hlt
    refine ⟨val, ?_, hlt, fun _ => rfl, fun h => absurd h hn⟩
    simp only [wrap_down, hn, if_false]
  | fuel + 1, k, val, hk, hk2, hv => by
    by_cases hge : val ≥ 1
    · have hk1 : 1 ≤ k := by
        have : (1 : ℚ) ≤ (k : ℚ) := le_trans hge hv
        exact_mod_cast this
      have hstep : wrap_down (fuel + 1) val = wrap_down fuel (fsub val 1) := by
        simp only [wrap_down, hge, if_true]
      have hle : fsub val 1 ≤ ((k - 1 : ℕ) : ℚ) := by
        unfold fsub
        have h1 : val - 1 ≤ (((k - 1 : ℕ) : ℤ) : ℚ) := by
          have : ((k - 1 : ℕ) : ℚ) = (k : ℚ) - 1 := by
            rw [Nat.cast_sub hk1]; simp
          rw [Int.cast_natCast, this]
          linarith
        have h2 := f32_mono h1
        rw [f32_intCast _ (by
          rw [abs_of_nonneg (by positivity)]
          have : ((k - 1 : ℕ) : ℤ) < 16777215 := by omega
          calc ((k - 1 : ℕ) : ℤ) < 16777215 := this
            _ < 2 ^ 24 := by norm_num)] at h2
        rwa [Int.cast_natCast] at h2
      have h0 : 0 ≤ fsub val 1 := by
        unfold fsub
        exact f32_nonneg (by linarith)
      obtain ⟨w, hw1, hw2, hw3, hw4⟩ :=
        wrap_down_some fuel (k - 1) (fsub val 1) (by omega) (by omega) hle
      refine ⟨w, ?_, hw2, fun h => absurd hge (not_le.mpr h), fun _ => ?_⟩
      · rw [hstep, hw1]
      · by_cases hlt : fsub val 1 < 1
        · rw [hw3 hlt]; exact h0
        · exact hw4 (not_lt.mp hlt)
    · have hlt : val < 1 := not_le.mp hge
      refine ⟨val, ?_, hlt, fun _ => rfl, fun h => absurd h hge⟩
      simp only [wrap_down, hge, if_false]

theorem wrap_up_some :
    ∀ (fuel k : ℕ) (val : t_float), k ≤ fuel → k ≤ 16777215 → -(k : ℚ) ≤ val →
      ∃ w, wrap_up fuel val = some w ∧ 0 ≤ w ∧ (0 ≤ val → w = val)
  | 0, k, val, hk, _, hv => by
    have hk0 : k = 0 := by omega
    subst hk0
    have h0 : 0 ≤ val := by simpa using hv
    have hn : ¬ val < 0 := not_lt.mpr h0
    refine ⟨val, ?_, h0, fun _ => rfl⟩
    simp only [wrap_up, hn, if_false]
  | fuel + 1, k, val, hk, hk2, hv => by
    by_cases hneg : val < 0
    · have hk1 : 1 ≤ k := by
        have : (0 : ℚ) < (k : ℚ) := by linarith
        exact_mod_cast this
      have hstep : wrap_up (fuel + 1) val = wrap_up fuel (fadd val 1) := by
        simp only [wrap_up, hneg, if_true]
      have hle : -(((k - 1 : ℕ) : ℚ)) ≤ fadd val 1 := by
        unfold fadd
        have h1 : ((-((k - 1 : ℕ) : ℤ) : ℤ) : ℚ) ≤ val + 1 := by
          have : ((k - 1 : ℕ) : ℚ) = (k : ℚ) - 1 := by
            rw [Nat.cast_sub hk1]; simp
          rw [Int.cast_neg, Int.cast_natCast, this]
          linarith
        have h2 := f32_mono h1
        rw [f32_intCast _ (by
          rw [abs_neg, abs_of_nonneg (by positivity)]
          have : ((k - 1 : ℕ) : ℤ) < 16777215 := by omega
          calc ((k - 1 : ℕ) : ℤ) < 16777215 := this
            _ < 2 ^ 24 := by norm_num)] at h2
        rwa [Int.cast_neg, Int.cast_natCast] at h2
      obtain ⟨w, hw1, hw2, _⟩ :=
        wrap_up_some fuel (k - 1) (fadd val 1) (by omega) (by omega) hle
      refine ⟨w, ?_, hw2, fun h => absurd hneg (not_lt.mpr h)⟩
      rw [hstep, hw1]
    · have h0 : 0 ≤ val := not_lt.mp hneg
      refine ⟨val, ?_, h0, fun _ => rfl⟩
      simp only [wrap_up, hneg, if_false]

/-- Both wrap loops in sequence, as `transform_rotate` and `transform_jitter` run
them, complete on a value of magnitude at most `k`. -/
theorem wrap_both_some (fuel k : ℕ) (val : t_float) (hk : k ≤ fuel) (hk2 : k ≤ 16777215)
    (h1 : val ≤ (k : ℚ)) (h2 : -(k : ℚ) ≤ val) :
    ∃ w1 w2, wrap_down fuel val = some w1 ∧ wrap_up fuel w1 = some w2 := by
  obtain ⟨w1, ha, _, hc, hd⟩ := wrap_down_some fuel k val hk hk2 h1
  have hlow : -(k : ℚ) ≤ w1 := by
    by_cases hlt : val < 1
    · rw [hc hlt]; exact h2
    · have := hd (not_lt.mp hlt)
      have hk0 : (0 : ℚ) ≤ (k : ℚ) := by positivity
      linarith
  obtain ⟨w2, hb, _, _⟩ := wrap_up_some fuel k w1 hk hk2 hlow
  exact ⟨w1, w2, ha, hb⟩

/-- A loop over `0 .. m - 1` whose body may fail completes when every iteration
does, and establishes the invariant `P`. -/
theorem foldlM_range_some (f : t_telomere → ℕ → Option t_telomere)
    (P : ℕ → t_telomere → Prop) (x : t_telomere) :
    ∀ m : ℕ, P 0 x →
      (∀ i, i < m → ∀ y, P i y → ∃ z, f y i = some z ∧ P (i + 1) z) →
      ∃ y, (List.range m).foldlM f x = some y ∧ P m y := by
  intro m
  induction m with
  | zero =>
    intro h0 _
    exact ⟨x, rfl, h0⟩
  | succ m ih =>
    intro h0 hstep
    obtain ⟨y, hy, hP⟩ := ih h0 (fun i hi y hy => hstep i (by omega) y hy)
    obtain ⟨z, hz, hPz⟩ := hstep m (by omega) y hP
    refine ⟨z, ?_, hPz⟩
    rw [List.range_succ, List.foldlM_append, hy]
    simp only [Option.some_bind, List.foldlM_cons, List.foldlM_nil, hz, Option.pure_def,
      Option.bind_eq_bind]

theorem loop_inv_set (x y : t_telomere) (i : ℕ) (v : t_float) (h : loop_inv x i y) :
    loop_inv x (i + 1) (pattern_set_event y i v) := by
  obtain ⟨h1, h2, h3⟩ := h
  refine ⟨by rw [pattern_set_event_num_events, h1], ?_, ?_⟩
  · unfold pattern_set_event
    split_ifs
    · exact h2
    · exact h2
  · intro t ht
    unfold pattern_set_event
    split_ifs
    · exact h3 t (by omega)
    · show Function.update y.pattern (i : ℤ).toNat (clamp_unit v) t = x.pattern t
      rw [Int.toNat_ofNat, Function.update_noteq (by omega)]
      exact h3 t (by omega)

theorem loop_inv_get (x y : t_telomere) (i : ℕ) (h : loop_inv x i y) (hi : i < x.num_events) :
    pattern_get_event y (i : ℤ) = x.pattern i := by
  rw [pattern_get_event_of_lt y i (by rw [h.1]; exact hi)]
  exact h.2.2 i (le_refl _)

theorem sorted_of_map_sort {o : Option t_telomere} {y : t_telomere}
    (h : o.map pattern_sort = some y) : (events y).Sorted (· ≤ ·) := by
  obtain ⟨z, _, hz⟩ := Option.map_eq_some'.mp h
  rw [← hz]
  exact events_pattern_sort_sorted z

theorem events_of_empty (x : t_telomere) (h : x.num_events = 0) : events x = [] := by
  unfold events
  rw [h]
  rfl

/-! ## Sortedness after the transforms that sort -/

theorem transform_palindrome_sorted (x : t_telomere) (argv : List t_atom) :
    (events (transform_palindrome x argv)).Sorted (· ≤ ·) := by
  unfold transform_palindrome pattern_num_events
  by_cases h : x.num_events = 0
  · simp only [h, if_true]
    rw [events_of_empty x h]
    exact List.sorted_nil
  · simp only [h, if_false]
    exact events_pattern_sort_sorted _

theorem transform_reverse_sorted (x : t_telomere) (argv : List t_atom) :
    (events (transform_reverse x argv)).Sorted (· ≤ ·) := by
  unfold transform_reverse pattern_num_events
  by_cases h : x.num_events = 0
  · simp only [h, if_true]
    rw [events_of_empty x h]
    exact List.sorted_nil
  · simp only [h, if_false]
    exact events_pattern_sort_sorted _

theorem transform_slow_sorted (x : t_telomere) (argv : List t_atom) :
    (events (transform_slow x argv)).Sorted (· ≤ ·) := by
  unfold transform_slow pattern_num_events
  by_cases h : x.num_events = 0
  · simp only [h, if_true]
    rw [events_of_empty x h]
    exact List.sorted_nil
  · simp only [h, if_false]
    exact events_pattern_sort_sorted _

theorem transform_euclid_sorted (x : t_telomere) (argv : List t_atom) :
    (events (transform_euclid x argv)).Sorted (· ≤ ·) := by
  unfold transform_euclid
  exact events_pattern_sort_sorted _

theorem transform_rotate_sorted (fuel : ℕ) (x y : t_telomere) (argv : List t_atom)
    (h : transform_rotate fuel x argv = some y) : (events y).Sorted (· ≤ ·) := by
  unfold transform_rotate pattern_num_events at h
  by_cases h0 : x.num_events = 0
  · simp only [h0, if_true, Option.some.injEq] at h
    rw [← h, events_of_empty x h0]
    exact List.sorted_nil
  · simp only [h0, if_false] at h
    by_cases hg : pattern_get_grid x = 0
    · simp only [hg, if_true] at h
      exact absurd h (by simp)
    · simp only [hg, if_false] at h
      exact sorted_of_map_sort h

theorem transform_jitter_sorted (fuel : ℕ) (draws : ℕ → t_float) (x y : t_telomere)
    (argv : List t_atom) (h : transform_jitter fuel draws x argv = some y) :
    (events y).Sorted (· ≤ ·) := by
  unfold transform_jitter pattern_num_events at h
  by_cases h0 : x.num_events = 0
  · simp only [h0, if_true, Option.some.injEq] at h
    rw [← h, events_of_empty x h0]
    exact List.sorted_nil
  · simp only [h0, if_false] at h
    exact sorted_of_map_sort h

theorem transform_fast_sorted (fuel : ℕ) (x y : t_telomere) (argv : List t_atom)
    (h : transform_fast fuel x argv = some y) : (events y).Sorted (· ≤ ·) := by
  unfold transform_fast pattern_num_events at h
  by_cases h0 : x.num_events = 0
  · simp only [h0, if_true, Option.some.injEq] at h
    rw [← h, events_of_empty x h0]
    exact List.sorted_nil
  · simp only [h0, if_false] at h
    obtain ⟨st, _, hz⟩ := Option.map_eq_some'.mp h
    rw [← hz]
    exact events_pattern_sort_sorted _

/-! ## Completion of `transform_rotate` and `transform_jitter` -/

theorem f32_le_natCast (k : ℕ) (hk : k ≤ 16777215) {v : ℚ} (h : v ≤ (k : ℚ)) :
    f32 v ≤ (k : ℚ) := by
  have h1 : v ≤ (((k : ℤ)) : ℚ) := by rwa [Int.cast_natCast]
  have h2 := f32_mono h1
  rw [f32_intCast _ (by
    rw [abs_of_nonneg (by positivity)]
    have : (k : ℤ) ≤ 16777215 := by omega
    calc (k : ℤ) ≤ 16777215 := this
      _ < 2 ^ 24 := by norm_num)] at h2
  rwa [Int.cast_natCast] at h2

theorem f32_ge_neg_natCast (k : ℕ) (hk : k ≤ 16777215) {v : ℚ} (h : -(k : ℚ) ≤ v) :
    -(k : ℚ) ≤ f32 v := by
  have h1 : -v ≤ (k : ℚ) := by linarith
  have h2 := f32_le_natCast k hk h1
  rw [f32_neg] at h2
  linarith

theorem transform_rotate_completes (fuel k : ℕ) (x : t_telomere) (argv : List t_atom)
    (hg : pattern_get_grid x ≠ 0) (hk : k ≤ fuel) (hk2 : k ≤ 16777215)
    (hev : ∀ i, i < x.num_events → 0 ≤ x.pattern i ∧ x.pattern i ≤ 1)
    (hs : |fdiv (float_of_int (int_of_float (atom_getfloatarg 0 argv)))
        (float_of_int (pattern_get_grid x))| + 1 ≤ (k : ℚ)) :
    ∃ y, transform_rotate fuel x argv = some y := by
  by_cases h0 : x.num_events = 0
  · refine ⟨x, ?_⟩
    unfold transform_rotate pattern_num_events
    simp only [h0, if_true]
  · set shift := fdiv (float_of_int (int_of_float (atom_getfloatarg 0 argv)))
      (float_of_int (pattern_get_grid x)) with hshift
    have hdef : transform_rotate fuel x argv =
        ((List.range x.num_events).foldlM (fun x (i : ℕ) => do
          let val ← wrap_down fuel (fadd (pattern_get_event x i) shift)
          let val ← wrap_up fuel val
          pure (pattern_set_event x i val)) x).map pattern_sort := by
      unfold transform_rotate pattern_num_events
      simp only [h0, hg, if_false]
    obtain ⟨y, hy, _⟩ := foldlM_range_some (fun x (i : ℕ) => do
          let val ← wrap_down fuel (fadd (pattern_get_event x i) shift)
          let val ← wrap_up fuel val
          pure (pattern_set_event x i val)) (loop_inv x) x x.num_events
        ⟨rfl, rfl, fun _ _ => rfl⟩
        (by
          intro i hi y hinv
          have hget := loop_inv_get x y i hinv hi
          obtain ⟨e0, e1⟩ := hev i hi
          have habs := abs_le.mp (le_refl |shift|)
          have hup : fadd (x.pattern i) shift ≤ (k : ℚ) := by
            unfold fadd
            exact f32_le_natCast k hk2 (by linarith)
          have hlo : -(k : ℚ) ≤ fadd (x.pattern i) shift := by
            unfold fadd
            exact f32_ge_neg_natCast k hk2 (by linarith)
          obtain ⟨w1, w2, hw1, hw2⟩ := wrap_both_some fuel k _ hk hk2 hup hlo
          refine ⟨pattern_set_event y i w2, ?_, loop_inv_set x y i w2 hinv⟩
          simp only [hget, hw1, hw2, Option.some_bind, Option.bind_eq_bind, Option.pure_def])
    exact ⟨pattern_sort y, by rw [hdef, hy]; rfl⟩

theorem transform_jitter_completes (fuel : ℕ) (draws : ℕ → t_float) (x : t_telomere)
    (argv : List t_atom) (hfuel : 2 ≤ fuel)
    (hev : ∀ i, i < x.num_events → 0 ≤ x.pattern i ∧ x.pattern i ≤ 1)
    (hd : ∀ i, i < x.num_events → 0 ≤ draws i ∧ draws i ≤ 1) :
    ∃ y, transform_jitter fuel draws x argv = some y := by
  by_cases h0 : x.num_events = 0
  · refine ⟨x, ?_⟩
    unfold transform_jitter pattern_num_events
    simp only [h0, if_true]
  · set amount := clamp_unit (atom_getfloatarg 0 argv) with hamount
    have hdef : transform_jitter fuel draws x argv =
        ((List.range x.num_events).foldlM (fun x (i : ℕ) => do
          let val ← wrap_down fuel
            (fadd (pattern_get_event x i) (fmul (fsub (fmul (draws i) 2) 1) amount))
          let val ← wrap_up fuel val
          pure (pattern_set_event x i val)) x).map pattern_sort := by
      unfold transform_jitter pattern_num_events
      simp only [h0, if_false]
      rfl
    obtain ⟨a0, a1⟩ := clamp_unit_range (atom_getfloatarg 0 argv)
    rw [← hamount] at a0 a1
    have f2 : f32 2 = 2 := by
      have := f32_intCast 2 (by norm_num)
      simpa using this
    have fm1 : f32 (-1) = -1 := by rw [f32_neg, f32_one]
    obtain ⟨y, hy, _⟩ := foldlM_range_some (fun x (i : ℕ) => do
          let val ← wrap_down fuel
            (fadd (pattern_get_event x i) (fmul (fsub (fmul (draws i) 2) 1) amount))
          let val ← wrap_up fuel val
          pure (pattern_set_event x i val)) (loop_inv x) x x.num_events
        ⟨rfl, rfl, fun _ _ => rfl⟩
        (by
          intro i hi y hinv
          have hget := loop_inv_get x y i hinv hi
          obtain ⟨e0, e1⟩ := hev i hi
          obtain ⟨d0, d1⟩ := hd i hi
          have m0 : 0 ≤ fmul (draws i) 2 := by
            unfold fmul; exact f32_nonneg (by linarith)
          have m1 : fmul (draws i) 2 ≤ 2 := by
            unfold fmul
            have := f32_mono (by linarith : draws i * 2 ≤ 2)
            rwa [f2] at this
          have r0 : -1 ≤ fsub (fmul (draws i) 2) 1 := by
            unfold fsub
            have := f32_mono (by linarith : (-1 : ℚ) ≤ fmul (draws i) 2 - 1)
            rwa [fm1] at this
          have r1 : fsub (fmul (draws i) 2) 1 ≤ 1 := by
            unfold fsub
            exact f32_le_one (by linarith)
          have q1 : fsub (fmul (draws i) 2) 1 * amount ≤ 1 := by
            have := mul_le_mul_of_nonneg_right r1 a0
            linarith
          have q0 : (-1 : ℚ) ≤ fsub (fmul (draws i) 2) 1 * amount := by
            have := mul_le_mul_of_nonneg_right r0 a0
            linarith
          have p1 : fmul (fsub (fmul (draws i) 2) 1) amount ≤ 1 := f32_le_one q1
          have p0 : -1 ≤ fmul (fsub (fmul (draws i) 2) 1) amount := by
            have := f32_mono q0
            rwa [fm1] at this
          have hup : fadd (x.pattern i) (fmul (fsub (fmul (draws i) 2) 1) amount) ≤
              ((2 : ℕ) : ℚ) := by
            unfold fadd
            exact f32_le_natCast 2 (by norm_num) (by push_cast; linarith)
          have hlo : -((2 : ℕ) : ℚ) ≤
              fadd (x.pattern i) (fmul (fsub (fmul (draws i) 2) 1) amount) := by
            unfold fadd
            exact f32_ge_neg_natCast 2 (by norm_num) (by push_cast; linarith)
          obtain ⟨w1, w2, hw1, hw2⟩ := wrap_both_some fuel 2 _ hfuel (by norm_num) hup hlo
          refine ⟨pattern_set_event y i w2, ?_, loop_inv_set x y i w2 hinv⟩
          simp only [hget, hw1, hw2, Option.some_bind, Option.bind_eq_bind, Option.pure_def])
    exact ⟨pattern_sort y, by rw [hdef, hy]; rfl⟩

/-! ## The transforms that do not sort -/

theorem transform_skip_sublist (draws : ℕ → t_float) (x : t_telomere) (argv : List t_atom)
    (hcap : x.num_events ≤ 256) :
    (events (transform_skip draws x argv)).Sublist (events x) := by
  rw [events_transform_skip draws x argv hcap]
  unfold events
  exact (List.filter_sublist _).map _

theorem transform_degrade_sublist (draws : ℕ → t_float) (x : t_telomere) (argv : List t_atom)
    (hcap : x.num_events ≤ 256) :
    (events (transform_degrade draws x argv)).Sublist (events x) := by
  by_cases h0 : x.num_events = 0
  · rw [transform_degrade_eq]
    simp only [h0, if_true]
    exact List.Sublist.refl _
  · rw [events_transform_degrade draws x argv (by omega) hcap]
    split_ifs
    · rw [List.singleton_sublist]
      unfold events
      exact List.mem_map.mpr ⟨0, List.mem_range.mpr (by omega), rfl⟩
    · unfold events
      exact (List.filter_sublist _).map _

/-! ## The handlers on an empty pattern -/

theorem transforms_of_empty (x : t_telomere) (h : x.num_events = 0) (fuel : ℕ)
    (draws : ℕ → t_float) (argv : List t_atom) :
    transform_palindrome x argv = x ∧
    transform_rotate fuel x argv = some x ∧
    transform_reverse x argv = x ∧
    transform_fast fuel x argv = some x ∧
    transform_slow x argv = x ∧
    transform_jitter fuel draws x argv = some x ∧
    transform_skip draws x argv = x ∧
    transform_degrade draws x argv = x := by
  refine ⟨?_, ?_, ?_, ?_, ?_, ?_, ?_, ?_⟩
  · unfold transform_palindrome pattern_num_events
    simp only [h, if_true]
  · unfold transform_rotate pattern_num_events
    simp only [h, if_true]
  · unfold transform_reverse pattern_num_events
    simp only [h, if_true]
  · unfold transform_fast pattern_num_events
    simp only [h, if_true]
  · unfold transform_slow pattern_num_events
    simp only [h, if_true]
  · unfold transform_jitter pattern_num_events
    simp only [h, if_true]
  · rw [transform_skip_eq]
    simp only [h, if_true]
  · rw [transform_degrade_eq]
    simp only [h, if_true]

/-! ## Stability of `pattern_sort` -/

theorem tslots_succ (p : ℕ → t_float × ℕ) (n : ℕ) :
    (List.range (n + 1)).map p = (List.range n).map p ++ [p n] := by
  rw [List.range_succ, List.map_append, List.map_singleton]

theorem tslots_congr {p q : ℕ → t_float × ℕ} {n : ℕ} (h : ∀ t, t < n → p t = q t) :
    (List.range n).map p = (List.range n).map q := by
  apply List.map_congr_left
  intro a ha
  exact h a (List.mem_range.mp ha)

theorem tslots_one (p : ℕ → t_float × ℕ) : (List.range 1).map p = [p 0] := rfl

theorem tagged_snoc {l : List (t_float × ℕ)} {b : t_float × ℕ} (hs : l.Pairwise tagged_lt)
    (hb : ∀ a ∈ l, tagged_lt a b) : (l ++ [b]).Pairwise tagged_lt := by
  apply List.pairwise_append.mpr
  refine ⟨hs, List.pairwise_singleton _ _, ?_⟩
  intro a ha c hc
  rw [List.mem_singleton] at hc
  subst hc
  exact hb a ha

theorem tagged_of_snoc {l : List (t_float × ℕ)} {b : t_float × ℕ}
    (hs : (l ++ [b]).Pairwise tagged_lt) :
    l.Pairwise tagged_lt ∧ ∀ a ∈ l, tagged_lt a b := by
  have h := List.pairwise_append.mp hs
  exact ⟨h.1, fun a ha => h.2.2 a ha b (List.mem_singleton_self _)⟩

theorem tagged_lt_le {a b : t_float × ℕ} (h : tagged_lt a b) : a.1 ≤ b.1 := by
  rcases h with h | h
  · exact le_of_lt h
  · exact le_of_eq h.1

theorem sort_inner_tagged_spec (key : t_float × ℕ) :
    ∀ (m : ℕ) (p : ℕ → t_float × ℕ), (∀ t, t < m → (p t).2 < key.2) →
      (∀ t, m < t → sort_inner_tagged p key m t = p t) ∧
      ((List.range (m + 1)).map (sort_inner_tagged p key m)).Perm
        ((List.range m).map p ++ [key]) ∧
      (((List.range m).map p).Pairwise tagged_lt →
        ((List.range (m + 1)).map (sort_inner_tagged p key m)).Pairwise tagged_lt) := by
  intro m
  induction m with
  | zero =>
    intro p _
    refine ⟨?_, ?_, ?_⟩
    · intro t ht
      simp only [sort_inner_tagged]
      exact Function.update_noteq (by omega) _ _
    · simp only [sort_inner_tagged, tslots_one, Function.update_same, List.range_zero,
        List.map_nil, List.nil_append]
      exact List.Perm.refl _
    · intro _
      simp only [sort_inner_tagged, tslots_one]
      exact List.pairwise_singleton _ _
  | succ j ih =>
    intro p htag
    by_cases hgt : (p j).1 > key.1
    · have hdef : sort_inner_tagged p key (j + 1) =
          sort_inner_tagged (Function.update p (j + 1) (p j)) key j := by
        simp only [sort_inner_tagged, hgt, if_true]
      have htag' : ∀ t, t < j → (Function.update p (j + 1) (p j) t).2 < key.2 := by
        intro t ht
        rw [Function.update_noteq (by omega)]
        exact htag t (by omega)
      obtain ⟨ia, ib, ic⟩ := ih (Function.update p (j + 1) (p j)) htag'
      have hlow : (List.range j).map (Function.update p (j + 1) (p j)) = (List.range j).map p :=
        tslots_congr (fun t ht => Function.update_noteq (by omega) _ _)
      rw [hlow] at ib ic
      have hq : sort_inner_tagged p key (j + 1) (j + 1) = p j := by
        rw [hdef, ia (j + 1) (by omega)]
        exact Function.update_same _ _ _
      refine ⟨?_, ?_, ?_⟩
      · intro t ht
        rw [hdef, ia t (by omega)]
        exact Function.update_noteq (by omega) _ _
      · rw [tslots_succ (sort_inner_tagged p key (j + 1)) (j + 1), hq, tslots_succ p j]
        have h1 : ((List.range (j + 1)).map (sort_inner_tagged p key (j + 1)) ++ [p j]).Perm
            (((List.range j).map p ++ [key]) ++ [p j]) := by
          rw [hdef]; exact ib.append_right _
        refine h1.trans ?_
        rw [List.append_assoc, List.append_assoc]
        exact List.Perm.append_left _ (List.Perm.swap _ _ _)
      · intro hs
        rw [tslots_succ (sort_inner_tagged p key (j + 1)) (j + 1), hq]
        rw [tslots_succ] at hs
        have hs' := tagged_of_snoc hs
        have hsorted := ic hs'.1
        rw [← hdef] at hsorted ib
        apply tagged_snoc hsorted
        intro a ha
        have ha' := ib.mem_iff.mp ha
        rcases List.mem_append.mp ha' with h1 | h1
        · exact hs'.2 a h1
        · rw [List.mem_singleton] at h1
          subst h1
          exact Or.inl hgt
    · have hdef : sort_inner_tagged p key (j + 1) = Function.update p (j + 1) key := by
        simp only [sort_inner_tagged, hgt, if_false]
      have hlow : (List.range (j + 1)).map (Function.update p (j + 1) key)
          = (List.range (j + 1)).map p :=
        tslots_congr (fun t ht => Function.update_noteq (by omega) _ _)
      refine ⟨?_, ?_, ?_⟩
      · intro t ht
        rw [hdef]
        exact Function.update_noteq (by omega) _ _
      · rw [hdef, tslots_succ (Function.update p (j + 1) key), hlow, Function.update_same]
      · intro hs
        rw [hdef, tslots_succ (Function.update p (j + 1) key), hlow, Function.update_same]
        apply tagged_snoc hs
        intro a ha
        have hle : (p j).1 ≤ key.1 := not_lt.mp hgt
        obtain ⟨t, ht, hta⟩ := List.mem_map.mp ha
        have htlt : t < j + 1 := List.mem_range.mp ht
        have hale : a.1 ≤ key.1 := by
          rw [tslots_succ] at hs
          have hs' := tagged_of_snoc hs
          by_cases htj : t = j
          · rw [← hta, htj]; exact hle
          · have hmem : a ∈ (List.range j).map p :=
              List.mem_map.mpr ⟨t, List.mem_range.mpr (by omega), hta⟩
            exact le_trans (tagged_lt_le (hs'.2 a hmem)) hle
        have hatag : a.2 < key.2 := by
          rw [← hta]; exact htag t htlt
        rcases lt_or_eq_of_le hale with h | h
        · exact Or.inl h
        · exact Or.inr ⟨h, hatag⟩

theorem sort_outer_tagged_step (p : ℕ → t_float × ℕ) (m : ℕ) :
    (List.range (m + 1)).foldl (fun p k => sort_inner_tagged p (p (k + 1)) (k + 1)) p =
      sort_inner_tagged
        ((List.range m).foldl (fun p k => sort_inner_tagged p (p (k + 1)) (k + 1)) p)
        (((List.range m).foldl (fun p k => sort_inner_tagged p (p (k + 1)) (k + 1)) p) (m + 1))
        (m + 1) := by
  rw [List.range_succ, List.foldl_append]
  rfl

theorem sort_outer_tagged_invariant (v : ℕ → t_float) :
    ∀ m : ℕ,
      (∀ t, m < t →
        (List.range m).foldl (fun p k => sort_inner_tagged p (p (k + 1)) (k + 1))
          (fun i => (v i, i)) t = (v t, t)) ∧
      ((List.range (m + 1)).map
        ((List.range m).foldl (fun p k => sort_inner_tagged p (p (k + 1)) (k + 1))
          (fun i => (v i, i)))).Perm
          ((List.range (m + 1)).map (fun i => (v i, i))) ∧
      ((List.range (m + 1)).map
        ((List.range m).foldl (fun p k => sort_inner_tagged p (p (k + 1)) (k + 1))
          (fun i => (v i, i)))).Pairwise tagged_lt := by
  intro m
  induction m with
  | zero =>
    refine ⟨fun t _ => rfl, ?_, ?_⟩
    · exact List.Perm.refl _
    · simp only [List.range_zero, List.foldl_nil, tslots_one]
      exact List.pairwise_singleton _ _
  | succ m ih =>
    obtain ⟨ha, hb, hc⟩ := ih
    rw [sort_outer_tagged_step]
    set pm := (List.range m).foldl (fun p k => sort_inner_tagged p (p (k + 1)) (k + 1))
      (fun i => (v i, i)) with hpm
    have hkey : pm (m + 1) = (v (m + 1), m + 1) := ha (m + 1) (by omega)
    have htag : ∀ t, t < m + 1 → (pm t).2 < (pm (m + 1)).2 := by
      intro t ht
      have hmem : pm t ∈ (List.range (m + 1)).map pm :=
        List.mem_map.mpr ⟨t, List.mem_range.mpr ht, rfl⟩
      obtain ⟨s, hs, hse⟩ := List.mem_map.mp (hb.mem_iff.mp hmem)
      rw [hkey, ← hse]
      exact List.mem_range.mp hs
    obtain ⟨ia, ib, ic⟩ := sort_inner_tagged_spec (pm (m + 1)) (m + 1) pm htag
    refine ⟨?_, ?_, ?_⟩
    · intro t ht
      rw [ia t ht, ha t (by omega)]
    · refine ib.trans ?_
      rw [tslots_succ (fun i => (v i, i)) (m + 1), hkey]
      exact hb.append_right _
    · exact ic hc

theorem sort_outer_tagged_spec (v : ℕ → t_float) (n : ℕ) :
    ((List.range n).map (sort_outer_tagged (fun i => (v i, i)) n)).Perm
      ((List.range n).map (fun i => (v i, i))) ∧
    ((List.range n).map (sort_outer_tagged (fun i => (v i, i)) n)).Pairwise tagged_lt := by
  cases n with
  | zero => constructor <;> simp
  | succ m =>
    obtain ⟨_, hb, hc⟩ := sort_outer_tagged_invariant v m
    unfold sort_outer_tagged
    simp only [Nat.add_sub_cancel]
    exact ⟨hb, hc⟩

theorem fst_update (p : ℕ → t_float × ℕ) (a : ℕ) (b : t_float × ℕ) :
    (fun i => (Function.update p a b i).1) = Function.update (fun i => (p i).1) a b.1 := by
  funext i
  by_cases h : i = a
  · subst h; simp
  · simp [Function.update_noteq h]

theorem sort_inner_tagged_fst (key : t_float × ℕ) :
    ∀ (m : ℕ) (p : ℕ → t_float × ℕ),
      (fun t => (sort_inner_tagged p key m t).1) = sort_inner (fun i => (p i).1) key.1 m := by
  intro m
  induction m with
  | zero =>
    intro p
    simp only [sort_inner_tagged, sort_inner]
    exact fst_update p 0 key
  | succ j ih =>
    intro p
    by_cases hgt : (p j).1 > key.1
    · simp only [sort_inner_tagged, sort_inner, hgt, if_true]
      rw [ih, fst_update]
    · simp only [sort_inner_tagged, sort_inner, hgt, if_false]
      exact fst_update p (j + 1) key

theorem sort_outer_tagged_fst_fold (p : ℕ → t_float × ℕ) :
    ∀ m : ℕ,
      (fun t => ((List.range m).foldl
        (fun p k => sort_inner_tagged p (p (k + 1)) (k + 1)) p t).1) =
      (List.range m).foldl (fun p k => sort_inner p (p (k + 1)) (k + 1)) (fun i => (p i).1) := by
  intro m
  induction m with
  | zero => rfl
  | succ m ih =>
    rw [sort_outer_tagged_step, sort_outer_step, sort_inner_tagged_fst, ih,
      congrFun ih (m + 1)]

/-- Forgetting the tags turns the tagged run of the sort into `sort_outer`. -/
theorem sort_outer_tagged_fst (p : ℕ → t_float × ℕ) (n t : ℕ) :
    (sort_outer_tagged p n t).1 = sort_outer (fun i => (p i).1) n t :=
  congrFun (sort_outer_tagged_fst_fold p (n - 1)) t

theorem pairwise_range {S : ℕ → ℕ → Prop} :
    ∀ n : ℕ, (List.range n).Pairwise S → ∀ i j, i < j → j < n → S i j := by
  intro n
  induction n with
  | zero => intro _ i j _ hj; omega
  | succ n ih =>
    intro h i j hij hj
    rw [List.range_succ] at h
    have h' := List.pairwise_append.mp h
    by_cases hjn : j = n
    · subst hjn
      exact h'.2.2 i (List.mem_range.mpr hij) j (List.mem_singleton_self _)
    · exact ih h'.1 i j hij (by omega)

/-! ## Double-precision rounding -/

theorem f64_mono {x y : ℚ} (h : x ≤ y) : f64 x ≤ f64 y :=
  roundTo_mono 53 (by norm_num) (-1074) h

theorem f64_idem (x : ℚ) : f64 (f64 x) = f64 x :=
  roundTo_idem 53 (by norm_num) (-1074) x

theorem f64_fix (m e : ℤ) (hm : |m| < 2 ^ 53) (he : -1074 ≤ e) :
    f64 ((m : ℚ) * (2 : ℚ) ^ e) = (m : ℚ) * (2 : ℚ) ^ e :=
  roundTo_fix 53 (-1074) m e hm he

theorem f64_nonneg {x : ℚ} (h : 0 ≤ x) : 0 ≤ f64 x := roundTo_nonneg 53 (-1074) h

/-- The `double` literal `0.1` is at least one tenth. -/
theorem f64_tenth : (1 : ℚ) / 10 ≤ f64 (1 / 10) := by decide!

/-- A quotient `60000.0 / tempo` by a positive finite single-precision tempo is
a positive `double`. -/
theorem f64_quotient_pos {t : ℚ} (h0 : 0 < t) (h1 : t < 2 ^ 128) :
    0 < f64 (60000 / t) := by
  have hfix := f64_fix 1 (-1074) (by norm_num) (le_refl _)
  have hlow : ((1 : ℤ) : ℚ) * (2 : ℚ) ^ (-1074 : ℤ) ≤ 60000 / t := by
    rw [le_div_iff₀ h0, Int.cast_one, one_mul, zpow_neg]
    have h2 : ((2 : ℚ) ^ (1074 : ℤ))⁻¹ * t ≤ ((2 : ℚ) ^ (1074 : ℤ))⁻¹ * 2 ^ 128 :=
      mul_le_mul_of_nonneg_left (le_of_lt h1) (by positivity)
    have h3 : ((2 : ℚ) ^ (1074 : ℤ))⁻¹ * 2 ^ 128 ≤ 60000 := by
      have : ((2 : ℚ) ^ (1074 : ℤ)) = 2 ^ 946 * 2 ^ 128 := by
        rw [← zpow_natCast, ← zpow_natCast, ← zpow_add₀ (by norm_num : (2 : ℚ) ≠ 0)]
        norm_num
      rw [this, mul_inv, mul_assoc, inv_mul_cancel₀ (by positivity), mul_one]
      have : ((2 : ℚ) ^ 946)⁻¹ ≤ 1 := inv_le_one_of_one_le₀ (one_le_pow₀ (by norm_num))
      linarith
    linarith
  have := f64_mono hlow
  rw [hfix] at this
  have hpos : (0 : ℚ) < ((1 : ℤ) : ℚ) * (2 : ℚ) ^ (-1074 : ℤ) := by positivity
  linarith

theorem cycle_length_pos {t : ℚ} {b : ℤ} (h0 : 0 < t) (h1 : t < 2 ^ 128) (hb : 1 ≤ b) :
    0 < f64 (f64 (60000 / t) * b) := by
  have hq := f64_quotient_pos h0 h1
  have hb' : (1 : ℚ) ≤ (b : ℚ) := by exact_mod_cast hb
  have hle : f64 (60000 / t) ≤ f64 (60000 / t) * b := by
    have := mul_le_mul_of_nonneg_left hb' (le_of_lt hq)
    linarith
  have := f64_mono hle
  rw [f64_idem] at this
  linarith

/-! ## What the store operations and the transforms leave alone -/

theorem same_settings_refl (x : t_telomere) : same_settings x x := by
  unfold same_settings
  rfl

theorem same_settings_trans {x y z : t_telomere} (h1 : same_settings x y)
    (h2 : same_settings y z) : same_settings x z := by
  unfold same_settings at *
  rw [h2, h1]

/-- The fields named by a frame statement. -/
theorem same_settings_fields {x y : t_telomere} (h : same_settings x y) :
    y.tempo = x.tempo ∧ y.beats_per_cycle = x.beats_per_cycle ∧
    y.cycle_length_ms = x.cycle_length_ms ∧ y.grid = x.grid ∧
    y.quantize_pct = x.quantize_pct ∧ y.jitter_amt = x.jitter_amt ∧
    y.skip_prob = x.skip_prob ∧ y.recording = x.recording ∧
    y.cycle_start_time = x.cycle_start_time ∧ y.play_index = x.play_index := by
  unfold same_settings at h
  rw [h]
  exact ⟨rfl, rfl, rfl, rfl, rfl, rfl, rfl, rfl, rfl, rfl⟩

theorem same_settings_set (x : t_telomere) (i : ℤ) (v : t_float) :
    same_settings x (pattern_set_event x i v) := by
  unfold pattern_set_event
  split_ifs
  · exact same_settings_refl x
  · rfl

theorem same_settings_ensure (x : t_telomere) (needed : ℕ) :
    same_settings x (pattern_ensure_capacity x needed) := by
  unfold pattern_ensure_capacity
  split_ifs
  · exact same_settings_refl x
  · rfl

theorem same_settings_append (x : t_telomere) (v : t_float) :
    same_settings x (pattern_append_event x v) := by
  unfold pattern_append_event
  split_ifs
  · exact same_settings_refl x
  · exact same_settings_trans (same_settings_ensure x (x.num_events + 1)) rfl

theorem same_settings_resize (x : t_telomere) (n : ℤ) :
    same_settings x (pattern_resize x n) := by
  unfold pattern_resize
  dsimp only
  split_ifs <;> exact same_settings_trans (same_settings_ensure x _) rfl

theorem same_settings_clear (x : t_telomere) : same_settings x (pattern_clear x) := rfl

theorem same_settings_sort (x : t_telomere) : same_settings x (pattern_sort x) := rfl

theorem same_settings_replace (x : t_telomere) (l : List t_float) (count : ℤ) :
    same_settings x (pattern_replace x l count) := by
  unfold pattern_replace
  dsimp only
  split_ifs <;> exact same_settings_trans (same_settings_ensure x _) rfl

/-- A loop whose body keeps a reflexive, transitive relation to its state keeps
it overall. -/
theorem foldl_rel {α β : Type} (R : β → β → Prop) (hrefl : ∀ s, R s s)
    (htrans : ∀ a b c, R a b → R b c → R a c) (f : β → α → β)
    (hf : ∀ s a, R s (f s a)) (l : List α) : ∀ s : β, R s (l.foldl f s) := by
  induction l with
  | nil => exact fun s => hrefl s
  | cons a l ih =>
    intro s
    rw [List.foldl_cons]
    exact htrans _ _ _ (hf s a) (ih (f s a))

theorem foldl_same_settings {α : Type} (f : t_telomere → α → t_telomere)
    (hf : ∀ y a, same_settings y (f y a)) (l : List α) (x : t_telomere) :
    same_settings x (l.foldl f x) :=
  foldl_rel same_settings same_settings_refl
    (fun _ _ _ h1 h2 => same_settings_trans h1 h2) f hf l x

theorem foldlM_same_settings {α : Type} (f : t_telomere → α → Option t_telomere)
    (hf : ∀ y a z, f y a = some z → same_settings y z) (l : List α) :
    ∀ x z : t_telomere, l.foldlM f x = some z → same_settings x z := by
  induction l with
  | nil =>
    intro x z h
    simp only [List.foldlM_nil, Option.pure_def, Option.some.injEq] at h
    rw [← h]
    exact same_settings_refl x
  | cons a l ih =>
    intro x z h
    rw [List.foldlM_cons] at h
    obtain ⟨y, hy, hz⟩ := Option.bind_eq_some.mp h
    exact same_settings_trans (hf x a y hy) (ih y z hz)

theorem same_settings_palindrome (x : t_telomere) (argv : List t_atom) :
    same_settings x (transform_palindrome x argv) := by
  unfold transform_palindrome pattern_num_events
  by_cases h : x.num_events = 0
  · simp only [h, if_true]
    exact same_settings_refl x
  · simp only [h, if_false]
    refine same_settings_trans (same_settings_resize x ((x.num_events : ℤ) * 2)) ?_
    refine same_settings_trans (foldl_same_settings _ (fun y i => ?_) _ _)
      (same_settings_sort _)
    exact same_settings_trans (same_settings_set y _ _) (same_settings_set _ _ _)

theorem same_settings_reverse (x : t_telomere) (argv : List t_atom) :
    same_settings x (transform_reverse x argv) := by
  unfold transform_reverse pattern_num_events
  by_cases h : x.num_events = 0
  · simp only [h, if_true]
    exact same_settings_refl x
  · simp only [h, if_false]
    exact same_settings_trans
      (foldl_same_settings _ (fun y i => same_settings_set y _ _) _ _) (same_settings_sort _)

theorem same_settings_slow (x : t_telomere) (argv : List t_atom) :
    same_settings x (transform_slow x argv) := by
  unfold transform_slow pattern_num_events
  by_cases h : x.num_events = 0
  · simp only [h, if_true]
    exact same_settings_refl x
  · simp only [h, if_false]
    exact same_settings_trans
      (foldl_same_settings _ (fun y i => same_settings_set y _ _) _ _) (same_settings_sort _)

theorem same_settings_euclid (x : t_telomere) (argv : List t_atom) :
    same_settings x (transform_euclid x argv) := by
  unfold transform_euclid
  simp only
  refine same_settings_trans (same_settings_clear x) ?_
  refine same_settings_trans (foldl_same_settings _ (fun y i => ?_) _ _) (same_settings_sort _)
  split_ifs <;> first | exact same_settings_append y _ | exact same_settings_refl y

theorem same_settings_skip (draws : ℕ → t_float) (x : t_telomere) (argv : List t_atom) :
    same_settings x (transform_skip draws x argv) := by
  rw [transform_skip_eq]
  split_ifs
  · exact same_settings_refl x
  · exact same_settings_replace x _ _

theorem same_settings_degrade (draws : ℕ → t_float) (x : t_telomere) (argv : List t_atom) :
    same_settings x (transform_degrade draws x argv) := by
  rw [transform_degrade_eq]
  split_ifs
  · exact same_settings_refl x
  · exact same_settings_replace x _ _
  · exact same_settings_replace x _ _

theorem same_settings_rotate (fuel : ℕ) (x y : t_telomere) (argv : List t_atom)
    (h : transform_rotate fuel x argv = some y) : same_settings x y := by
  unfold transform_rotate pattern_num_events at h
  by_cases h0 : x.num_events = 0
  · simp only [h0, if_true, Option.some.injEq] at h
    rw [← h]
    exact same_settings_refl x
  · simp only [h0, if_false] at h
    by_cases hg : pattern_get_grid x = 0
    · simp only [hg, if_true] at h
      exact absurd h (by simp)
    · simp only [hg, if_false] at h
      obtain ⟨z, hz, hy⟩ := Option.map_eq_some'.mp h
      rw [← hy]
      refine same_settings_trans (foldlM_same_settings _ ?_ _ x z hz) (same_settings_sort z)
      intro s i t ht
      obtain ⟨w1, _, ht⟩ := Option.bind_eq_some.mp ht
      obtain ⟨w2, _, ht⟩ := Option.bind_eq_some.mp ht
      simp only [Option.pure_def, Option.some.injEq] at ht
      rw [← ht]
      exact same_settings_set s _ _

theorem same_settings_jitter (fuel : ℕ) (draws : ℕ → t_float) (x y : t_telomere)
    (argv : List t_atom) (h : transform_jitter fuel draws x argv = some y) :
    same_settings x y := by
  unfold transform_jitter pattern_num_events at h
  by_cases h0 : x.num_events = 0
  · simp only [h0, if_true, Option.some.injEq] at h
    rw [← h]
    exact same_settings_refl x
  · simp only [h0, if_false] at h
    obtain ⟨z, hz, hy⟩ := Option.map_eq_some'.mp h
    rw [← hy]
    refine same_settings_trans (foldlM_same_settings _ ?_ _ x z hz) (same_settings_sort z)
    intro s i t ht
    obtain ⟨w1, _, ht⟩ := Option.bind_eq_some.mp ht
    obtain ⟨w2, _, ht⟩ := Option.bind_eq_some.mp ht
    simp only [Option.pure_def, Option.some.injEq] at ht
    rw [← ht]
    exact same_settings_set s _ _

theorem same_settings_fast_inner (orig : List t_float) (count : ℕ) (new_size : ℤ)
    (base sub_len : t_float) (st : ℕ × t_telomere) :
    same_settings st.2 (fast_inner orig count new_size base sub_len st).2 := by
  unfold fast_inner
  refine foldl_rel (fun (s t : ℕ × t_telomere) => same_settings s.2 t.2)
    (fun s => same_settings_refl s.2) (fun _ _ _ h1 h2 => same_settings_trans h1 h2) _ ?_ _ st
  intro s i
  split_ifs
  · exact same_settings_set s.2 _ _
  · exact same_settings_refl s.2

theorem same_settings_fast_outer (orig : List t_float) (count : ℕ) (new_size factor : ℤ)
    (sub_len : t_float) :
    ∀ (fuel : ℕ) (rep : ℤ) (st r : ℕ × t_telomere),
      fast_outer orig count new_size factor sub_len fuel rep st = some r →
      same_settings st.2 r.2 := by
  intro fuel
  induction fuel with
  | zero =>
    intro rep st r h
    unfold fast_outer at h
    split_ifs at h
    simp only [Option.some.injEq] at h
    rw [← h]
    exact same_settings_refl st.2
  | succ fuel ih =>
    intro rep st r h
    unfold fast_outer at h
    split_ifs at h
    · exact same_settings_trans (same_settings_fast_inner orig count new_size _ sub_len st)
        (ih _ _ r h)
    · simp only [Option.some.injEq] at h
      rw [← h]
      exact same_settings_refl st.2

theorem same_settings_fast (fuel : ℕ) (x y : t_telomere) (argv : List t_atom)
    (h : transform_fast fuel x argv = some y) : same_settings x y := by
  unfold transform_fast pattern_num_events at h
  by_cases h0 : x.num_events = 0
  · simp only [h0, if_true, Option.some.injEq] at h
    rw [← h]
    exact same_settings_refl x
  · simp only [h0, if_false] at h
    obtain ⟨st, hst, hy⟩ := Option.map_eq_some'.mp h
    rw [← hy]
    have h1 := same_settings_fast_outer _ _ _ _ _ _ _ _ _ hst
    exact same_settings_trans (same_settings_resize x _)
      (same_settings_trans h1
        (same_settings_trans (same_settings_resize st.2 _) (same_settings_sort _)))

/-! ## The clock callback -/

theorem floor_delay_eq (d m : ℚ) : (if d < m then m else d) = max d m := by
  rcases lt_or_le d m with h | h
  · rw [if_pos h, max_eq_right (le_of_lt h)]
  · rw [if_neg (not_lt.mpr h), max_eq_left h]

theorem telomere_tick_state (draws : ℕ → t_float) (x : t_telomere) :
    (telomere_tick draws x).1 =
      if x.play_index ≥ x.num_events then x
      else { x with play_index := x.play_index + 1 } := by
  unfold telomere_tick
  dsimp only
  split_ifs <;> rfl

theorem telomere_tick_end (draws : ℕ → t_float) (x : t_telomere)
    (h : x.num_events ≤ x.play_index) :
    telomere_tick draws x = (x, [t_output.out_count (float_of_int x.num_events)]) := by
  unfold telomere_tick
  rw [if_pos h]

theorem telomere_tick_skip (draws : ℕ → t_float) (x : t_telomere)
    (h : x.play_index < x.num_events)
    (hs : x.skip_prob > 0 ∧ draws 0 < x.skip_prob) :
    telomere_tick draws x =
      ({ x with play_index := x.play_index + 1 },
        if x.play_index + 1 < x.num_events then
          [t_output.clock_delay
            (max (f64 (f64 (x.pattern (x.play_index + 1) * x.cycle_length_ms) -
              f64 (x.pattern x.play_index * x.cycle_length_ms))) (f64 (1 / 10)))]
        else [t_output.out_count (float_of_int x.num_events)]) := by
  unfold telomere_tick
  dsimp only
  rw [if_neg (not_le.mpr h), if_pos hs]
  by_cases hn : x.play_index + 1 < x.num_events
  · rw [if_pos hn, if_pos hn, floor_delay_eq]
  · rw [if_neg hn, if_neg hn]

/-- The position a tick that is not skipped sends out. -/
theorem telomere_tick_emit (draws : ℕ → t_float) (x : t_telomere)
    (h : x.play_index < x.num_events)
    (hs : ¬ (x.skip_prob > 0 ∧ draws 0 < x.skip_prob)) :
    ∃ p, telomere_tick draws x =
      ({ x with play_index := x.play_index + 1 },
        if x.play_index + 1 < x.num_events then
          [t_output.out_position p, t_output.out_bang,
            t_output.clock_delay
              (max (f64 (f64 (x.pattern (x.play_index + 1) - x.pattern x.play_index) *
                x.cycle_length_ms)) (f64 (1 / 10)))]
        else [t_output.out_position p, t_output.out_bang,
          t_output.out_count (float_of_int x.num_events)]) := by
  unfold telomere_tick
  dsimp only
  rw [if_neg (not_le.mpr h), if_neg hs]
  by_cases hn : x.play_index + 1 < x.num_events
  · simp only [if_pos hn, floor_delay_eq]
    exact ⟨_, rfl⟩
  · simp only [if_neg hn]
    exact ⟨_, rfl⟩

/-- The requests of one tick: one while events remain, none at the last event,
which reports the count. -/
theorem telomere_tick_requests (draws : ℕ → t_float) (x : t_telomere)
    (h : x.play_index < x.num_events) :
    (telomere_tick draws x).1 = { x with play_index := x.play_index + 1 } ∧
    (x.play_index + 1 < x.num_events →
      ((telomere_tick draws x).2.filter is_request).length = 1 ∧
      (telomere_tick draws x).2.any is_request = true) ∧
    (¬ x.play_index + 1 < x.num_events →
      (telomere_tick draws x).2.filter is_request = [] ∧
      (telomere_tick draws x).2.any is_request = false ∧
      t_output.out_count (float_of_int x.num_events) ∈ (telomere_tick draws x).2) := by
  by_cases hs : x.skip_prob > 0 ∧ draws 0 < x.skip_prob
  · rw [telomere_tick_skip draws x h hs]
    refine ⟨rfl, ?_, ?_⟩
    · intro hn
      simp only [if_pos hn]
      exact ⟨rfl, rfl⟩
    · intro hn
      simp only [if_neg hn]
      exact ⟨rfl, rfl, List.mem_singleton_self _⟩
  · obtain ⟨p, hp⟩ := telomere_tick_emit draws x h hs
    rw [hp]
    refine ⟨rfl, ?_, ?_⟩
    · intro hn
      simp only [if_pos hn]
      exact ⟨rfl, rfl⟩
    · intro hn
      simp only [if_neg hn]
      refine ⟨rfl, rfl, ?_⟩
      simp

/-- The playback from a state with `m + 1` events left: `m + 1` callbacks. -/
theorem run_clock_spec (draws : ℕ → ℕ → t_float) :
    ∀ (m fuel k : ℕ) (x : t_telomere), x.play_index + m + 1 = x.num_events → m + 1 ≤ fuel →
      ∃ (firsts : List (List t_output)) (last : List t_output),
        (run_clock draws fuel k x).1 = firsts ++ [last] ∧
        firsts.length = m ∧
        (∀ o ∈ firsts, (o.filter is_request).length = 1) ∧
        last.filter is_request = [] ∧
        t_output.out_count (float_of_int x.num_events) ∈ last ∧
        (run_clock draws fuel k x).2 = { x with play_index := x.num_events } := by
  intro m
  induction m with
  | zero =>
    intro fuel k x hx hfuel
    obtain ⟨f, rfl⟩ : ∃ f, fuel = f + 1 := ⟨fuel - 1, by omega⟩
    obtain ⟨h1, _, h3⟩ := telomere_tick_requests (draws k) x (by omega)
    obtain ⟨ha, hb, hc⟩ := h3 (by omega)
    refine ⟨[], (telomere_tick (draws k) x).2, ?_, rfl, ?_, ha, hc, ?_⟩
    · simp only [run_clock, hb, Bool.false_eq_true, if_false, List.nil_append]
    · intro o ho
      exact absurd ho (List.not_mem_nil _)
    · simp only [run_clock, hb, Bool.false_eq_true, if_false]
      rw [h1]
      have : x.play_index + 1 = x.num_events := by omega
      rw [this]
  | succ m ih =>
    intro fuel k x hx hfuel
    obtain ⟨f, rfl⟩ : ∃ f, fuel = f + 1 := ⟨fuel - 1, by omega⟩
    obtain ⟨h1, h2, _⟩ := telomere_tick_requests (draws k) x (by omega)
    obtain ⟨ha, hb⟩ := h2 (by omega)
    have hx1 : (telomere_tick (draws k) x).1.play_index + m + 1 =
        (telomere_tick (draws k) x).1.num_events := by
      rw [h1]
      show x.play_index + 1 + m + 1 = x.num_events
      omega
    obtain ⟨firsts, last, e1, e2, e3, e4, e5, e6⟩ :=
      ih f (k + 1) (telomere_tick (draws k) x).1 hx1 (by omega)
    refine ⟨(telomere_tick (draws k) x).2 :: firsts, last, ?_, ?_, ?_, e4, ?_, ?_⟩
    · simp only [run_clock, hb, if_true, e1, List.cons_append]
    · simp only [List.length_cons, e2]
    · intro o ho
      rcases List.mem_cons.mp ho with h | h
      · rw [h]; exact ha
      · exact e3 o h
    · rw [h1] at e5
      exact e5
    · simp only [run_clock, hb, if_true, e6]
      rw [h1]

/-! ## The parameters under every message -/

theorem clock_inv_of_same {x y : t_telomere} (h : same_settings x y) (hx : clock_inv x) :
    clock_inv y := by
  unfold same_settings at h
  rw [h]
  exact hx

theorem params_inv_of_same {x y : t_telomere} (h : same_settings x y) (hx : params_inv x) :
    params_inv y := by
  unfold same_settings at h
  rw [h]
  exact hx

theorem lookup_mem :
    ∀ (registry : List t_transform_entry) (s : t_symbol) (e : t_transform_entry),
      telomere_lookup_transform registry s = some e → e ∈ registry := by
  intro registry
  induction registry with
  | nil =>
    intro s e h
    simp [telomere_lookup_transform] at h
  | cons cur rest ih =>
    intro s e h
    unfold telomere_lookup_transform at h
    split_ifs at h
    · simp only [Option.some.injEq] at h
      rw [← h]
      exact List.mem_cons_self _ _
    · exact List.mem_cons_of_mem _ (ih s e h)

/-- The list built by `builtins_setup` on the empty registry. -/
theorem builtins_list :
    builtins_setup [] =
      [{ name := "degrade", fn := fun _ draws x argv => some (transform_degrade draws x argv),
         description := "Probabilistically remove events (keeps at least one)",
         min_args := 1, max_args := 1 },
       { name := "skip", fn := fun _ draws x argv => some (transform_skip draws x argv),
         description := "Probabilistically remove events from the pattern",
         min_args := 1, max_args := 1 },
       { name := "jitter", fn := fun fuel draws x argv => transform_jitter fuel draws x argv,
         description := "Apply random displacement to event positions",
         min_args := 1, max_args := 1 },
       { name := "euclid", fn := fun _ _ x argv => some (transform_euclid x argv),
         description := "Replace pattern with Euclidean rhythm (hits steps)",
         min_args := 2, max_args := 2 },
       { name := "slow", fn := fun _ _ x argv => some (transform_slow x argv),
         description := "Expand pattern by factor N (stretch into first 1/N of cycle)",
         min_args := 1, max_args := 1 },
       { name := "fast", fn := fun fuel _ x argv => transform_fast fuel x argv,
         description := "Compress pattern to repeat N times per cycle",
         min_args := 1, max_args := 1 },
       { name := "reverse", fn := fun _ _ x argv => some (transform_reverse x argv),
         description := "Reverse the temporal order of the pattern",
         min_args := 0, max_args := 0 },
       { name := "rotate", fn := fun fuel _ x argv => transform_rotate fuel x argv,
         description := "Cyclically shift pattern start point by N positions",
         min_args := 1, max_args := 1 },
       { name := "palindrome", fn := fun _ _ x argv => some (transform_palindrome x argv),
         description := "Append reversed pattern to create palindromic loop",
         min_args := 0, max_args := 0 }] := by
  rfl

theorem builtins_same_settings (e : t_transform_entry) (he : e ∈ builtins_setup [])
    (fuel : ℕ) (draws : ℕ → t_float) (x y : t_telomere) (argv : List t_atom)
    (h : e.fn fuel draws x argv = some y) : same_settings x y := by
  rw [builtins_list] at he
  simp only [List.mem_cons, List.mem_singleton, List.not_mem_nil, or_false] at he
  rcases he with rfl | rfl | rfl | rfl | rfl | rfl | rfl | rfl | rfl
  · simp only [Option.some.injEq] at h
    rw [← h]; exact same_settings_degrade draws x argv
  · simp only [Option.some.injEq] at h
    rw [← h]; exact same_settings_skip draws x argv
  · exact same_settings_jitter fuel draws x y argv h
  · simp only [Option.some.injEq] at h
    rw [← h]; exact same_settings_euclid x argv
  · simp only [Option.some.injEq] at h
    rw [← h]; exact same_settings_slow x argv
  · exact same_settings_fast fuel x y argv h
  · simp only [Option.some.injEq] at h
    rw [← h]; exact same_settings_reverse x argv
  · exact same_settings_rotate fuel x y argv h
  · simp only [Option.some.injEq] at h
    rw [← h]; exact same_settings_palindrome x argv

theorem anything_same_settings (fuel : ℕ) (draws : ℕ → t_float) (x y : t_telomere)
    (s : t_symbol) (argv : List t_atom)
    (h : (telomere_anything (builtins_setup []) fuel draws x s argv).2 = some y) :
    same_settings x y := by
  unfold telomere_anything at h
  cases hl : telomere_lookup_transform (builtins_setup []) s with
  | none =>
    rw [hl] at h
    simp only [Option.some.injEq] at h
    rw [← h]; exact same_settings_refl x
  | some entry =>
    rw [hl] at h
    dsimp only at h
    split_ifs at h
    · simp only [Option.some.injEq] at h
      rw [← h]; exact same_settings_refl x
    · exact builtins_same_settings entry (lookup_mem _ s entry hl) fuel draws x y argv h

theorem clamp_if_range (v : t_float) :
    0 ≤ (if (if v < 0 then 0 else v) > 1 then 1 else (if v < 0 then 0 else v)) ∧
    (if (if v < 0 then 0 else v) > 1 then 1 else (if v < 0 then 0 else v)) ≤ 1 :=
  clamp_unit_range v

theorem receive_inv (fuel : ℕ) (x : t_telomere) (msg : t_message)
    (r : t_telomere × List t_output)
    (h : telomere_receive (builtins_setup []) fuel x msg = some r) :
    (clock_inv x → message_finite msg → clock_inv r.1) ∧ (params_inv x → params_inv r.1) := by
  cases msg with
  | bang elapsed now =>
    have hb : telomere_bang fuel elapsed now x = some r := h
    unfold telomere_bang at hb
    by_cases hrec : x.recording = true
    · rw [if_pos hrec] at hb
      split_ifs at hb
      obtain ⟨pos, _, hr⟩ := Option.map_eq_some'.mp hb
      rw [← hr]
      have hs : same_settings x (bang_record x pos).1 := same_settings_append x _
      exact ⟨fun hx _ => clock_inv_of_same hs hx, fun hx => params_inv_of_same hs hx⟩
    · rw [if_neg hrec] at hb
      split_ifs at hb
      · simp only [Option.some.injEq] at hb
        rw [← hb]
        exact ⟨fun hx _ => hx, fun hx => hx⟩
      · simp only [Option.some.injEq] at hb
        rw [← hb]
        exact ⟨fun hx _ => hx, fun hx => hx⟩
  | float f =>
    have hr : r = (telomere_float x f, []) := by
      have : some (telomere_float x f, ([] : List t_output)) = some r := h
      simp only [Option.some.injEq] at this
      exact this.symm
    rw [hr]
    refine ⟨?_, ?_⟩
    · intro hx hf
      show clock_inv (telomere_float x f)
      unfold telomere_float
      split_ifs with hpos
      · exact ⟨hpos, hf, hx.2.2.1, rfl⟩
      · exact hx
    · intro hx
      show params_inv (telomere_float x f)
      unfold telomere_float
      split_ifs
      · exact hx
      · exact hx
  | anything s argv draws =>
    have ha : (telomere_anything (builtins_setup []) fuel draws x s argv).2.map
        (fun y => (y, ([] : List t_output))) = some r := h
    obtain ⟨y, hy, hr⟩ := Option.map_eq_some'.mp ha
    rw [← hr]
    have hs := anything_same_settings fuel draws x y s argv hy
    exact ⟨fun hx _ => clock_inv_of_same hs hx, fun hx => params_inv_of_same hs hx⟩
  | record f now =>
    have hr : r = telomere_record now x f := by
      have : some (telomere_record now x f) = some r := h
      simp only [Option.some.injEq] at this
      exact this.symm
    rw [hr]
    unfold telomere_record
    dsimp only
    split_ifs
    · exact ⟨fun hx _ => hx, fun hx => hx⟩
    · exact ⟨fun hx _ => hx, fun hx => hx⟩
  | clear =>
    have hr : r = telomere_clear x := by
      have : some (telomere_clear x) = some r := h
      simp only [Option.some.injEq] at this
      exact this.symm
    rw [hr]
    exact ⟨fun hx _ => hx, fun hx => hx⟩
  | quantize pct =>
    have hr : r = (telomere_quantize x pct, []) := by
      have : some (telomere_quantize x pct, ([] : List t_output)) = some r := h
      simp only [Option.some.injEq] at this
      exact this.symm
    rw [hr]
    refine ⟨fun hx _ => hx, fun hx => ?_⟩
    exact ⟨hx.1, clamp_if_range pct, hx.2.2.1, hx.2.2.2⟩
  | grid g =>
    have hr : r = (telomere_grid x g, []) := by
      have : some (telomere_grid x g, ([] : List t_output)) = some r := h
      simp only [Option.some.injEq] at this
      exact this.symm
    rw [hr]
    refine ⟨fun hx _ => hx, fun hx => ?_⟩
    refine ⟨?_, hx.2.1, hx.2.2.1, hx.2.2.2⟩
    show 1 ≤ (telomere_grid x g).grid ∧ (telomere_grid x g).grid ≤ 128
    unfold telomere_grid
    dsimp only
    split_ifs <;> omega
  | jitter amt =>
    have hr : r = (telomere_jitter x amt, []) := by
      have : some (telomere_jitter x amt, ([] : List t_output)) = some r := h
      simp only [Option.some.injEq] at this
      exact this.symm
    rw [hr]
    refine ⟨fun hx _ => hx, fun hx => ?_⟩
    exact ⟨hx.1, hx.2.1, clamp_if_range amt, hx.2.2.2⟩
  | skip prob =>
    have hr : r = (telomere_skip x prob, []) := by
      have : some (telomere_skip x prob, ([] : List t_output)) = some r := h
      simp only [Option.some.injEq] at this
      exact this.symm
    rw [hr]
    refine ⟨fun hx _ => hx, fun hx => ?_⟩
    exact ⟨hx.1, hx.2.1, hx.2.2.1, clamp_if_range prob⟩
  | beats b =>
    have hr : r = (telomere_beats x b, []) := by
      have : some (telomere_beats x b, ([] : List t_output)) = some r := h
      simp only [Option.some.injEq] at this
      exact this.symm
    rw [hr]
    refine ⟨fun hx _ => ?_, fun hx => hx⟩
    show clock_inv (telomere_beats x b)
    unfold telomere_beats clock_inv
    dsimp only
    refine ⟨hx.1, hx.2.1, ?_, rfl⟩
    split_ifs <;> omega
  | tick draws =>
    have hr : r = telomere_tick draws x := by
      have : some (telomere_tick draws x) = some r := h
      simp only [Option.some.injEq] at this
      exact this.symm
    rw [hr, telomere_tick_state]
    split_ifs
    · exact ⟨fun hx _ => hx, fun hx => hx⟩
    · exact ⟨fun hx _ => hx, fun hx => hx⟩

theorem run_inv (fuel : ℕ) :
    ∀ (msgs : List t_message) (x y : t_telomere), telomere_run fuel x msgs = some y →
      (clock_inv x → (∀ m ∈ msgs, message_finite m) → clock_inv y) ∧
      (params_inv x → params_inv y) := by
  intro msgs
  induction msgs with
  | nil =>
    intro x y h
    have : x = y := by
      have h' : some x = some y := h
      simpa using h'
    rw [← this]
    exact ⟨fun hx _ => hx, fun hx => hx⟩
  | cons msg msgs ih =>
    intro x y h
    unfold telomere_run at h
    rw [List.foldlM_cons] at h
    obtain ⟨z, hz, hy⟩ := Option.bind_eq_some.mp h
    obtain ⟨r, hr, hrz⟩ := Option.map_eq_some'.mp hz
    obtain ⟨r1, r2⟩ := receive_inv fuel x msg r hr
    obtain ⟨i1, i2⟩ := ih z y hy
    rw [hrz] at r1 r2
    refine ⟨fun hx hm => ?_, fun hx => i2 (r2 hx)⟩
    exact i1 (r1 hx (hm msg (List.mem_cons_self _ _)))
      (fun m hmm => hm m (List.mem_cons_of_mem _ hmm))

theorem telomere_new_clock_inv (tempo : t_float) (h : tempo < 2 ^ 128) :
    clock_inv (telomere_new tempo) := by
  unfold clock_inv telomere_new TELOMERE_DEFAULT_TEMPO
  dsimp only
  refine ⟨?_, ?_, by norm_num, by norm_num⟩
  · split_ifs with ht
    · exact ht
    · norm_num
  · split_ifs
    · exact h
    · norm_num

theorem wrap_up_of_nonneg (fuel : ℕ) (v : t_float) (h : 0 ≤ v) : wrap_up fuel v = some v := by
  have hn : ¬ v < 0 := not_lt.mpr h
  cases fuel <;> simp only [wrap_up, hn, if_false]

theorem wrap_down_one (fuel : ℕ) (v : t_float) (hf : 1 ≤ fuel) (h1 : 1 ≤ v)
    (h2 : fsub v 1 < 1) : wrap_down fuel v = some (fsub v 1) := by
  obtain ⟨f, rfl⟩ : ∃ f, fuel = f + 1 := ⟨fuel - 1, by omega⟩
  have hge : v ≥ 1 := h1
  simp only [wrap_down, hge, if_true]
  exact wrap_down_of_lt f _ h2

theorem wrap_up_one (fuel : ℕ) (v : t_float) (hf : 1 ≤ fuel) (h1 : v < 0)
    (h2 : 0 ≤ fadd v 1) : wrap_up fuel v = some (fadd v 1) := by
  obtain ⟨f, rfl⟩ : ∃ f, fuel = f + 1 := ⟨fuel - 1, by omega⟩
  simp only [wrap_up, h1, if_true]
  exact wrap_up_of_nonneg f _ h2

/-- The result of `while (val < 0.0f) val += 1.0f;` is at most 1 when the value
it starts from is. -/
theorem wrap_up_le_one :
    ∀ (fuel : ℕ) (val w : t_float), val ≤ 1 → wrap_up fuel val = some w → 0 ≤ w ∧ w ≤ 1
  | 0, val, w, h1, h => by
    unfold wrap_up at h
    split_ifs at h with hneg
    simp only [Option.some.injEq] at h
    rw [← h]
    exact ⟨not_lt.mp hneg, h1⟩
  | fuel + 1, val, w, h1, h => by
    unfold wrap_up at h
    split_ifs at h with hneg
    · have : fadd val 1 ≤ 1 := by
        unfold fadd
        exact f32_le_one (by linarith)
      exact wrap_up_le_one fuel _ w this h
    · simp only [Option.some.injEq] at h
      rw [← h]
      exact ⟨not_lt.mp hneg, h1⟩

theorem wrap_down_lt_one :
    ∀ (fuel : ℕ) (val w : t_float), wrap_down fuel val = some w → w < 1
  | 0, val, w, h => by
    unfold wrap_down at h
    split_ifs at h with hge
    simp only [Option.some.injEq] at h
    rw [← h]
    exact not_le.mp hge
  | fuel + 1, val, w, h => by
    unfold wrap_down at h
    split_ifs at h with hge
    · exact wrap_down_lt_one fuel _ w h
    · simp only [Option.some.injEq] at h
      rw [← h]
      exact not_le.mp hge

/-- The per-event loop of `transform_rotate` (and its like): when the two wrap
loops complete on every slot, the loop completes and slot `t` holds the clamped
result of the wrap loops on `p[t] + shift`. -/
theorem rotate_loop (fuel : ℕ) (shift : t_float) (x : t_telomere)
    (hc : ∀ i, i < x.num_events →
      ∃ w1 w2, wrap_down fuel (fadd (x.pattern i) shift) = some w1 ∧
        wrap_up fuel w1 = some w2) :
    ∃ z, (List.range x.num_events).foldlM (fun x (i : ℕ) => do
          let val ← wrap_down fuel (fadd (pattern_get_event x i) shift)
          let val ← wrap_up fuel val
          pure (pattern_set_event x i val)) x = some z ∧
      z.num_events = x.num_events ∧
      ∀ t, t < x.num_events →
        ∃ w1 w2, wrap_down fuel (fadd (x.pattern t) shift) = some w1 ∧
          wrap_up fuel w1 = some w2 ∧ z.pattern t = clamp_unit w2 := by
  obtain ⟨z, hz, hinv, hval⟩ := foldlM_range_some (fun x (i : ℕ) => do
        let val ← wrap_down fuel (fadd (pattern_get_event x i) shift)
        let val ← wrap_up fuel val
        pure (pattern_set_event x i val))
      (fun i y => loop_inv x i y ∧ ∀ t, t < i →
        ∃ w1 w2, wrap_down fuel (fadd (x.pattern t) shift) = some w1 ∧
          wrap_up fuel w1 = some w2 ∧ y.pattern t = clamp_unit w2)
      x x.num_events
      ⟨⟨rfl, rfl, fun _ _ => rfl⟩, fun t ht => absurd ht (Nat.not_lt_zero t)⟩
      (by
        intro i hi y hy
        obtain ⟨hinv, hprev⟩ := hy
        have hget := loop_inv_get x y i hinv hi
        obtain ⟨w1, w2, hw1, hw2⟩ := hc i hi
        refine ⟨pattern_set_event y i w2, ?_, loop_inv_set x y i w2 hinv, ?_⟩
        · simp only [hget, hw1, hw2, Option.some_bind, Option.bind_eq_bind, Option.pure_def]
        · intro t ht
          have hiy : ¬ ((i : ℤ) < 0 ∨ (i : ℤ) ≥ (y.num_events : ℤ)) := by
            rw [hinv.1]; omega
          have hset : (pattern_set_event y i w2).pattern =
              Function.update y.pattern i (clamp_unit w2) := by
            unfold pattern_set_event
            rw [if_neg hiy]
            show Function.update y.pattern (i : ℤ).toNat (clamp_unit w2) = _
            rw [Int.toNat_ofNat]
          rw [hset]
          by_cases hti : t = i
          · subst hti
            exact ⟨w1, w2, hw1, hw2, Function.update_same _ _ _⟩
          · obtain ⟨v1, v2, hv1, hv2, hv3⟩ := hprev t (by omega)
            exact ⟨v1, v2, hv1, hv2, by rw [Function.update_noteq hti]; exact hv3⟩)
  exact ⟨z, hz, hinv.1, hval⟩

/-- An offset whose shift `(float)offset / (float)grid` is below `2^24` in
absolute value, for a grid in `[1,128]`, is an `int`. -/
theorem offset_int_range (offset g : ℤ) (hg : 1 ≤ g ∧ g ≤ 128)
    (hs : |fdiv (float_of_int offset) (float_of_int g)| < 16777216) :
    -2147483648 ≤ offset ∧ offset ≤ 2147483647 := by
  have hgf : float_of_int g = (g : ℚ) := by
    unfold float_of_int
    exact f32_intCast g (by
      rw [abs_of_nonneg (by omega)]
      calc g ≤ 128 := hg.2
        _ < 2 ^ 24 := by norm_num)
  have hg0 : (0 : ℚ) < (g : ℚ) := by exact_mod_cast (by omega : (0 : ℤ) < g)
  have hg128 : (g : ℚ) ≤ 128 := by exact_mod_cast hg.2
  have h31 : f32 2147483648 = 2147483648 := by
    have h := f32_fix 1 31 (by norm_num) (by norm_num)
    norm_num at h
    exact h
  have h24 : f32 16777216 = 16777216 := by
    have h := f32_fix 1 24 (by norm_num) (by norm_num)
    norm_num at h
    exact h
  have habs := abs_lt.mp hs
  rw [hgf] at habs
  unfold fdiv float_of_int at habs
  constructor
  · by_contra hc
    have hlt : offset ≤ -2147483648 := by omega
    have hq : (offset : ℚ) ≤ -2147483648 := by exact_mod_cast hlt
    have h1 : f32 (offset : ℚ) ≤ -2147483648 := by
      have := f32_mono hq
      rwa [f32_neg, h31] at this
    have h2 : f32 (offset : ℚ) / (g : ℚ) ≤ -16777216 := by
      rw [div_le_iff₀ hg0]
      nlinarith
    have h3 := f32_mono h2
    rw [f32_neg, h24] at h3
    linarith [habs.1]
  · by_contra hc
    have hlt : 2147483648 ≤ offset := by omega
    have hq : (2147483648 : ℚ) ≤ (offset : ℚ) := by exact_mod_cast hlt
    have h1 : 2147483648 ≤ f32 (offset : ℚ) := by
      have := f32_mono hq
      rwa [h31] at this
    have h2 : (16777216 : ℚ) ≤ f32 (offset : ℚ) / (g : ℚ) := by
      rw [le_div_iff₀ hg0]
      nlinarith
    have h3 := f32_mono h2
    rw [h24] at h3
    linarith [habs.2]

/-- The form of `transform_rotate` on a non-empty pattern with a non-zero grid
and an integer argument. -/
theorem transform_rotate_eq (fuel : ℕ) (x : t_telomere) (offset : ℤ)
    (h0 : x.num_events ≠ 0) (hg : x.grid ≠ 0)
    (hlo : -2147483648 ≤ offset) (hhi : offset ≤ 2147483647) :
    transform_rotate fuel x [t_atom.A_FLOAT (offset : ℚ)] =
      ((List.range x.num_events).foldlM (fun y (i : ℕ) => do
        let val ← wrap_down fuel
          (fadd (pattern_get_event y i) (fdiv (float_of_int offset) (float_of_int x.grid)))
        let val ← wrap_up fuel val
        pure (pattern_set_event y i val)) x).map pattern_sort := by
  have ha : atom_getfloatarg 0 [t_atom.A_FLOAT (offset : ℚ)] = (offset : ℚ) := rfl
  have hgg : ¬ pattern_get_grid x = 0 := hg
  unfold transform_rotate pattern_num_events
  simp only [h0, hgg, if_false, ha, int_of_float_intCast offset hlo hhi]
  rfl

/-- Single-precision numbers `c / 2^23` with `|c| < 2^24`. -/
theorem f32_grid23 (c : ℤ) (hc : |c| < 2 ^ 24) : f32 ((c : ℚ) / 8388608) = (c : ℚ) / 8388608 := by
  have h := f32_fix c (-23) hc (by norm_num)
  have e : (c : ℚ) * (2 : ℚ) ^ (-23 : ℤ) = (c : ℚ) / 8388608 := by
    rw [zpow_neg, div_eq_mul_inv]
    norm_num
  rw [e] at h
  exact h

/-- On a sum `v = c / 2^23` in `[-1, 2)` the two wrap loops are exact and give
the fractional part of `v`. -/
theorem wrap_exact (fuel : ℕ) (hf : 1 ≤ fuel) (c : ℤ) (hlo : -8388608 ≤ c)
    (hhi : c < 16777216) :
    ∃ w1, wrap_down fuel ((c : ℚ) / 8388608) = some w1 ∧
      wrap_up fuel w1 = some (Int.fract ((c : ℚ) / 8388608)) ∧
      0 ≤ Int.fract ((c : ℚ) / 8388608) ∧ Int.fract ((c : ℚ) / 8388608) < 1 := by
  have hfr0 := Int.fract_nonneg ((c : ℚ) / 8388608)
  have hfr1 := Int.fract_lt_one ((c : ℚ) / 8388608)
  have hc : (c : ℚ) / 8388608 = (c : ℚ) * (1 / 8388608) := by ring
  rcases lt_or_le c 0 with hneg | hnn
  · -- `-1 ≤ v < 0`: one addition
    have hv0 : (c : ℚ) / 8388608 < 0 := by
      have : (c : ℚ) < 0 := by exact_mod_cast hneg
      apply div_neg_of_neg_of_pos this (by norm_num)
    have hfloor : ⌊(c : ℚ) / 8388608⌋ = -1 := by
      rw [Int.floor_eq_iff]
      have h1 : (-8388608 : ℚ) ≤ (c : ℚ) := by exact_mod_cast hlo
      constructor
      · rw [le_div_iff₀ (by norm_num)]; push_cast; linarith
      · push_cast; linarith
    have hfract : Int.fract ((c : ℚ) / 8388608) = (c : ℚ) / 8388608 + 1 := by
      unfold Int.fract
      rw [hfloor]; push_cast; ring
    have hadd : fadd ((c : ℚ) / 8388608) 1 = (c : ℚ) / 8388608 + 1 := by
      unfold fadd
      have e : (c : ℚ) / 8388608 + 1 = ((c + 8388608 : ℤ) : ℚ) / 8388608 := by
        push_cast; ring
      rw [e]
      exact f32_grid23 (c + 8388608) (by rw [abs_lt]; constructor <;> omega)
    refine ⟨(c : ℚ) / 8388608, wrap_down_of_lt fuel _ (by linarith), ?_, hfr0, hfr1⟩
    rw [wrap_up_one fuel _ hf hv0 (by rw [hadd, ← hfract]; exact hfr0), hadd, hfract]
  · rcases lt_or_le c 8388608 with hlt | hge
    · -- `0 ≤ v < 1`
      have h0 : (0 : ℚ) ≤ (c : ℚ) / 8388608 := by
        have : (0 : ℚ) ≤ (c : ℚ) := by exact_mod_cast hnn
        positivity
      have h1 : (c : ℚ) / 8388608 < 1 := by
        rw [div_lt_one (by norm_num)]
        exact_mod_cast hlt
      have hfract : Int.fract ((c : ℚ) / 8388608) = (c : ℚ) / 8388608 :=
        Int.fract_eq_self.mpr ⟨h0, h1⟩
      refine ⟨(c : ℚ) / 8388608, wrap_down_of_lt fuel _ h1, ?_, hfr0, hfr1⟩
      rw [hfract]
      exact wrap_up_of_nonneg fuel _ h0
    · -- `1 ≤ v < 2`: one subtraction
      have h1 : (1 : ℚ) ≤ (c : ℚ) / 8388608 := by
        rw [le_div_iff₀ (by norm_num)]
        have : (8388608 : ℚ) ≤ (c : ℚ) := by exact_mod_cast hge
        linarith
      have hfloor : ⌊(c : ℚ) / 8388608⌋ = 1 := by
        rw [Int.floor_eq_iff]
        have h2 : (c : ℚ) < 16777216 := by exact_mod_cast hhi
        constructor
        · push_cast; exact h1
        · rw [div_lt_iff₀ (by norm_num)]; push_cast; linarith
      have hfract : Int.fract ((c : ℚ) / 8388608) = (c : ℚ) / 8388608 - 1 := by
        unfold Int.fract
        rw [hfloor]; push_cast; ring
      have hsub : fsub ((c : ℚ) / 8388608) 1 = (c : ℚ) / 8388608 - 1 := by
        unfold fsub
        have e : (c : ℚ) / 8388608 - 1 = ((c - 8388608 : ℤ) : ℚ) / 8388608 := by
          push_cast; ring
        rw [e]
        exact f32_grid23 (c - 8388608) (by rw [abs_lt]; constructor <;> omega)
      refine ⟨fsub ((c : ℚ) / 8388608) 1,
        wrap_down_one fuel _ hf h1 (by rw [hsub, ← hfract]; exact hfr1), ?_, hfr0, hfr1⟩
      rw [hsub, ← hfract]
      exact wrap_up_of_nonneg fuel _ hfr0

/-- The loop `while (pos >= 1.0f) pos -= 1.0f;` makes no progress from `2^25`:
`2^25 - 1` rounds back to `2^25` in single precision. -/
theorem wrap_down_stall : ∀ fuel : ℕ, wrap_down fuel 33554432 = none
  | 0 => by
    have h : (33554432 : t_float) ≥ 1 := by norm_num
    simp only [wrap_down, h, if_true]
  | fuel + 1 => by
    have h : (33554432 : t_float) ≥ 1 := by norm_num
    have hs : fsub 33554432 1 = 33554432 := by decide!
    simp only [wrap_down, h, if_true, hs]
    exact wrap_down_stall fuel

/-! ## `transform_rotate`, slot by slot -/

theorem events_of_slots (x z : t_telomere) (f : t_float → t_float)
    (hn : z.num_events = x.num_events)
    (h : ∀ t, t < x.num_events → z.pattern t = f (x.pattern t)) :
    events z = (events x).map f := by
  unfold events
  rw [hn, List.map_map]
  apply List.map_congr_left
  intro t ht
  exact h t (List.mem_range.mp ht)

theorem slot_of_events (x : t_telomere) (P : t_float → Prop) (h : ∀ p ∈ events x, P p)
    (t : ℕ) (ht : t < x.num_events) : P (x.pattern t) :=
  h _ (List.mem_map.mpr ⟨t, List.mem_range.mpr ht, rfl⟩)

/-- The rotate transform on a non-empty pattern with positions in `[0,1)`, a
grid in `[1,128]` and a shift within the budget of the wrap loops. -/
theorem transform_rotate_spec (fuel : ℕ) (x : t_telomere) (offset : ℤ)
    (h1 : 1 ≤ x.num_events)
    (hpos : ∀ p ∈ events x, 0 ≤ p ∧ p < 1)
    (hg : 1 ≤ x.grid ∧ x.grid ≤ 128)
    (hs : |fdiv (float_of_int offset) (float_of_int x.grid)| + 1 ≤
      ((min fuel 16777215 : ℕ) : ℚ)) :
    ∃ z : t_telomere,
      transform_rotate fuel x [t_atom.A_FLOAT (offset : ℚ)] = some (pattern_sort z) ∧
      z.num_events = x.num_events ∧
      (∀ t, t < x.num_events → ∃ w1 w2,
        wrap_down fuel (fadd (x.pattern t)
          (fdiv (float_of_int offset) (float_of_int x.grid))) = some w1 ∧
        wrap_up fuel w1 = some w2 ∧ (0 ≤ w2 ∧ w2 ≤ 1) ∧ z.pattern t = w2) := by
  have hoff : -2147483648 ≤ offset ∧ offset ≤ 2147483647 := by
    apply offset_int_range offset x.grid hg
    have hk : ((min fuel 16777215 : ℕ) : ℚ) ≤ 16777215 := by
      exact_mod_cast Nat.min_le_right fuel 16777215
    linarith
  set shift := fdiv (float_of_int offset) (float_of_int x.grid) with hshift
  have habs := abs_le.mp (le_refl |shift|)
  have hc : ∀ i, i < x.num_events →
      ∃ w1 w2, wrap_down fuel (fadd (x.pattern i) shift) = some w1 ∧
        wrap_up fuel w1 = some w2 := by
    intro i hi
    obtain ⟨e0, e1⟩ := slot_of_events x _ hpos i hi
    have hup : fadd (x.pattern i) shift ≤ ((min fuel 16777215 : ℕ) : ℚ) := by
      unfold fadd
      exact f32_le_natCast _ (Nat.min_le_right _ _) (by linarith)
    have hlo : -((min fuel 16777215 : ℕ) : ℚ) ≤ fadd (x.pattern i) shift := by
      unfold fadd
      exact f32_ge_neg_natCast _ (Nat.min_le_right _ _) (by linarith)
    exact wrap_both_some fuel _ _ (Nat.min_le_left _ _) (Nat.min_le_right _ _) hup hlo
  obtain ⟨z, hz, hn, hval⟩ := rotate_loop fuel shift x hc
  refine ⟨z, ?_, hn, ?_⟩
  · rw [transform_rotate_eq fuel x offset (by omega) (by omega) hoff.1 hoff.2, ← hshift, hz]
    rfl
  · intro t ht
    obtain ⟨w1, w2, hw1, hw2, hzt⟩ := hval t ht
    have hw1lt := wrap_down_lt_one fuel _ w1 hw1
    have hrange := wrap_up_le_one fuel w1 w2 (le_of_lt hw1lt) hw2
    have hcl : clamp_unit w2 = w2 := by
      unfold clamp_unit
      have a : ¬ w2 < 0 := not_lt.mpr hrange.1
      have b : ¬ w2 > 1 := not_lt.mpr hrange.2
      simp only [a, if_false, b]
    exact ⟨w1, w2, hw1, hw2, hrange, by rw [hzt, hcl]⟩

/-- For a grid that divides `2^23` (a power of two up to 128) and an offset of
at most one turn, the shift `(float)offset / (float)grid` is exact. -/
theorem shift_exact (g offset : ℤ) (hg : 1 ≤ g ∧ g ≤ 128) (hd : (8388608 : ℤ) % g = 0)
    (ho : |offset| ≤ g) :
    fdiv (float_of_int offset) (float_of_int g) = ((offset * (8388608 / g) : ℤ) : ℚ) / 8388608 ∧
    ((offset * (8388608 / g) : ℤ) : ℚ) / 8388608 = (offset : ℚ) / g ∧
    |offset * (8388608 / g)| ≤ 8388608 := by
  have hoabs := abs_le.mp ho
  have hq : g * (8388608 / g) = 8388608 := Int.mul_ediv_cancel' (Int.dvd_of_emod_eq_zero hd)
  have hqpos : 0 < 8388608 / g := by
    by_contra hneg
    have : g * (8388608 / g) ≤ 0 := by
      apply mul_nonpos_of_nonneg_of_nonpos (by omega) (by omega)
    omega
  have hgq : (g : ℚ) ≠ 0 := by
    have : (0 : ℚ) < (g : ℚ) := by exact_mod_cast (by omega : (0 : ℤ) < g)
    exact ne_of_gt this
  have hb : |offset * (8388608 / g)| ≤ 8388608 := by
    rw [abs_mul, abs_of_pos hqpos]
    calc |offset| * (8388608 / g) ≤ g * (8388608 / g) :=
          mul_le_mul_of_nonneg_right ho (le_of_lt hqpos)
      _ = 8388608 := hq
  have hval : ((offset * (8388608 / g) : ℤ) : ℚ) / 8388608 = (offset : ℚ) / g := by
    have hq' : (g : ℚ) * ((8388608 / g : ℤ) : ℚ) = 8388608 := by exact_mod_cast hq
    rw [div_eq_div_iff (by norm_num) hgq]
    push_cast
    rw [← hq']
    ring
  refine ⟨?_, hval, hb⟩
  have ho' : float_of_int offset = (offset : ℚ) := by
    unfold float_of_int
    exact f32_intCast offset (by
      have : |offset| ≤ 128 := le_trans ho hg.2
      calc |offset| ≤ 128 := this
        _ < 2 ^ 24 := by norm_num)
  have hg' : float_of_int g = (g : ℚ) := by
    unfold float_of_int
    exact f32_intCast g (by
      rw [abs_of_nonneg (by omega)]
      calc g ≤ 128 := hg.2
        _ < 2 ^ 24 := by norm_num)
  unfold fdiv
  rw [ho', hg', ← hval]
  exact f32_grid23 _ (lt_of_le_of_lt hb (by norm_num))

theorem fract_shift_one (p : t_float) (h0 : 0 ≤ p) (h1 : p < 1) :
    Int.fract (p + 1) = p ∧ Int.fract (p + -1) = p := by
  constructor
  · have := Int.fract_add_int p 1
    rw [Int.cast_one] at this
    rw [this]
    exact Int.fract_eq_self.mpr ⟨h0, h1⟩
  · have := Int.fract_add_int p (-1)
    rw [Int.cast_neg, Int.cast_one] at this
    rw [this]
    exact Int.fract_eq_self.mpr ⟨h0, h1⟩

/-! ## The position a recorded tap appends -/

theorem f32_three_halves : f32 (3 / 2) = 3 / 2 := by
  have h := f32_fix 3 (-1) (by norm_num) (by norm_num)
  have e : ((3 : ℤ) : ℚ) * (2 : ℚ) ^ (-1 : ℤ) = 3 / 2 := by
    rw [zpow_neg]; norm_num
  rw [e] at h
  exact h

/-- The quantized position stays below 1. -/
theorem bang_quantize_lt_one (x : t_telomere) (pos : t_float)
    (hg : 1 ≤ x.grid ∧ x.grid ≤ 128) (hq : 0 ≤ x.quantize_pct ∧ x.quantize_pct ≤ 1)
    (h0 : 0 ≤ pos) (hp : pos < 1) :
    bang_quantize x pos < 1 := by
  unfold bang_quantize
  by_cases hc : x.quantize_pct > 0 ∧ x.grid > 0
  · simp only [hc, and_self, if_true]
    obtain ⟨g, hgg⟩ := Int.eq_ofNat_of_zero_le (by omega : 0 ≤ x.grid)
    rw [hgg]
    have hN := nearest_grid_point_range g (by omega) (by omega) pos h0 hp.le
    set N := nearest_grid_point (g : ℤ) pos with hNdef
    set q := x.quantize_pct with hqdef
    have hd_hi : fsub N pos ≤ 1 := by
      unfold fsub
      exact f32_le_one (by linarith [hN.2])
    have hsum : pos + fmul (fsub N pos) q ≤ 3 / 2 := by
      rcases le_or_lt pos (1 / 2) with hlow | hhigh
      · have he_hi : fmul (fsub N pos) q ≤ 1 := by
          unfold fmul
          apply f32_le_one
          rcases le_or_lt 0 (fsub N pos) with hd | hd
          · nlinarith [hq.1, hq.2]
          · nlinarith [hq.1, hq.2]
        linarith
      · have hd_half : fsub N pos ≤ 1 / 2 := by
          unfold fsub
          exact f32_le_half (by linarith [hN.2])
        have he_half : fmul (fsub N pos) q ≤ 1 / 2 := by
          unfold fmul
          apply f32_le_half
          rcases le_or_lt 0 (fsub N pos) with hd | hd
          · nlinarith [hq.1, hq.2]
          · nlinarith [hq.1, hq.2]
        linarith
    have hv_hi : fadd pos (fmul (fsub N pos) q) ≤ 3 / 2 := by
      unfold fadd
      have := f32_mono hsum
      rwa [f32_three_halves] at this
    set v := fadd pos (fmul (fsub N pos) q) with hv
    split_ifs with hge
    · show f32 (v - 1) < 1
      have : f32 (v - 1) ≤ 1 / 2 := f32_le_half (by linarith)
      linarith
    · exact not_le.mp hge
  · simp only [hc, if_false]
    exact hp

/-- The loop `while (pos >= 1.0f) pos -= 1.0f;` keeps single-precision values
single precision. -/
theorem wrap_down_rep :
    ∀ (fuel : ℕ) (val w : t_float), f32 val = val → wrap_down fuel val = some w → f32 w = w
  | 0, val, w, hf, h => by
    unfold wrap_down at h
    split_ifs at h
    simp only [Option.some.injEq] at h
    rw [← h]
    exact hf
  | fuel + 1, val, w, hf, h => by
    unfold wrap_down at h
    split_ifs at h
    · exact wrap_down_rep fuel _ w (by unfold fsub; exact f32_idem _) h
    · simp only [Option.some.injEq] at h
      rw [← h]
      exact hf

/-- What the recording branch appends for a wrapped position below 1. -/
theorem bang_record_range (x : t_telomere) (pos : t_float) (hfull : x.num_events < 256)
    (hg : 1 ≤ x.grid ∧ x.grid ≤ 128) (hq : 0 ≤ x.quantize_pct ∧ x.quantize_pct ≤ 1)
    (hf : f32 pos = pos) (hp : pos < 1) :
    ∃ v, events (bang_record x pos).1 = events x ++ [v] ∧ 0 ≤ v ∧ v < 1 := by
  by_cases hneg : pos < 0
  · have hrec : bang_record x pos = bang_record x 0 := by
      unfold bang_record
      have h00 : ¬ (0 : t_float) < 0 := lt_irrefl 0
      simp only [hneg, if_true, h00, if_false]
    rw [hrec]
    have hev := bang_record_events x 0 hfull hg hq f32_zero (le_refl 0) (by norm_num)
    have hr := bang_quantize_range x 0 hg hq f32_zero (le_refl 0) (by norm_num)
    have hl := bang_quantize_lt_one x 0 hg hq (le_refl 0) (by norm_num)
    exact ⟨bang_quantize x 0, hev.1, hr.1, hl⟩
  · have h0 : 0 ≤ pos := not_lt.mp hneg
    have hev := bang_record_events x pos hfull hg hq hf h0 hp
    have hr := bang_quantize_range x pos hg hq hf h0 hp
    have hl := bang_quantize_lt_one x pos hg hq h0 hp
    exact ⟨bang_quantize x pos, hev.1, hr.1, hl⟩

/-- The recording trigger: whenever it returns it has appended a position in
`[0,1)`, and it returns when the elapsed fraction is at most `2^24 - 1` and
within the budget of the wrap loop. -/
theorem telomere_bang_record_spec (fuel : ℕ) (elapsed now : ℚ) (x : t_telomere)
    (hrec : x.recording = true) (hcyc : 0 < x.cycle_length_ms)
    (hfull : x.num_events < 256)
    (hg : 1 ≤ x.grid ∧ x.grid ≤ 128) (hq : 0 ≤ x.quantize_pct ∧ x.quantize_pct ≤ 1) :
    (∀ r, telomere_bang fuel elapsed now x = some r →
      ∃ v, events r.1 = events x ++ [v] ∧ 0 ≤ v ∧ v < 1) ∧
    (elapsed / x.cycle_length_ms ≤ ((min fuel 16777215 : ℕ) : ℚ) →
      ∃ r, telomere_bang fuel elapsed now x = some r) := by
  have hne : ¬ x.cycle_length_ms = 0 := ne_of_gt hcyc
  constructor
  · intro r hr
    unfold telomere_bang at hr
    rw [if_pos hrec, if_neg hne] at hr
    obtain ⟨pos, hpos, hpr⟩ := Option.map_eq_some'.mp hr
    rw [← hpr]
    exact bang_record_range x pos hfull hg hq
      (wrap_down_rep fuel _ pos (f32_idem _) hpos) (wrap_down_lt_one fuel _ pos hpos)
  · intro hle
    have hb : f32 (f64 (elapsed / x.cycle_length_ms)) ≤ ((min fuel 16777215 : ℕ) : ℚ) := by
      apply f32_le_natCast _ (Nat.min_le_right _ _)
      have h1 := f64_mono hle
      have h2 : f64 (((min fuel 16777215 : ℕ) : ℚ)) = ((min fuel 16777215 : ℕ) : ℚ) := by
        have := f64_fix ((min fuel 16777215 : ℕ) : ℤ) 0 (by
          rw [abs_of_nonneg (by positivity)]
          have : ((min fuel 16777215 : ℕ) : ℤ) ≤ 16777215 := by
            have := Nat.min_le_right fuel 16777215
            omega
          calc ((min fuel 16777215 : ℕ) : ℤ) ≤ 16777215 := this
            _ < 2 ^ 53 := by norm_num) (by norm_num)
        simpa using this
      rwa [h2] at h1
    obtain ⟨w, hw, _⟩ := wrap_down_some fuel _ _ (Nat.min_le_left _ _) (Nat.min_le_right _ _) hb
    refine ⟨bang_record x w, ?_⟩
    unfold telomere_bang
    rw [if_pos hrec, if_neg hne]
    dsimp only
    rw [hw]
    rfl

/-- The wrap loop of the recording trigger completes on an elapsed fraction of at
most `2^24 - 1` within the budget. -/
theorem wrap_down_fraction_some (fuel : ℕ) (e c : ℚ)
    (hle : e / c ≤ ((min fuel 16777215 : ℕ) : ℚ)) :
    ∃ v, wrap_down fuel (f32 (f64 (e / c))) = some v := by
  have hb : f32 (f64 (e / c)) ≤ ((min fuel 16777215 : ℕ) : ℚ) := by
    apply f32_le_natCast _ (Nat.min_le_right _ _)
    have h1 := f64_mono hle
    have h2 : f64 (((min fuel 16777215 : ℕ) : ℚ)) = ((min fuel 16777215 : ℕ) : ℚ) := by
      have := f64_fix ((min fuel 16777215 : ℕ) : ℤ) 0 (by
        rw [abs_of_nonneg (by positivity)]
        have : ((min fuel 16777215 : ℕ) : ℤ) ≤ 16777215 := by
          have := Nat.min_le_right fuel 16777215
          omega
        calc ((min fuel 16777215 : ℕ) : ℤ) ≤ 16777215 := this
          _ < 2 ^ 53 := by norm_num) (by norm_num)
      simpa using this
    rwa [h2] at h1
  obtain ⟨w, hw, _⟩ := wrap_down_some fuel _ _ (Nat.min_le_left _ _) (Nat.min_le_right _ _) hb
  exact ⟨w, hw⟩

/-- The recording branch clamps a negative wrapped position to `0` first. -/
theorem bang_record_clamp (x : t_telomere) (w : t_float) :
    bang_record x w = bang_record x (if w < 0 then 0 else w) := by
  unfold bang_record
  by_cases h : w < 0
  · have h00 : ¬ (0 : t_float) < 0 := lt_irrefl 0
    simp only [h, if_true, h00, if_false]
  · simp only [h, if_false]

/-! ## The position a tick sends out -/

/-- The jitter block of `telomere_tick` on a stored position in `[0,1)`, a
jitter amount in `[0,1]` and a draw in `[0,1]`: the result is in `[0,1]`. -/
theorem jitter_block_range (pos d amt : t_float) (h0 : 0 ≤ pos) (h1 : pos < 1)
    (a0 : 0 ≤ amt) (a1 : amt ≤ 1) (d0 : 0 ≤ d) (d1 : d ≤ 1) :
    0 ≤ (if (if fadd pos (fmul (fsub (fmul d 2) 1) amt) < 0
          then fadd (fadd pos (fmul (fsub (fmul d 2) 1) amt)) 1
          else fadd pos (fmul (fsub (fmul d 2) 1) amt)) > 1
        then fsub (if fadd pos (fmul (fsub (fmul d 2) 1) amt) < 0
          then fadd (fadd pos (fmul (fsub (fmul d 2) 1) amt)) 1
          else fadd pos (fmul (fsub (fmul d 2) 1) amt)) 1
        else (if fadd pos (fmul (fsub (fmul d 2) 1) amt) < 0
          then fadd (fadd pos (fmul (fsub (fmul d 2) 1) amt)) 1
          else fadd pos (fmul (fsub (fmul d 2) 1) amt))) ∧
    (if (if fadd pos (fmul (fsub (fmul d 2) 1) amt) < 0
          then fadd (fadd pos (fmul (fsub (fmul d 2) 1) amt)) 1
          else fadd pos (fmul (fsub (fmul d 2) 1) amt)) > 1
        then fsub (if fadd pos (fmul (fsub (fmul d 2) 1) amt) < 0
          then fadd (fadd pos (fmul (fsub (fmul d 2) 1) amt)) 1
          else fadd pos (fmul (fsub (fmul d 2) 1) amt)) 1
        else (if fadd pos (fmul (fsub (fmul d 2) 1) amt) < 0
          then fadd (fadd pos (fmul (fsub (fmul d 2) 1) amt)) 1
          else fadd pos (fmul (fsub (fmul d 2) 1) amt))) ≤ 1 := by
  have f2 : f32 2 = 2 := by
    have := f32_intCast 2 (by norm_num)
    simpa using this
  have fm1 : f32 (-1) = -1 := by rw [f32_neg, f32_one]
  have m0 : 0 ≤ fmul d 2 := f32_nonneg (by linarith)
  have m1 : fmul d 2 ≤ 2 := by
    have := f32_mono (by linarith : d * 2 ≤ 2)
    rwa [f2] at this
  have r0 : -1 ≤ fsub (fmul d 2) 1 := by
    have := f32_mono (by linarith : (-1 : ℚ) ≤ fmul d 2 - 1)
    rwa [fm1] at this
  have r1 : fsub (fmul d 2) 1 ≤ 1 := f32_le_one (by linarith)
  have q1 : fsub (fmul d 2) 1 * amt ≤ 1 := by
    have := mul_le_mul_of_nonneg_right r1 a0
    linarith
  have q0 : (-1 : ℚ) ≤ fsub (fmul d 2) 1 * amt := by
    have := mul_le_mul_of_nonneg_right r0 a0
    linarith
  have p1 : fmul (fsub (fmul d 2) 1) amt ≤ 1 := f32_le_one q1
  have p0 : -1 ≤ fmul (fsub (fmul d 2) 1) amt := by
    have := f32_mono q0
    rwa [fm1] at this
  set e := fmul (fsub (fmul d 2) 1) amt with he
  have o_hi : fadd pos e ≤ 2 := by
    have := f32_mono (by linarith : pos + e ≤ 2)
    rwa [f2] at this
  have o_lo : -1 ≤ fadd pos e := by
    have := f32_mono (by linarith : (-1 : ℚ) ≤ pos + e)
    rwa [fm1] at this
  set o := fadd pos e with ho
  by_cases hneg : o < 0
  · rw [if_pos hneg]
    have s0 : 0 ≤ fadd o 1 := f32_nonneg (by linarith)
    have s1 : fadd o 1 ≤ 1 := f32_le_one (by linarith)
    have : ¬ fadd o 1 > 1 := not_lt.mpr s1
    rw [if_neg this]
    exact ⟨s0, s1⟩
  · rw [if_neg hneg]
    have hnn : 0 ≤ o := not_lt.mp hneg
    by_cases hgt : o > 1
    · rw [if_pos hgt]
      exact ⟨f32_nonneg (by linarith), f32_le_one (by linarith)⟩
    · rw [if_neg hgt]
      exact ⟨hnn, not_lt.mp hgt⟩

/-- Every position a tick sends out lies in `[0,1]` when the stored positions
lie in `[0,1)`, the jitter amount in `[0,1]` and the draws in `[0,1]`. -/
theorem tick_position_range (draws : ℕ → t_float) (x : t_telomere)
    (hpos : ∀ i, i < x.num_events → 0 ≤ x.pattern i ∧ x.pattern i < 1)
    (hj : 0 ≤ x.jitter_amt ∧ x.jitter_amt ≤ 1)
    (hd : ∀ i, 0 ≤ draws i ∧ draws i ≤ 1) :
    ∀ p, t_output.out_position p ∈ (telomere_tick draws x).2 → 0 ≤ p ∧ p ≤ 1 := by
  intro p hp
  by_cases hend : x.num_events ≤ x.play_index
  · rw [telomere_tick_end draws x hend] at hp
    simp at hp
  · have hlt : x.play_index < x.num_events := by omega
    by_cases hs : x.skip_prob > 0 ∧ draws 0 < x.skip_prob
    · rw [telomere_tick_skip draws x hlt hs] at hp
      dsimp only at hp
      split_ifs at hp <;> simp at hp
    · obtain ⟨e0, e1⟩ := hpos x.play_index hlt
      have hrange := jitter_block_range (x.pattern x.play_index)
        (draws (if x.skip_prob > 0 then 1 else 0)) x.jitter_amt e0 e1 hj.1 hj.2
        (hd _).1 (hd _).2
      unfold telomere_tick at hp
      dsimp only at hp
      rw [if_neg (not_le.mpr hlt), if_neg hs] at hp
      have hpe : p = (if x.jitter_amt > 0 then
          (if (if fadd (x.pattern x.play_index)
                (fmul (fsub (fmul (draws (if x.skip_prob > 0 then 1 else 0)) 2) 1)
                  x.jitter_amt) < 0
              then fadd (fadd (x.pattern x.play_index)
                (fmul (fsub (fmul (draws (if x.skip_prob > 0 then 1 else 0)) 2) 1)
                  x.jitter_amt)) 1
              else fadd (x.pattern x.play_index)
                (fmul (fsub (fmul (draws (if x.skip_prob > 0 then 1 else 0)) 2) 1)
                  x.jitter_amt)) > 1
            then fsub (if fadd (x.pattern x.play_index)
                (fmul (fsub (fmul (draws (if x.skip_prob > 0 then 1 else 0)) 2) 1)
                  x.jitter_amt) < 0
              then fadd (fadd (x.pattern x.play_index)
                (fmul (fsub (fmul (draws (if x.skip_prob > 0 then 1 else 0)) 2) 1)
                  x.jitter_amt)) 1
              else fadd (x.pattern x.play_index)
                (fmul (fsub (fmul (draws (if x.skip_prob > 0 then 1 else 0)) 2) 1)
                  x.jitter_amt)) 1
            else (if fadd (x.pattern x.play_index)
                (fmul (fsub (fmul (draws (if x.skip_prob > 0 then 1 else 0)) 2) 1)
                  x.jitter_amt) < 0
              then fadd (fadd (x.pattern x.play_index)
                (fmul (fsub (fmul (draws (if x.skip_prob > 0 then 1 else 0)) 2) 1)
                  x.jitter_amt)) 1
              else fadd (x.pattern x.play_index)
                (fmul (fsub (fmul (draws (if x.skip_prob > 0 then 1 else 0)) 2) 1)
                  x.jitter_amt)))
          else x.pattern x.play_index) := by
        by_cases hn : x.play_index + 1 < x.num_events
        · rw [if_pos hn] at hp
          simp only [List.mem_cons, t_output.out_position.injEq, List.mem_singleton,
            List.not_mem_nil, or_false, reduceCtorEq] at hp
          exact hp
        · rw [if_neg hn] at hp
          simp only [List.mem_cons, t_output.out_position.injEq, List.mem_singleton,
            List.not_mem_nil, or_false, reduceCtorEq] at hp
          exact hp
      rw [hpe]
      by_cases hja : x.jitter_amt > 0
      · rw [if_pos hja]
        exact hrange
      · rw [if_neg hja]
        exact ⟨e0, le_of_lt e1⟩

/-- C1 (failing input): on the one-event pattern `[1 - 2^-24]`, whose position
lies in `[0,1)`, `palindrome` stores the position `1`, which is outside `[0,1)`:
the mirrored value `0.5f + p * 0.5f` rounds up to `1.0f` and is written without
the wrap that `reverse` and `fast` apply. -/
theorem C1_palindrome_stores_one :
    (∀ p ∈ events (engine_with [16777215 / 16777216] 32), 0 ≤ p ∧ p < 1) ∧
    (engine_with [16777215 / 16777216] 32).num_events ≤ 256 ∧
    events (transform_palindrome (engine_with [16777215 / 16777216] 32) []) =
      [16777215 / 33554432, 1] := by
  decide!

/-- C3: `telomere_anything` invokes a handler exactly when the name is registered
and the argument count is within the entry's bounds (`max_args < 0` meaning
unbounded); the handler invoked is the entry found under that name and the
state afterwards is that handler's result.  In every other case the whole engine
state is returned unchanged; in particular `euclid` with exactly one argument
is an arity error that leaves the state unchanged. -/
theorem C3_dispatch (registry : List t_transform_entry) (fuel : ℕ) (draws : ℕ → t_float)
    (x : t_telomere) (s : t_symbol) (argv : List t_atom) :
    ((∃ entry, (telomere_anything registry fuel draws x s argv).1 = t_dispatch.invoked entry) ↔
      ∃ entry, telomere_lookup_transform registry s = some entry ∧
        entry.min_args ≤ (argv.length : ℤ) ∧
        (entry.max_args < 0 ∨ (argv.length : ℤ) ≤ entry.max_args)) ∧
    (∀ entry, (telomere_anything registry fuel draws x s argv).1 = t_dispatch.invoked entry →
      telomere_lookup_transform registry s = some entry ∧
      (telomere_anything registry fuel draws x s argv).2 = entry.fn fuel draws x argv) ∧
    ((∀ entry, (telomere_anything registry fuel draws x s argv).1 ≠ t_dispatch.invoked entry) →
      (telomere_anything registry fuel draws x s argv).2 = some x) ∧
    (∀ a : t_atom, telomere_anything (builtins_setup []) fuel draws x "euclid" [a] =
      (t_dispatch.arity_error, some x)) := by
  refine ⟨?_, ?_, ?_, ?_⟩
  · unfold telomere_anything
    cases hl : telomere_lookup_transform registry s with
    | none => simp
    | some e =>
      by_cases hc : (argv.length : ℤ) < e.min_args ∨
          (e.max_args ≥ 0 ∧ (argv.length : ℤ) > e.max_args)
      · simp only [hc, if_true]
        constructor
        · rintro ⟨entry, h⟩
          cases h
        · rintro ⟨entry, h1, h2, h3⟩
          cases h1
          exfalso
          omega
      · simp only [hc, if_false]
        constructor
        · intro _
          exact ⟨e, rfl, by omega, by omega⟩
        · intro _
          exact ⟨e, rfl⟩
  · intro entry
    unfold telomere_anything
    cases hl : telomere_lookup_transform registry s with
    | none => intro h; cases h
    | some e =>
      by_cases hc : (argv.length : ℤ) < e.min_args ∨
          (e.max_args ≥ 0 ∧ (argv.length : ℤ) > e.max_args)
      · simp only [hc, if_true]
        intro h
        cases h
      · simp only [hc, if_false]
        intro h
        cases h
        exact ⟨rfl, rfl⟩
  · unfold telomere_anything
    cases hl : telomere_lookup_transform registry s with
    | none => intro _; rfl
    | some e =>
      by_cases hc : (argv.length : ℤ) < e.min_args ∨
          (e.max_args ≥ 0 ∧ (argv.length : ℤ) > e.max_args)
      · simp only [hc, if_true]
        intro _
        trivial
      · simp only [hc, if_false]
        intro h
        exact absurd rfl (h e)
  · intro a
    rfl

/-- C4 (counterexample): a pattern of 129 events (capacity 256) is left with 256
events by `palindrome`, not with 258. -/
theorem C4_palindrome_truncates :
    (engine_with (List.replicate 129 0) 256).num_events = 129 ∧
    (transform_palindrome (engine_with (List.replicate 129 0) 256) []).num_events = 256 ∧
    256 ≠ 2 * 129 := by
  refine ⟨by simp [engine_with], ?_, by norm_num⟩
  rw [transform_palindrome_num_events _ _ (by simp [engine_with])]
  simp [engine_with]

/-- C4 (amended): for every pattern of length `n ≥ 1` the palindrome transform
leaves a pattern of length `min (2n) 256`; the length is exactly `2n` when
`1 ≤ n ≤ 128`. -/
theorem C4_palindrome_length (x : t_telomere) (argv : List t_atom) (h1 : 1 ≤ x.num_events) :
    (transform_palindrome x argv).num_events = min (2 * x.num_events) 256 ∧
    (x.num_events ≤ 128 → (transform_palindrome x argv).num_events = 2 * x.num_events) := by
  have h := transform_palindrome_num_events x argv h1
  refine ⟨h, fun h2 => ?_⟩
  rw [h]
  omega

/-- A witness for `C4_palindrome_length`: the two-event pattern `[0, 1/2]`. -/
theorem C4_palindrome_length_witness :
    1 ≤ (engine_with [0, 1/2] 32).num_events ∧
    (transform_palindrome (engine_with [0, 1/2] 32) []).num_events = 4 := by
  have h := C4_palindrome_length (engine_with [0, 1/2] 32) [] (by decide)
  exact ⟨by decide, h.1⟩

/-- C8: on a pattern of length `n ≥ 1` (within the 256-event capacity), for
every probability argument and every sequence of draws, `degrade` leaves at
least one event; when no draw reaches the clamped probability the result is the
one-element pattern `[orig[0]]`, and otherwise it is exactly what `skip` leaves
for the same draws. -/
theorem C8_degrade (draws : ℕ → t_float) (x : t_telomere) (argv : List t_atom)
    (h1 : 1 ≤ x.num_events) (hcap : x.num_events ≤ TELOMERE_MAX_EVENTS) :
    1 ≤ (transform_degrade draws x argv).num_events ∧
    ((∀ i, i < x.num_events → ¬ clamp_unit (atom_getfloatarg 0 argv) ≤ draws i) →
      events (transform_degrade draws x argv) = [x.pattern 0]) ∧
    ((∃ i, i < x.num_events ∧ clamp_unit (atom_getfloatarg 0 argv) ≤ draws i) →
      events (transform_degrade draws x argv) = events (transform_skip draws x argv)) := by
  have hd := events_transform_degrade draws x argv h1 hcap
  have hs := events_transform_skip draws x argv hcap
  set f : ℕ → Bool := fun i => decide (clamp_unit (atom_getfloatarg 0 argv) ≤ draws i) with hf
  refine ⟨?_, ?_, ?_⟩
  · rw [← events_length, hd]
    split_ifs with hz
    · simp
    · rw [List.length_map]
      omega
  · intro hall
    rw [hd]
    have : (List.range x.num_events).filter f = [] := by
      rw [List.filter_eq_nil_iff]
      intro a ha
      simp only [hf, decide_eq_true_eq]
      exact hall a (List.mem_range.mp ha)
    simp [this]
  · rintro ⟨i, hi, hle⟩
    rw [hd, hs]
    have hmem : i ∈ (List.range x.num_events).filter f := by
      rw [List.mem_filter]
      exact ⟨List.mem_range.mpr hi, by simp [hf, hle]⟩
    have : ((List.range x.num_events).filter f).length ≠ 0 := by
      intro h0
      rw [List.length_eq_zero] at h0
      rw [h0] at hmem
      cases hmem
    simp only [this, if_false]

/-- A witness for `C8_degrade`: three events, probability 1, all draws 0. -/
theorem C8_degrade_witness :
    1 ≤ (engine_with [1/4, 1/2, 3/4] 32).num_events ∧
    (engine_with [1/4, 1/2, 3/4] 32).num_events ≤ TELOMERE_MAX_EVENTS ∧
    1 ≤ (transform_degrade (fun _ => 0) (engine_with [1/4, 1/2, 3/4] 32)
      [t_atom.A_FLOAT 1]).num_events :=
  ⟨by decide, by decide,
    (C8_degrade (fun _ => 0) (engine_with [1/4, 1/2, 3/4] 32) [t_atom.A_FLOAT 1]
      (by decide) (by decide)).1⟩

/-- C9: on a pattern within the 256-event capacity, `skip` leaves exactly the
events whose draw is at least the clamped probability, in their original order
(a sub-list of the pattern).  With probability 1 and all draws below 1 the
pattern becomes empty (such draws exist); with probability 0 and non-negative
draws the pattern is unchanged. -/
theorem C9_skip (draws : ℕ → t_float) (x : t_telomere) (argv : List t_atom)
    (hcap : x.num_events ≤ TELOMERE_MAX_EVENTS) :
    events (transform_skip draws x argv) =
      ((List.range x.num_events).filter
        (fun i => decide (clamp_unit (atom_getfloatarg 0 argv) ≤ draws i))).map x.pattern ∧
    (events (transform_skip draws x argv)).Sublist (events x) ∧
    ((∀ i, i < x.num_events → draws i < 1) →
      events (transform_skip draws x [t_atom.A_FLOAT 1]) = []) ∧
    (∃ d : ℕ → t_float, (∀ i, 0 ≤ d i ∧ d i < 1) ∧
      events (transform_skip d x [t_atom.A_FLOAT 1]) = []) ∧
    ((∀ i, i < x.num_events → 0 ≤ draws i) →
      events (transform_skip draws x [t_atom.A_FLOAT 0]) = events x) := by
  have hone : clamp_unit (atom_getfloatarg 0 [t_atom.A_FLOAT 1]) = 1 := by
    simp [clamp_unit, atom_getfloatarg]
  have hzero : clamp_unit (atom_getfloatarg 0 [t_atom.A_FLOAT 0]) = 0 := by
    simp [clamp_unit, atom_getfloatarg]
  have hempty : ∀ d : ℕ → t_float, (∀ i, i < x.num_events → d i < 1) →
      events (transform_skip d x [t_atom.A_FLOAT 1]) = [] := by
    intro d hd
    rw [events_transform_skip d x _ hcap, hone]
    have : (List.range x.num_events).filter (fun i => decide ((1 : t_float) ≤ d i)) = [] := by
      rw [List.filter_eq_nil_iff]
      intro a ha
      simp only [decide_eq_true_eq, not_le]
      exact hd a (List.mem_range.mp ha)
    rw [this]
    rfl
  refine ⟨events_transform_skip draws x argv hcap, ?_, hempty draws, ?_, ?_⟩
  · rw [events_transform_skip draws x argv hcap]
    exact List.Sublist.map _ (List.filter_sublist _)
  · exact ⟨fun _ => 0, fun _ => ⟨le_refl _, by norm_num⟩, hempty _ (fun _ _ => by norm_num)⟩
  · intro hd
    rw [events_transform_skip draws x _ hcap, hzero]
    have : (List.range x.num_events).filter (fun i => decide ((0 : t_float) ≤ draws i))
        = List.range x.num_events := by
      rw [List.filter_eq_self]
      intro a ha
      simp only [decide_eq_true_eq]
      exact hd a (List.mem_range.mp ha)
    rw [this]
    rfl

/-- A witness for `C9_skip`: four events, probability 1/4, alternating draws. -/
theorem C9_skip_witness :
    (engine_with [0, 1/4, 1/2, 3/4] 32).num_events ≤ TELOMERE_MAX_EVENTS ∧
    (events (transform_skip (fun i => if i % 2 = 0 then 1/2 else 0)
      (engine_with [0, 1/4, 1/2, 3/4] 32) [t_atom.A_FLOAT (1/4)])).Sublist
      (events (engine_with [0, 1/4, 1/2, 3/4] 32)) :=
  ⟨by decide,
    (C9_skip (fun i => if i % 2 = 0 then 1/2 else 0) (engine_with [0, 1/4, 1/2, 3/4] 32)
      [t_atom.A_FLOAT (1/4)] (by decide)).2.1⟩

/-- A position in `[0,1)` that is a multiple of `2^-24` is `k / 2^24` for a
natural number `k < 2^24`. -/
theorem grid_point_eq {p : t_float} (h0 : 0 ≤ p) (h1 : p < 1) (hd : (p * 16777216).den = 1) :
    ∃ k : ℕ, k < 16777216 ∧ p = (k : ℚ) / 16777216 := by
  have hnum : ((p * 16777216).num : ℚ) = p * 16777216 := by
    have := Rat.num_div_den (p * 16777216)
    rw [hd] at this
    simpa using this
  have hnn : 0 ≤ (p * 16777216).num := by
    rw [Rat.num_nonneg]
    positivity
  obtain ⟨k, hk⟩ := Int.eq_ofNat_of_zero_le hnn
  rw [hk] at hnum
  have hkq : (k : ℚ) = p * 16777216 := by exact_mod_cast hnum
  refine ⟨k, ?_, ?_⟩
  · have : (k : ℚ) < 16777216 := by rw [hkq]; linarith
    exact_mod_cast this
  · rw [hkq]; ring

/-- On a multiple of `2^-24` in `[0,1)` the subtraction `1.0f - p` is exact, so
the value stored by `transform_reverse` is `1 - p`, or `0` for `p = 0`. -/
theorem reverse_value_grid {p : t_float} (h0 : 0 ≤ p) (h1 : p < 1)
    (hd : (p * 16777216).den = 1) :
    (if (if fsub 1 p < 0 then 0 else fsub 1 p) ≥ 1 then 0
      else (if fsub 1 p < 0 then 0 else fsub 1 p)) = (if p = 0 then 0 else 1 - p) := by
  obtain ⟨k, hk, rfl⟩ := grid_point_eq h0 h1 hd
  have hfix : fsub 1 ((k : ℚ) / 16777216) = 1 - (k : ℚ) / 16777216 := by
    unfold fsub
    by_cases hk0 : k = 0
    · subst hk0
      simp [f32_one]
    · have := f32_fix ((16777216 : ℤ) - k) (-24) (by rw [abs_lt]; constructor <;> omega)
        (by norm_num)
      have he : (((16777216 : ℤ) - k : ℤ) : ℚ) * (2 : ℚ) ^ (-24 : ℤ) = 1 - (k : ℚ) / 16777216 := by
        push_cast
        rw [zpow_neg]
        norm_num
        ring
      rw [he] at this
      exact this
  rw [hfix]
  by_cases hk0 : k = 0
  · subst hk0
    norm_num
  · have hkpos : (0 : ℚ) < (k : ℚ) := by exact_mod_cast Nat.pos_of_ne_zero hk0
    have hne : (k : ℚ) / 16777216 ≠ 0 := by positivity
    have hlt : (k : ℚ) / 16777216 < 1 := h1
    have hpos : (0 : ℚ) < (k : ℚ) / 16777216 := by positivity
    have c1 : ¬ (1 - (k : ℚ) / 16777216 < 0) := by linarith
    have c2 : ¬ (1 - (k : ℚ) / 16777216 ≥ 1) := by linarith
    simp only [c1, c2, hne, if_false]

theorem reverse_grid_closed {p : t_float} (h0 : 0 ≤ p) (h1 : p < 1)
    (hd : (p * 16777216).den = 1) :
    0 ≤ (if p = 0 then 0 else 1 - p) ∧ (if p = 0 then 0 else 1 - p) < 1 ∧
    ((if p = 0 then 0 else 1 - p) * 16777216).den = 1 ∧
    (if (if p = 0 then (0 : t_float) else 1 - p) = 0 then 0
      else 1 - (if p = 0 then 0 else 1 - p)) = p := by
  by_cases hp : p = 0
  · subst hp
    simp
  · have hpos : 0 < p := lt_of_le_of_ne h0 (Ne.symm hp)
    have hne : (1 : ℚ) - p ≠ 0 := by linarith
    simp only [hp, if_false, hne]
    refine ⟨by linarith, by linarith, ?_, by ring⟩
    obtain ⟨k, hk, rfl⟩ := grid_point_eq h0 h1 hd
    have : (1 - (k : ℚ) / 16777216) * 16777216 = (((16777216 : ℤ) - k : ℤ) : ℚ) := by
      push_cast
      ring
    rw [this]
    exact Rat.den_intCast _

theorem events_transform_reverse_grid (x : t_telomere) (argv : List t_atom)
    (hgrid : ∀ p ∈ events x, 0 ≤ p ∧ p < 1 ∧ (p * 16777216).den = 1) :
    (events (transform_reverse x argv)).Perm
      ((events x).map (fun p => if p = 0 then 0 else 1 - p)) := by
  have h := (events_transform_reverse_perm x argv).1
  have hmap : (events x).map (fun p =>
        if (if fsub 1 p < 0 then 0 else fsub 1 p) ≥ 1 then 0
        else (if fsub 1 p < 0 then 0 else fsub 1 p)) =
      (events x).map (fun p => if p = 0 then 0 else 1 - p) := by
    apply List.map_congr_left
    intro p hp
    obtain ⟨a, b, c⟩ := hgrid p hp
    exact reverse_value_grid a b c
  rwa [hmap] at h

/-- C7 (counterexample): the position `0.25 + 2^-25` lies in `[0,1)`; one
`reverse` stores `0.75` (not `1 - p`) and a second one stores `0.25`, so two
applications do not give back the original multiset. -/
theorem C7_reverse_twice_loses_position :
    (∀ p ∈ events (engine_with [8388609 / 33554432] 32), 0 ≤ p ∧ p < 1) ∧
    events (transform_reverse (engine_with [8388609 / 33554432] 32) []) = [3 / 4] ∧
    (3 / 4 : ℚ) ≠ 1 - 8388609 / 33554432 ∧
    events (transform_reverse (transform_reverse (engine_with [8388609 / 33554432] 32) []) [])
      = [1 / 4] ∧
    ¬ (List.Perm [(1 / 4 : ℚ)] (events (engine_with [8388609 / 33554432] 32))) := by
  refine ⟨by decide!, by decide!, by norm_num, by decide!, ?_⟩
  intro h
  have h2 : events (engine_with [8388609 / 33554432] 32) = [8388609 / 33554432] := by decide!
  rw [h2, List.perm_singleton] at h
  norm_num at h

/-- C7 (amended): for every pattern whose positions lie in `[0,1)` and are
multiples of `2^-24` (the positions `p` for which `1 - p` is exact in single
precision), one `reverse` leaves the ascending sort of the positions `1 - p`
(`0` for `p = 0`), and two applications leave the ascending sort of the
original pattern, which has the original multiset of positions. -/
theorem C7_reverse_involution (x : t_telomere) (argv : List t_atom)
    (hgrid : ∀ p ∈ events x, 0 ≤ p ∧ p < 1 ∧ (p * 16777216).den = 1) :
    events (transform_reverse x argv) =
      ((events x).map (fun p => if p = 0 then 0 else 1 - p)).insertionSort (· ≤ ·) ∧
    events (transform_reverse (transform_reverse x argv) argv) =
      (events x).insertionSort (· ≤ ·) ∧
    (events (transform_reverse (transform_reverse x argv) argv)).Perm (events x) := by
  have h1 := events_transform_reverse_grid x argv hgrid
  have hgrid2 : ∀ p ∈ events (transform_reverse x argv),
      0 ≤ p ∧ p < 1 ∧ (p * 16777216).den = 1 := by
    intro p hp
    have hp' := h1.mem_iff.mp hp
    obtain ⟨q, hq, rfl⟩ := List.mem_map.mp hp'
    obtain ⟨a, b, c⟩ := hgrid q hq
    have := reverse_grid_closed a b c
    exact ⟨this.1, this.2.1, this.2.2.1⟩
  have h2 := events_transform_reverse_grid (transform_reverse x argv) argv hgrid2
  have h3 : (events (transform_reverse (transform_reverse x argv) argv)).Perm (events x) := by
    refine h2.trans ?_
    refine (h1.map _).trans ?_
    rw [List.map_map]
    have : (events x).map ((fun p : t_float => if p = 0 then 0 else 1 - p) ∘
        (fun p : t_float => if p = 0 then 0 else 1 - p)) = (events x).map id := by
      apply List.map_congr_left
      intro p hp
      obtain ⟨a, b, c⟩ := hgrid p hp
      exact (reverse_grid_closed a b c).2.2.2
    rw [this, List.map_id]
  exact ⟨sorted_perm_eq_insertionSort h1 (events_transform_reverse_perm x argv).2,
    sorted_perm_eq_insertionSort h3 (events_transform_reverse_perm _ argv).2, h3⟩

/-- A witness for `C7_reverse_involution`: the pattern `[0, 1/4, 3/8]`. -/
theorem C7_reverse_involution_witness :
    (∀ p ∈ events (engine_with [0, 1/4, 3/8] 32), 0 ≤ p ∧ p < 1 ∧ (p * 16777216).den = 1) ∧
    (events (transform_reverse (transform_reverse (engine_with [0, 1/4, 3/8] 32) []) [])).Perm
      (events (engine_with [0, 1/4, 3/8] 32)) :=
  ⟨by decide!, (C7_reverse_involution (engine_with [0, 1/4, 3/8] 32) [] (by decide!)).2.2⟩

/-- C5 (counterexample): on the sorted pattern `[0, 1/2]` the palindrome
transform leaves `[0, 1/4, 1/2, 3/4]`; slot `2n-1-0 = 3` holds `3/4`, not
`0.5 + orig[0]/2 = 1/2`, because the final sort puts the mirrored half in
ascending order. -/
theorem C5_palindrome_mirror_is_sorted :
    (events (engine_with [0, 1/2] 32)).Sorted (· ≤ ·) ∧
    (∀ p ∈ events (engine_with [0, 1/2] 32), 0 ≤ p ∧ p < 1) ∧
    events (transform_palindrome (engine_with [0, 1/2] 32) []) = [0, 1/4, 1/2, 3/4] ∧
    (transform_palindrome (engine_with [0, 1/2] 32) []).pattern (2 * 2 - 1 - 0) = 3/4 ∧
    (3/4 : ℚ) ≠ 1/2 + (engine_with [0, 1/2] 32).pattern 0 / 2 := by
  refine ⟨?_, by decide!, by decide!, by decide!, by decide!⟩
  have : events (engine_with [0, 1/2] 32) = [0, 1/2] := by decide!
  rw [this]
  simp

/-- C5 (amended): for every pattern `orig` of length `n`, `1 ≤ n ≤ 128`, sorted
ascending with all positions in `[0,1)`, the palindrome transform leaves the
halved positions followed by the mirrored positions, both in ascending order:
for every `i < n`, `result[i] = orig[i] * 0.5` and
`result[n + i] = 0.5 + orig[i] * 0.5`, the operations being those of single
precision. -/
theorem C5_palindrome_values (x : t_telomere) (argv : List t_atom)
    (h1 : 1 ≤ x.num_events) (h2 : x.num_events ≤ 128)
    (hs : (events x).Sorted (· ≤ ·)) (hr : ∀ p ∈ events x, 0 ≤ p ∧ p < 1) :
    events (transform_palindrome x argv) =
      (events x).map (fun p => fmul p (1/2)) ++
        (events x).map (fun p => fadd (1/2) (fmul p (1/2))) ∧
    ∀ i, i < x.num_events →
      (transform_palindrome x argv).pattern i = fmul (x.pattern i) (1/2) ∧
      (transform_palindrome x argv).pattern (x.num_events + i) =
        fadd (1/2) (fmul (x.pattern i) (1/2)) := by
  have he := events_transform_palindrome x argv h1 h2 hs hr
  refine ⟨he, ?_⟩
  intro i hi
  have hn : (transform_palindrome x argv).num_events = 2 * x.num_events := by
    rw [transform_palindrome_num_events x argv h1]
    omega
  have hlen : (events x).length = x.num_events := by simp [events]
  constructor
  · rw [← getD_events _ i (by omega), he]
    rw [List.getD_append _ _ _ _ (by rw [List.length_map, hlen]; exact hi)]
    rw [List.getD_eq_getElem _ _ (by rw [List.length_map, hlen]; exact hi)]
    rw [List.getElem_map]
    congr 1
    unfold events
    simp
  · rw [← getD_events _ (x.num_events + i) (by omega), he]
    rw [List.getD_append_right _ _ _ _ (by rw [List.length_map, hlen]; omega)]
    rw [List.length_map, hlen]
    have : x.num_events + i - x.num_events = i := by omega
    rw [this]
    rw [List.getD_eq_getElem _ _ (by rw [List.length_map, hlen]; exact hi)]
    rw [List.getElem_map]
    congr 2
    unfold events
    simp

/-- A witness for `C5_palindrome_values`: the sorted pattern `[0, 1/2]`. -/
theorem C5_palindrome_values_witness :
    1 ≤ (engine_with [0, 1/2] 32).num_events ∧
    (engine_with [0, 1/2] 32).num_events ≤ 128 ∧
    events (transform_palindrome (engine_with [0, 1/2] 32) []) =
      (events (engine_with [0, 1/2] 32)).map (fun p => fmul p (1/2)) ++
        (events (engine_with [0, 1/2] 32)).map (fun p => fadd (1/2) (fmul p (1/2))) :=
  ⟨by decide, by decide,
    (C5_palindrome_values (engine_with [0, 1/2] 32) [] (by decide) (by decide)
      (by
        have : events (engine_with [0, 1/2] 32) = [0, 1/2] := by decide!
        rw [this]
        simp)
      (by decide!)).1⟩

theorem transform_euclid_eq (x : t_telomere) (hits steps : ℤ) (n k : ℕ)
    (hhr : -2147483648 ≤ hits ∧ hits ≤ 2147483647)
    (hsr : -2147483648 ≤ steps ∧ steps ≤ 2147483647)
    (hn : euclid_steps steps = (n : ℤ)) (hk : euclid_hits hits steps = (k : ℤ)) :
    transform_euclid x [t_atom.A_FLOAT (hits : ℚ), t_atom.A_FLOAT (steps : ℚ)] =
      pattern_sort ((List.range n).foldl (fun x (i : ℕ) =>
        if (bjorklund (n : ℤ) (k : ℤ)).getD i 0 ≠ 0 then
          pattern_append_event x (fmul (fdiv 1 (float_of_int (n : ℤ))) (float_of_int (i : ℤ)))
        else x) (pattern_clear x)) := by
  have a0 : atom_getfloatarg 0 [t_atom.A_FLOAT (hits : ℚ), t_atom.A_FLOAT (steps : ℚ)]
      = (hits : ℚ) := rfl
  have a1 : atom_getfloatarg 1 [t_atom.A_FLOAT (hits : ℚ), t_atom.A_FLOAT (steps : ℚ)]
      = (steps : ℚ) := rfl
  have hs : (if (if steps < 1 then 1 else steps) > 64 then 64
      else (if steps < 1 then 1 else steps)) = (n : ℤ) := by
    rw [← hn]
    unfold euclid_steps
    split_ifs <;> omega
  have hh : (if (if hits < 0 then 0 else hits) > (n : ℤ) then (n : ℤ)
      else (if hits < 0 then 0 else hits)) = (k : ℤ) := by
    rw [← hk]
    unfold euclid_hits
    rw [hn]
    split_ifs <;> omega
  unfold transform_euclid
  simp only [a0, a1, int_of_float_intCast hits hhr.1 hhr.2,
    int_of_float_intCast steps hsr.1 hsr.2, hs, hh, Int.toNat_ofNat]

/-- C2 (counterexample): `euclid 6 6` stores `6990507 / 2^23` as its last
position (`i = 5`, slot `5` of `6`), which is neither `5/6` nor the
single-precision quotient `5.0f / 6.0f`: the source multiplies the slot by the
rounded step `1.0f / 6`.  And `euclid 3000000000 8` leaves no position where
`k = clamp(3000000000, 0, 8) = 8`: the argument is beyond the range of `int`,
and its conversion (undefined in C, `INT_MIN` as compiled for x86-64) is clamped
to `0`. -/
theorem C2_euclid_position_not_quotient :
    (events (transform_euclid (telomere_new 0) [t_atom.A_FLOAT 6, t_atom.A_FLOAT 6])).getD 5 0
      = 6990507 / 8388608 ∧
    (6990507 / 8388608 : ℚ) ≠ ((5 * 6 / 6 : ℕ) : ℚ) / 6 ∧
    (6990507 / 8388608 : ℚ) ≠ fdiv 5 6 ∧
    (transform_euclid (telomere_new 0)
      [t_atom.A_FLOAT 3000000000, t_atom.A_FLOAT 8]).num_events = 0 ∧
    euclid_hits 3000000000 8 = 8 := by
  refine ⟨by decide!, by norm_num, by decide!, by decide!, by decide!⟩

/-- C2 (amended): for all integers `hits` and `steps` in the range of `int`
(`-2^31 .. 2^31 - 1`, where the conversion `(int)` of the arguments is defined)
and every prior pattern,
with `n = clamp(steps, 1, 64)` and `k = clamp(hits, 0, n)`: after the euclid
transform the pattern has exactly `k` positions, the `i`-th being the
single-precision product `step_size * floor(i*n/k)` with `step_size = 1.0f / n`
(`euclid_positions`); the result does not depend on the prior pattern; and
`bjorklund n k` has length `n` and marks exactly the `k` distinct slots
`floor(i*n/k)`, `i < k`. -/
theorem C2_euclid (x : t_telomere) (hits steps : ℤ)
    (hhr : -2147483648 ≤ hits ∧ hits ≤ 2147483647)
    (hsr : -2147483648 ≤ steps ∧ steps ≤ 2147483647) :
    events (transform_euclid x [t_atom.A_FLOAT (hits : ℚ), t_atom.A_FLOAT (steps : ℚ)]) =
      euclid_positions (euclid_steps steps) (euclid_hits hits steps) ∧
    (transform_euclid x [t_atom.A_FLOAT (hits : ℚ), t_atom.A_FLOAT (steps : ℚ)]).num_events =
      (euclid_hits hits steps).toNat ∧
    (∀ y : t_telomere,
      events (transform_euclid y [t_atom.A_FLOAT (hits : ℚ), t_atom.A_FLOAT (steps : ℚ)]) =
      events (transform_euclid x [t_atom.A_FLOAT (hits : ℚ), t_atom.A_FLOAT (steps : ℚ)])) ∧
    (bjorklund (euclid_steps steps) (euclid_hits hits steps)).length =
      (euclid_steps steps).toNat ∧
    (∀ j : ℕ, j < (euclid_steps steps).toNat →
      (bjorklund (euclid_steps steps) (euclid_hits hits steps)).getD j 0 =
        if ∃ i : ℕ, i < (euclid_hits hits steps).toNat ∧
            i * (euclid_steps steps).toNat / (euclid_hits hits steps).toNat = j
        then 1 else 0) ∧
    ((List.range (euclid_steps steps).toNat).filter (fun j =>
      decide ((bjorklund (euclid_steps steps) (euclid_hits hits steps)).getD j 0 ≠ 0))).length =
      (euclid_hits hits steps).toNat ∧
    (∀ i i2 : ℕ, i < i2 → i2 < (euclid_hits hits steps).toNat →
      i * (euclid_steps steps).toNat / (euclid_hits hits steps).toNat <
        i2 * (euclid_steps steps).toNat / (euclid_hits hits steps).toNat) := by
  have hn0 : 1 ≤ euclid_steps steps ∧ euclid_steps steps ≤ 64 := by
    unfold euclid_steps; omega
  have hk0 : 0 ≤ euclid_hits hits steps ∧ euclid_hits hits steps ≤ euclid_steps steps := by
    unfold euclid_hits; omega
  obtain ⟨n, hn⟩ := Int.eq_ofNat_of_zero_le (by omega : 0 ≤ euclid_steps steps)
  obtain ⟨k, hk⟩ := Int.eq_ofNat_of_zero_le hk0.1
  rw [hn, hk]
  have hn1 : 1 ≤ n := by omega
  have hn64 : n ≤ 64 := by omega
  have hkn : k ≤ n := by omega
  simp only [Int.toNat_ofNat]
  have hev : ∀ y : t_telomere,
      events (transform_euclid y [t_atom.A_FLOAT (hits : ℚ), t_atom.A_FLOAT (steps : ℚ)]) =
        euclid_positions (n : ℤ) (k : ℤ) := by
    intro y
    rw [transform_euclid_eq y hits steps n k hhr hsr hn hk, euclid_events y n k hn1 hn64 hkn]
    unfold euclid_positions
    rw [Int.toNat_ofNat]
    apply List.map_congr_left
    intro i _
    congr 2
  refine ⟨hev x, ?_, fun y => by rw [hev y, hev x], bjorklund_length n k,
    fun j hj => bjorklund_getD n k hkn j hj, ?_, ?_⟩
  · rw [← events_length, hev x]
    unfold euclid_positions
    simp
  · rw [marked_slots n k hkn]
    simp
  · intro i i2 h1 h2
    exact slot_strict_mono n k hkn (by omega) h1

/-- A witness for `C2_euclid`: `euclid 3 8` on the default engine. -/
theorem C2_euclid_witness :
    (-2147483648 ≤ (3 : ℤ) ∧ (3 : ℤ) ≤ 2147483647) ∧
    (-2147483648 ≤ (8 : ℤ) ∧ (8 : ℤ) ≤ 2147483647) ∧
    (transform_euclid (telomere_new 0)
      [t_atom.A_FLOAT ((3 : ℤ) : ℚ), t_atom.A_FLOAT ((8 : ℤ) : ℚ)]).num_events =
      (euclid_hits 3 8).toNat :=
  ⟨by decide, by decide,
    (C2_euclid (telomere_new 0) 3 8 (by decide) (by decide)).2.1⟩

/-- C6 (counterexample): `fast 3` on the one-event pattern `[1 - 2^-24]` (a
position in `[0,1)`) leaves `[0, 5592405/2^24, 5592405/2^23]`: the third copy
`2/3 + p/3` rounds to exactly `1.0f` and is wrapped to `0`.  No element of the
tiling sequence `(rep + p) / 3`, exact or evaluated in single precision, is `0`. -/
theorem C6_fast_wraps_top_copy :
    (∀ p ∈ events (engine_with [16777215 / 16777216] 32), 0 ≤ p ∧ p < 1) ∧
    (transform_fast 256 (engine_with [16777215 / 16777216] 32) [t_atom.A_FLOAT 3]).map events =
      some [0, 5592405 / 16777216, 5592405 / 8388608] ∧
    (0 : ℚ) ∉ (List.range 3).map (fun (rep : ℕ) => ((rep : ℚ) + 16777215 / 16777216) / 3) ∧
    (0 : ℚ) ∉ (List.range 3).map
      (fun (rep : ℕ) => fdiv (fadd (rep : ℚ) (16777215 / 16777216)) 3) := by
  refine ⟨by decide!, by decide!, by decide!, by decide!⟩

/-- C6 (amended): for every non-empty pattern of length `n` and every int factor
`f`, with `f' = max(f, 2)` and `n * f'` inside the `int` range: given a budget of
at least 256 outer iterations the fast transform completes and leaves the
ascending sort of the first `min(f'*n, 256)` elements of the tiling sequence
(`fast_tiles`: copies outermost, events innermost), whose element for copy
`rep` of `orig[i]` is `sub_len*rep + orig[i]*sub_len` with `sub_len = 1.0f / f'`
in single precision, reduced by 1 when it reaches 1 and clamped to `[0,1]` by
the store.  The resulting length is `min(f'*n, 256)` and the result is sorted
ascending. -/
theorem C6_fast (x : t_telomere) (f : ℤ) (fuel : ℕ) (h1 : 1 ≤ x.num_events)
    (hov : (x.num_events : ℤ) * max f 2 < 2147483648) (hfuel : 256 ≤ fuel) :
    ∃ r : t_telomere,
      transform_fast fuel x [t_atom.A_FLOAT (f : ℚ)] = some r ∧
      r.num_events = min (x.num_events * (max f 2).toNat) 256 ∧
      events r = (fast_tiles (max f 2) (events x)
        (min (x.num_events * (max f 2).toNat) 256)).insertionSort (· ≤ ·) ∧
      (events r).Sorted (· ≤ ·) := by
  obtain ⟨F, hF⟩ := Int.eq_ofNat_of_zero_le (by omega : 0 ≤ max f 2)
  obtain ⟨r, hr, hnum, hperm, hsorted⟩ :=
    transform_fast_spec x f fuel F hF.symm h1 hov hfuel
  refine ⟨r, hr, ?_, ?_, hsorted⟩
  · rw [hF, Int.toNat_ofNat]
    exact hnum
  · rw [hF, Int.toNat_ofNat]
    exact sorted_perm_eq_insertionSort hperm hsorted

/-- A witness for `C6_fast`: `fast 2` on the pattern `[0, 1/4]`. -/
theorem C6_fast_witness :
    1 ≤ (engine_with [0, 1/4] 32).num_events ∧
    ((engine_with [0, 1/4] 32).num_events : ℤ) * max 2 2 < 2147483648 ∧
    ∃ r : t_telomere,
      transform_fast 256 (engine_with [0, 1/4] 32) [t_atom.A_FLOAT ((2 : ℤ) : ℚ)] = some r ∧
      r.num_events = min ((engine_with [0, 1/4] 32).num_events * (max (2 : ℤ) 2).toNat) 256 :=
  ⟨by decide, by decide,
    (C6_fast (engine_with [0, 1/4] 32) 2 256 (by decide) (by decide) (le_refl _)).imp
      (fun _ h => ⟨h.1, h.2.1⟩)⟩

/-- C10 (counterexample): recording with `grid = 7`, `quantize = 1.0` and the
wrapped position `0.5` appends `1797559 / 2^22` (about `3/7`), below `0.5`.  The
formula of the claim gives `4/7` (exactly, and `9586981 / 2^24` when evaluated in
single precision), above `0.5`: the source rounds `pos / step` with the rounded
step `1.0f / 7`, which is `3.4999998`, not `pos * g = 3.5`. -/
theorem C10_quantize_tie_snaps_down :
    events (bang_record (recording_engine 7 1) (1 / 2)).1 = [1797559 / 4194304] ∧
    (1797559 / 4194304 : ℚ) < 1 / 2 ∧
    (1 / 2 : ℚ) + (roundf ((1 / 2) * 7) / 7 - 1 / 2) * 1 = 4 / 7 ∧
    fadd (1 / 2) (fmul (fsub (fdiv (roundf (fmul (1 / 2) 7)) 7) (1 / 2)) 1) =
      9586981 / 16777216 ∧
    (1 / 2 : ℚ) < 9586981 / 16777216 := by
  refine ⟨by decide!, by norm_num, by decide!, by decide!, by norm_num⟩

/-- C10 (amended): for every engine state in Recording with a non-full pattern,
grid `g` in `[1,128]`, quantize strength `q` in `[0,1]` and every trigger, at any
elapsed time (several cycles, or negative), whose wrap loop
`while (pos >= 1.0f) pos -= 1.0f` ends, leaving `w`: with `pos` the wrapped
fraction, `w` raised to `0` when negative, `pos` is a single-precision number in
`[0,1)` and the trigger appends exactly one position and reports the new count:
`pos` itself when `q = 0`, and otherwise `pos + (nearest - pos) * q` evaluated in
single precision with `nearest = roundf(pos / step) * step` and
`step = 1.0f / g`, reduced by 1 when that value is `>= 1`.  The appended value
lies in `[0,1]`.  With `q = 1.0`, when the subtraction `nearest - pos` is exact
the stored position is `nearest` (reduced by 1 when `>= 1`).  The wrap loop ends
whenever the elapsed fraction is at most `2^24 - 1` and within the iteration
budget, and leaves a fraction below 1 as it is.  For `pos = 0.37f`, `g = 4`,
`q = 1.0` the stored position is exactly `0.25`. -/
theorem C10_record_quantize (fuel : ℕ) (elapsed now : ℚ) (x : t_telomere) (w pos : t_float)
    (hrec : x.recording = true) (hcyc : x.cycle_length_ms ≠ 0)
    (hw : wrap_down fuel (f32 (f64 (elapsed / x.cycle_length_ms))) = some w)
    (hpos : pos = if w < 0 then 0 else w)
    (hfull : x.num_events < TELOMERE_MAX_EVENTS)
    (hg : 1 ≤ x.grid ∧ x.grid ≤ 128) (hq : 0 ≤ x.quantize_pct ∧ x.quantize_pct ≤ 1) :
    telomere_bang fuel elapsed now x = some (bang_record x w) ∧
    (0 ≤ pos ∧ pos < 1 ∧ f32 pos = pos) ∧
    events (bang_record x w).1 = events x ++ [bang_quantize x pos] ∧
    (bang_record x w).1.num_events = x.num_events + 1 ∧
    (bang_record x w).2 = [t_output.out_count (float_of_int ((x.num_events + 1 : ℕ) : ℤ))] ∧
    (x.quantize_pct = 0 → bang_quantize x pos = pos) ∧
    (0 < x.quantize_pct → bang_quantize x pos =
      if fadd pos (fmul (fsub (nearest_grid_point x.grid pos) pos) x.quantize_pct) ≥ 1
      then fsub (fadd pos (fmul (fsub (nearest_grid_point x.grid pos) pos) x.quantize_pct)) 1
      else fadd pos (fmul (fsub (nearest_grid_point x.grid pos) pos) x.quantize_pct)) ∧
    (0 ≤ bang_quantize x pos ∧ bang_quantize x pos ≤ 1) ∧
    (x.quantize_pct = 1 →
      fsub (nearest_grid_point x.grid pos) pos = nearest_grid_point x.grid pos - pos →
      bang_quantize x pos =
        if nearest_grid_point x.grid pos ≥ 1 then fsub (nearest_grid_point x.grid pos) 1
        else nearest_grid_point x.grid pos) ∧
    (∀ e : ℚ, e / x.cycle_length_ms ≤ ((min fuel 16777215 : ℕ) : ℚ) →
      ∃ v, wrap_down fuel (f32 (f64 (e / x.cycle_length_ms))) = some v) ∧
    (f32 (f64 (elapsed / x.cycle_length_ms)) < 1 →
      w = f32 (f64 (elapsed / x.cycle_length_ms))) ∧
    bang_quantize (recording_engine 4 1) (f32 (37 / 100)) = 1 / 4 := by
  have hwf : f32 w = w := wrap_down_rep fuel _ w (f32_idem _) hw
  have hw1 : w < 1 := wrap_down_lt_one fuel _ w hw
  have h0 : 0 ≤ pos := by
    rw [hpos]
    split_ifs with hneg
    · exact le_refl 0
    · exact not_lt.mp hneg
  have hp : pos < 1 := by
    rw [hpos]
    split_ifs
    · norm_num
    · exact hw1
  have hf : f32 pos = pos := by
    rw [hpos]
    split_ifs
    · exact f32_zero
    · exact hwf
  have hclamp : bang_record x w = bang_record x pos := by
    rw [bang_record_clamp x w, ← hpos]
  have hev := bang_record_events x pos hfull hg hq hf h0 hp
  have hq0 : ∀ h : 0 < x.quantize_pct, bang_quantize x pos =
      if fadd pos (fmul (fsub (nearest_grid_point x.grid pos) pos) x.quantize_pct) ≥ 1
      then fsub (fadd pos (fmul (fsub (nearest_grid_point x.grid pos) pos) x.quantize_pct)) 1
      else fadd pos (fmul (fsub (nearest_grid_point x.grid pos) pos) x.quantize_pct) := by
    intro h
    unfold bang_quantize
    have hc : x.quantize_pct > 0 ∧ x.grid > 0 := ⟨h, by omega⟩
    simp only [hc, and_self, if_true]
  rw [hclamp]
  refine ⟨?_, ⟨h0, hp, hf⟩, hev.1, hev.2, ?_, ?_, hq0,
    bang_quantize_range x pos hg hq hf h0 hp, ?_,
    fun e he => wrap_down_fraction_some fuel e x.cycle_length_ms he, ?_, by decide!⟩
  · rw [← hclamp]
    unfold telomere_bang
    rw [if_pos hrec, if_neg hcyc]
    dsimp only
    rw [hw]
    rfl
  · show [t_output.out_count (float_of_int ((bang_record x pos).1.num_events : ℤ))] = _
    rw [hev.2]
  · intro h
    unfold bang_quantize
    have hc : ¬ (x.quantize_pct > 0 ∧ x.grid > 0) := by
      rw [h]
      intro hh
      exact lt_irrefl _ hh.1
    simp only [hc, if_false]
  · intro h1 hexact
    rw [hq0 (by rw [h1]; norm_num), h1, hexact]
    have hN : f32 (nearest_grid_point x.grid pos) = nearest_grid_point x.grid pos := by
      unfold nearest_grid_point fmul
      exact f32_idem _
    have hmul : fmul (nearest_grid_point x.grid pos - pos) 1 =
        nearest_grid_point x.grid pos - pos := by
      unfold fmul
      rw [mul_one, ← hexact]
      unfold fsub
      exact f32_idem _
    have hadd : fadd pos (nearest_grid_point x.grid pos - pos) =
        nearest_grid_point x.grid pos := by
      unfold fadd
      rw [show pos + (nearest_grid_point x.grid pos - pos) = nearest_grid_point x.grid pos by ring]
      exact hN
    rw [hmul, hadd]
  · intro hlt
    rw [wrap_down_of_lt fuel _ hlt] at hw
    exact (Option.some.inj hw).symm

/-- A witness for `C10_record_quantize`: the default engine (cycle of 2000 ms)
recording with `grid = 4`, `quantize = 1.0`, tapped 2740 ms after the cycle
start, in the second cycle: the fraction `1.37f` is wrapped to `0.37f` and the
position `0.25` is appended. -/
theorem C10_record_quantize_witness :
    (recording_engine 4 1).recording = true ∧
    (recording_engine 4 1).cycle_length_ms = 2000 ∧
    wrap_down 1 (f32 (f64 (2740 / (recording_engine 4 1).cycle_length_ms))) =
      some (f32 (37 / 100)) ∧
    telomere_bang 1 2740 0 (recording_engine 4 1) =
      some (bang_record (recording_engine 4 1) (f32 (37 / 100))) ∧
    events (bang_record (recording_engine 4 1) (f32 (37 / 100))).1 =
      events (recording_engine 4 1) ++ [bang_quantize (recording_engine 4 1) (f32 (37 / 100))] :=
  ⟨by decide!, by decide!, by decide!,
    (C10_record_quantize 1 2740 0 (recording_engine 4 1) (f32 (37 / 100)) (f32 (37 / 100))
      (by decide!) (by decide!) (by decide!) (by decide!) (by decide!) (by decide!)
      (by decide!)).1,
    (C10_record_quantize 1 2740 0 (recording_engine 4 1) (f32 (37 / 100)) (f32 (37 / 100))
      (by decide!) (by decide!) (by decide!) (by decide!) (by decide!) (by decide!)
      (by decide!)).2.2.1⟩

/-- C13: the freshly constructed engine has length 0 and capacity 32 and
satisfies `0 ≤ length ≤ capacity ≤ 256`; each of the pattern-store operations
set, append, resize, clear, sort and replace, with any arguments, takes a state
satisfying the predicate to one satisfying it, never lowers the capacity, and
either keeps the capacity or (from a capacity of at least 16) replaces it by
the capacity doubled one or more times and capped at 256; after any sequence of
these operations on the fresh engine the predicate holds and the capacity is
one of 32, 64, 128, 256. -/
theorem C13_store_invariant (tempo : t_float) :
    (telomere_new tempo).num_events = 0 ∧ (telomere_new tempo).pattern_alloc = 32 ∧
    store_inv (telomere_new tempo) ∧
    (∀ (x : t_telomere) (op : t_store_op), store_inv x →
      store_inv (store_apply x op) ∧
      x.pattern_alloc ≤ (store_apply x op).pattern_alloc ∧
      (16 ≤ x.pattern_alloc →
        (store_apply x op).pattern_alloc = x.pattern_alloc ∨
        ∃ j : ℕ, 1 ≤ j ∧
          (store_apply x op).pattern_alloc = min (x.pattern_alloc * 2 ^ j) 256)) ∧
    (∀ ops : List t_store_op,
      store_inv (ops.foldl store_apply (telomere_new tempo)) ∧
      ((ops.foldl store_apply (telomere_new tempo)).pattern_alloc = 32 ∨
        (ops.foldl store_apply (telomere_new tempo)).pattern_alloc = 64 ∨
        (ops.foldl store_apply (telomere_new tempo)).pattern_alloc = 128 ∨
        (ops.foldl store_apply (telomere_new tempo)).pattern_alloc = 256)) := by
  have h0 : store_inv (telomere_new tempo) := by
    unfold store_inv TELOMERE_MAX_EVENTS
    exact ⟨Nat.zero_le _, by show (32 : ℕ) ≤ 256; norm_num⟩
  exact ⟨rfl, rfl, h0, fun x op hx => store_apply_step x op hx,
    fun ops => store_reachable ops _ h0 (Or.inl rfl)⟩

/-- C14 (counterexample): writing the value 2 with `pattern_set_event` at the
in-range index 0, or with `pattern_append_event` on a pattern of one event,
stores exactly 1, which is not in the half-open interval `[0,1)`. -/
theorem C14_clamp_stores_one :
    events (pattern_set_event (engine_with [1 / 2] 32) 0 2) = [1] ∧
    events (pattern_append_event (engine_with [1 / 2] 32) 2) = [1 / 2, 1] ∧
    ¬ ((1 : t_float) < 1) := by
  refine ⟨by decide!, by decide!, by decide⟩

/-- C14 (amended): for every store state and every value `v`, the value written
by `pattern_set_event` at an in-range index and by `pattern_append_event` on a
non-full pattern is `v` clamped to the closed interval `[0,1]`: 0 for `v < 0`,
1 for `v > 1`, and `v` otherwise; it is below 1 exactly when `v` is. -/
theorem C14_written_value (x : t_telomere) (v : t_float) :
    (∀ i : ℤ, 0 ≤ i → i < x.num_events →
      (pattern_set_event x i v).pattern i.toNat = clamp_unit v) ∧
    (x.num_events < TELOMERE_MAX_EVENTS →
      (pattern_append_event x v).pattern x.num_events = clamp_unit v) ∧
    (0 ≤ clamp_unit v ∧ clamp_unit v ≤ 1) ∧
    (v < 0 → clamp_unit v = 0) ∧ (1 < v → clamp_unit v = 1) ∧
    (0 ≤ v → v ≤ 1 → clamp_unit v = v) ∧
    (clamp_unit v < 1 ↔ v < 1) := by
  refine ⟨?_, ?_, clamp_unit_range v, ?_, ?_, ?_, ?_⟩
  · intro i h0 h1
    unfold pattern_set_event
    have hc : ¬ (i < 0 ∨ i ≥ x.num_events) := by omega
    rw [if_neg hc]
    show Function.update x.pattern i.toNat (clamp_unit v) i.toNat = clamp_unit v
    rw [Function.update_same]
  · intro h
    rw [pattern_append_event_pattern x v h, Function.update_same]
  · intro h
    unfold clamp_unit
    simp only [h, if_true]
    norm_num
  · intro h
    unfold clamp_unit
    have h0 : ¬ v < 0 := by linarith
    simp only [h0, if_false, gt_iff_lt, h, if_true]
  · intro h0 h1
    unfold clamp_unit
    have h0' : ¬ v < 0 := by linarith
    have h1' : ¬ v > 1 := by linarith
    simp only [h0', if_false, h1']
  · unfold clamp_unit
    simp only
    constructor
    · intro h
      split_ifs at h <;> linarith
    · intro h
      split_ifs <;> linarith

/-- C15: for every store state and value `v`, when the count is 256 (or more)
`pattern_append_event` returns the state unchanged, and nothing else is
produced; when the count is below 256 the length becomes count + 1, the slots
`0 .. count - 1` are unchanged and slot `count` holds `v` clamped to `[0,1]`. -/
theorem C15_append (x : t_telomere) (v : t_float) :
    (x.num_events = TELOMERE_MAX_EVENTS → pattern_append_event x v = x) ∧
    (x.num_events ≥ TELOMERE_MAX_EVENTS → pattern_append_event x v = x) ∧
    (x.num_events < TELOMERE_MAX_EVENTS →
      (pattern_append_event x v).num_events = x.num_events + 1 ∧
      (∀ i, i < x.num_events → (pattern_append_event x v).pattern i = x.pattern i) ∧
      (pattern_append_event x v).pattern x.num_events = clamp_unit v ∧
      events (pattern_append_event x v) = events x ++ [clamp_unit v]) := by
  have hge : x.num_events ≥ TELOMERE_MAX_EVENTS → pattern_append_event x v = x := by
    intro h
    unfold pattern_append_event
    rw [if_pos h]
  refine ⟨fun h => hge (le_of_eq h.symm), hge, ?_⟩
  intro h
  obtain ⟨he, hn⟩ := events_pattern_append_event x v h
  refine ⟨hn, ?_, ?_, he⟩
  · intro i hi
    rw [pattern_append_event_pattern x v h]
    exact Function.update_noteq (Nat.ne_of_lt hi) _ _
  · rw [pattern_append_event_pattern x v h, Function.update_same]

/-- C17: for every store state of length `m` and every integer `n`, with
`n' = min (max n 0) 256`: after `pattern_resize` the length is `n'`, the slots
below `min m n'` are unchanged and every slot in `[m, n')` holds 0, whatever
the buffer held there before; in particular after shrinking to any length and
resizing again, every slot between the two lengths holds 0. -/
theorem C17_resize (x : t_telomere) (n : ℤ) :
    (pattern_resize x n).num_events = (min (max n 0) 256).toNat ∧
    (∀ i, i < min x.num_events (min (max n 0) 256).toNat →
      (pattern_resize x n).pattern i = x.pattern i) ∧
    (∀ i, x.num_events ≤ i → i < (min (max n 0) 256).toNat →
      (pattern_resize x n).pattern i = 0) ∧
    (∀ (s : ℤ) (i : ℕ), (min (max s 0) 256).toNat ≤ x.num_events →
      (min (max s 0) 256).toNat ≤ i → i < (min (max n 0) 256).toNat →
      (pattern_resize (pattern_resize x s) n).pattern i = 0) := by
  refine ⟨pattern_resize_num_events x n, ?_, ?_, ?_⟩
  · intro i hi
    rw [pattern_resize_pattern]
    have : ¬ (x.num_events ≤ i ∧ i < (min (max n 0) 256).toNat) := by
      have := Nat.min_le_left x.num_events (min (max n 0) 256).toNat
      omega
    rw [if_neg this]
  · intro i h1 h2
    rw [pattern_resize_pattern, if_pos ⟨h1, h2⟩]
  · intro s i _ h1 h2
    rw [pattern_resize_pattern, pattern_resize_num_events, if_pos ⟨h1, h2⟩]

/-- C18: for every registry state and every call of
`telomere_register_transform` with a name, handler, description, `min_args`
and `max_args`: afterwards `telomere_lookup_transform` of that name returns
the entry with exactly these five fields, and for every other name it returns
what it returned before the call (the same entry, or not found). -/
theorem C18_register_lookup (registry : List t_transform_entry) (name : t_symbol)
    (fn : t_transform_fn) (description : String) (min_args max_args : ℤ) :
    telomere_lookup_transform
        (telomere_register_transform registry name fn description min_args max_args) name =
      some { name := name, fn := fn, description := description,
             min_args := min_args, max_args := max_args } ∧
    ∀ other : t_symbol, other ≠ name →
      telomere_lookup_transform
          (telomere_register_transform registry name fn description min_args max_args) other =
        telomere_lookup_transform registry other :=
  ⟨register_lookup_same registry name fn description min_args max_args,
    fun other ho => register_lookup_other registry name fn description min_args max_args other ho⟩

/-- C19: in the registry left by any sequence of calls of
`telomere_register_transform` on the empty registry the entry names are
pairwise distinct; on any registry, registering a name that is present leaves
the number of entries and the order of their names unchanged, and registering
a name that is absent puts one new entry in front of the unchanged list. -/
theorem C19_registry_names (calls : List t_transform_entry) (name : t_symbol)
    (fn : t_transform_fn) (description : String) (min_args max_args : ℤ) :
    (help_names (registry_after calls)).Nodup ∧
    (∀ registry : List t_transform_entry, name ∈ help_names registry →
      help_names (telomere_register_transform registry name fn description min_args max_args) =
        help_names registry ∧
      (telomere_register_transform registry name fn description min_args max_args).length =
        registry.length) ∧
    (∀ registry : List t_transform_entry, name ∉ help_names registry →
      telomere_register_transform registry name fn description min_args max_args =
        { name := name, fn := fn, description := description,
          min_args := min_args, max_args := max_args } :: registry) := by
  refine ⟨registry_after_nodup calls, ?_, ?_⟩
  · intro registry h
    have hn := register_of_mem registry name fn description min_args max_args h
    refine ⟨hn, ?_⟩
    have := congrArg List.length hn
    simpa [help_names] using this
  · intro registry h
    exact register_of_not_mem registry name fn description min_args max_args h

/-- C20 (counterexample): after registering `a`, then `b`, then `a` again, the
enumeration from the head is `b`, `a`: the latest registration of `a` (the
third call) came after the latest registration of `b` (the second call), yet
`b` is enumerated before `a`. -/
theorem C20_reregistration_keeps_place :
    help_names (registry_after [call_of "a", call_of "b", call_of "a"]) = ["b", "a"] ∧
    List.indexOf "b" (help_names (registry_after [call_of "a", call_of "b", call_of "a"])) <
      List.indexOf "a" (help_names (registry_after [call_of "a", call_of "b", call_of "a"])) := by
  refine ⟨by decide, by decide⟩

/-- C20 (amended): for every sequence of calls of `telomere_register_transform`
on the empty registry, the enumeration from the head lists each registered name
once, ordered by first registration, most recent first: if the first
registration of `a` came after the first registration of `b`, then `a` is
enumerated before `b`; the list of names is the reversed list of call names
with, for each name, only its first registration kept.  The nine built-in
transforms, each registered once, are enumerated in the reverse of their
registration order. -/
theorem C20_enumeration_order (calls : List t_transform_entry) :
    (∀ a : t_symbol,
      a ∈ help_names (registry_after calls) ↔ a ∈ calls.map (fun c => c.name)) ∧
    (help_names (registry_after calls)).Nodup ∧
    (∀ a b : t_symbol, a ∈ calls.map (fun c => c.name) →
      List.indexOf b (calls.map (fun c => c.name)) <
        List.indexOf a (calls.map (fun c => c.name)) →
      List.indexOf a (help_names (registry_after calls)) <
        List.indexOf b (help_names (registry_after calls))) ∧
    help_names (registry_after calls) = (calls.map (fun c => c.name)).reverse.dedup ∧
    help_names (builtins_setup []) =
      ["degrade", "skip", "jitter", "euclid", "slow", "fast", "reverse", "rotate",
        "palindrome"] := by
  refine ⟨registry_after_mem calls, registry_after_nodup calls,
    fun a b ha hlt => registry_after_order calls a b ha hlt, registry_after_dedup calls, ?_⟩
  decide

/-- C11 (counterexample): `euclid 3 8` applied to the freshly constructed engine,
whose pattern is empty, leaves the three positions `0`, `1/4`, `5/8`: the
transform is not a no-op on an empty pattern. -/
theorem C11_euclid_fills_empty :
    events (telomere_new 0) = [] ∧
    events (transform_euclid (telomere_new 0) [t_atom.A_FLOAT 3, t_atom.A_FLOAT 8]) =
      [0, 1 / 4, 5 / 8] := by
  refine ⟨by decide!, by decide!⟩

/-- C11 (amended): applied to an engine whose pattern is empty, each of
palindrome, rotate, reverse, fast, slow, jitter, skip and degrade returns the
engine state unchanged, for every argument list, iteration budget and outcome
of the random draws; euclid with integer arguments `hits`, `steps` in the range
of `int` (`-2^31 .. 2^31 - 1`, where the conversion `(int)` of the arguments is
defined) leaves `clamp(hits, 0, clamp(steps, 1, 64))` positions, so it leaves
the pattern empty exactly when `hits <= 0`. -/
theorem C11_empty_noop (x : t_telomere) (h : x.num_events = 0) (fuel : ℕ)
    (draws : ℕ → t_float) (argv : List t_atom) :
    transform_palindrome x argv = x ∧
    transform_rotate fuel x argv = some x ∧
    transform_reverse x argv = x ∧
    transform_fast fuel x argv = some x ∧
    transform_slow x argv = x ∧
    transform_jitter fuel draws x argv = some x ∧
    transform_skip draws x argv = x ∧
    transform_degrade draws x argv = x ∧
    (∀ hits steps : ℤ,
      (-2147483648 ≤ hits ∧ hits ≤ 2147483647) →
      (-2147483648 ≤ steps ∧ steps ≤ 2147483647) →
      (transform_euclid x [t_atom.A_FLOAT (hits : ℚ), t_atom.A_FLOAT (steps : ℚ)]).num_events =
        (euclid_hits hits steps).toNat ∧
      ((transform_euclid x [t_atom.A_FLOAT (hits : ℚ), t_atom.A_FLOAT (steps : ℚ)]).num_events
        = 0 ↔ hits ≤ 0)) := by
  obtain ⟨h1, h2, h3, h4, h5, h6, h7, h8⟩ := transforms_of_empty x h fuel draws argv
  refine ⟨h1, h2, h3, h4, h5, h6, h7, h8, ?_⟩
  intro hits steps hhr hsr
  have hn0 : 1 ≤ euclid_steps steps ∧ euclid_steps steps ≤ 64 := by
    unfold euclid_steps; omega
  have hk0 : 0 ≤ euclid_hits hits steps ∧ euclid_hits hits steps ≤ euclid_steps steps := by
    unfold euclid_hits; omega
  obtain ⟨n, hn⟩ := Int.eq_ofNat_of_zero_le (by omega : 0 ≤ euclid_steps steps)
  obtain ⟨k, hk⟩ := Int.eq_ofNat_of_zero_le hk0.1
  have hnum : (transform_euclid x
      [t_atom.A_FLOAT (hits : ℚ), t_atom.A_FLOAT (steps : ℚ)]).num_events = k := by
    rw [← events_length, transform_euclid_eq x hits steps n k hhr hsr hn hk,
      euclid_events x n k (by omega) (by omega) (by omega)]
    simp
  rw [hnum, hk, Int.toNat_ofNat]
  refine ⟨rfl, ?_⟩
  have hkz : k = 0 ↔ euclid_hits hits steps ≤ 0 := by omega
  rw [hkz]
  unfold euclid_hits euclid_steps
  omega

/-- A witness for `C11_empty_noop`: the freshly constructed engine. -/
theorem C11_empty_noop_witness :
    (telomere_new 0).num_events = 0 ∧
    transform_palindrome (telomere_new 0) [] = telomere_new 0 ∧
    transform_rotate 8 (telomere_new 0) [t_atom.A_FLOAT 1] = some (telomere_new 0) :=
  ⟨rfl, (C11_empty_noop (telomere_new 0) rfl 8 (fun _ => 0) []).1,
    (C11_empty_noop (telomere_new 0) rfl 8 (fun _ => 0) [t_atom.A_FLOAT 1]).2.1⟩

/-- C12 (counterexample): on the unsorted pattern `[1/2, 1/4]` (taps recorded in
that order), `skip 0` and `degrade 0` with draws that keep every event leave
`[1/2, 1/4]`, which is not in ascending order. -/
theorem C12_skip_keeps_unsorted :
    events (transform_skip (fun _ => 1) (engine_with [1 / 2, 1 / 4] 32) [t_atom.A_FLOAT 0]) =
      [1 / 2, 1 / 4] ∧
    events (transform_degrade (fun _ => 1) (engine_with [1 / 2, 1 / 4] 32) [t_atom.A_FLOAT 0]) =
      [1 / 2, 1 / 4] ∧
    ¬ ([1 / 2, 1 / 4] : List t_float).Sorted (· ≤ ·) := by
  refine ⟨by decide!, by decide!, ?_⟩
  intro hs
  have := List.rel_of_sorted_cons hs (1 / 4) (List.mem_singleton_self _)
  norm_num at this

/-- C12 (amended): for every pattern (sorted or not), argument list and outcome
of the draws, the pattern is in ascending order after palindrome, reverse, slow
and euclid, and after rotate, fast and jitter whenever they complete.  They do
complete: rotate when the grid is non-zero, the positions lie in `[0,1]` and
`|shift| + 1` is within the iteration budget (and at most `2^24 - 1`); jitter
when the positions and the draws lie in `[0,1]` and the budget is at least 2;
fast on a non-empty pattern with an integer factor whose product with the
length is inside the `int` range, with a budget of at least 256.  Skip and
degrade do not sort: on a pattern of at most 256 events they leave a
subsequence of the pattern in its original order, which is ascending when the
pattern was. -/
theorem C12_transforms_sorted (x : t_telomere) (argv : List t_atom) (fuel : ℕ)
    (draws : ℕ → t_float) :
    (events (transform_palindrome x argv)).Sorted (· ≤ ·) ∧
    (events (transform_reverse x argv)).Sorted (· ≤ ·) ∧
    (events (transform_slow x argv)).Sorted (· ≤ ·) ∧
    (events (transform_euclid x argv)).Sorted (· ≤ ·) ∧
    (∀ y, transform_rotate fuel x argv = some y → (events y).Sorted (· ≤ ·)) ∧
    (∀ y, transform_fast fuel x argv = some y → (events y).Sorted (· ≤ ·)) ∧
    (∀ y, transform_jitter fuel draws x argv = some y → (events y).Sorted (· ≤ ·)) ∧
    (pattern_get_grid x ≠ 0 →
      (∀ i, i < x.num_events → 0 ≤ x.pattern i ∧ x.pattern i ≤ 1) →
      |fdiv (float_of_int (int_of_float (atom_getfloatarg 0 argv)))
        (float_of_int (pattern_get_grid x))| + 1 ≤ ((min fuel 16777215 : ℕ) : ℚ) →
      ∃ y, transform_rotate fuel x argv = some y ∧ (events y).Sorted (· ≤ ·)) ∧
    (2 ≤ fuel →
      (∀ i, i < x.num_events → 0 ≤ x.pattern i ∧ x.pattern i ≤ 1) →
      (∀ i, i < x.num_events → 0 ≤ draws i ∧ draws i ≤ 1) →
      ∃ y, transform_jitter fuel draws x argv = some y ∧ (events y).Sorted (· ≤ ·)) ∧
    (∀ f : ℤ, 1 ≤ x.num_events → (x.num_events : ℤ) * max f 2 < 2147483648 → 256 ≤ fuel →
      ∃ y, transform_fast fuel x [t_atom.A_FLOAT (f : ℚ)] = some y ∧
        (events y).Sorted (· ≤ ·)) ∧
    (x.num_events ≤ 256 →
      (events (transform_skip draws x argv)).Sublist (events x) ∧
      ((events x).Sorted (· ≤ ·) → (events (transform_skip draws x argv)).Sorted (· ≤ ·))) ∧
    (x.num_events ≤ 256 →
      (events (transform_degrade draws x argv)).Sublist (events x) ∧
      ((events x).Sorted (· ≤ ·) →
        (events (transform_degrade draws x argv)).Sorted (· ≤ ·))) := by
  refine ⟨transform_palindrome_sorted x argv, transform_reverse_sorted x argv,
    transform_slow_sorted x argv, transform_euclid_sorted x argv,
    fun y hy => transform_rotate_sorted fuel x y argv hy,
    fun y hy => transform_fast_sorted fuel x y argv hy,
    fun y hy => transform_jitter_sorted fuel draws x y argv hy, ?_, ?_, ?_, ?_, ?_⟩
  · intro hg hev hs
    obtain ⟨y, hy⟩ := transform_rotate_completes fuel (min fuel 16777215) x argv hg
      (Nat.min_le_left _ _) (Nat.min_le_right _ _) hev hs
    exact ⟨y, hy, transform_rotate_sorted fuel x y argv hy⟩
  · intro hfuel hev hd
    obtain ⟨y, hy⟩ := transform_jitter_completes fuel draws x argv hfuel hev hd
    exact ⟨y, hy, transform_jitter_sorted fuel draws x y argv hy⟩
  · intro f h1 hov hfuel
    obtain ⟨F, hF⟩ := Int.eq_ofNat_of_zero_le (by omega : 0 ≤ max f 2)
    obtain ⟨r, hr, _, _, hsorted⟩ := transform_fast_spec x f fuel F hF.symm h1 hov hfuel
    exact ⟨r, hr, hsorted⟩
  · intro hcap
    have hsub := transform_skip_sublist draws x argv hcap
    exact ⟨hsub, fun hs => List.Pairwise.sublist hsub hs⟩
  · intro hcap
    have hsub := transform_degrade_sublist draws x argv hcap
    exact ⟨hsub, fun hs => List.Pairwise.sublist hsub hs⟩

/-- C16: for every pattern, `pattern_sort` keeps the length, leaves the events
in ascending order and a permutation of the events before (slots beyond the
length are untouched).  It is stable: running the same loops on slots tagged
with their index gives the same positions, the tags of the result are a
rearrangement of `0 .. n - 1`, the position left in slot `t` is the one that
was in the slot named by its tag, and of two slots of the result that hold
equal positions the earlier one has the smaller tag, so elements with equal
keys keep their relative order. -/
theorem C16_sort (x : t_telomere) :
    (pattern_sort x).num_events = x.num_events ∧
    (events (pattern_sort x)).Sorted (· ≤ ·) ∧
    (events (pattern_sort x)).Perm (events x) ∧
    (∀ t, x.num_events ≤ t → (pattern_sort x).pattern t = x.pattern t) ∧
    (∀ t, (sort_outer_tagged (tagged_pattern x) x.num_events t).1 =
      (pattern_sort x).pattern t) ∧
    ((List.range x.num_events).map
      (fun t => (sort_outer_tagged (tagged_pattern x) x.num_events t).2)).Perm
      (List.range x.num_events) ∧
    (∀ t, t < x.num_events →
      (sort_outer_tagged (tagged_pattern x) x.num_events t).2 < x.num_events ∧
      (pattern_sort x).pattern t =
        x.pattern (sort_outer_tagged (tagged_pattern x) x.num_events t).2) ∧
    (∀ s t, s < t → t < x.num_events →
      (pattern_sort x).pattern s = (pattern_sort x).pattern t →
      (sort_outer_tagged (tagged_pattern x) x.num_events s).2 <
        (sort_outer_tagged (tagged_pattern x) x.num_events t).2) := by
  have hfst : ∀ t, (sort_outer_tagged (tagged_pattern x) x.num_events t).1 =
      (pattern_sort x).pattern t := fun t =>
    sort_outer_tagged_fst (tagged_pattern x) x.num_events t
  obtain ⟨hperm, hpair⟩ := sort_outer_tagged_spec x.pattern x.num_events
  have hperm' : ((List.range x.num_events).map
      (sort_outer_tagged (tagged_pattern x) x.num_events)).Perm
      ((List.range x.num_events).map (tagged_pattern x)) := hperm
  have hpair' : ((List.range x.num_events).map
      (sort_outer_tagged (tagged_pattern x) x.num_events)).Pairwise tagged_lt := hpair
  refine ⟨rfl, events_pattern_sort_sorted x, events_pattern_sort_perm x,
    fun t ht => pattern_sort_pattern_beyond x t ht, hfst, ?_, ?_, ?_⟩
  · have h := hperm'.map Prod.snd
    rw [List.map_map, List.map_map] at h
    have hid : (List.range x.num_events).map (Prod.snd ∘ tagged_pattern x) =
        List.range x.num_events := by
      have : (Prod.snd ∘ tagged_pattern x) = id := rfl
      rw [this, List.map_id]
    rw [hid] at h
    exact h
  · intro t ht
    have hmem : sort_outer_tagged (tagged_pattern x) x.num_events t ∈
        (List.range x.num_events).map (sort_outer_tagged (tagged_pattern x) x.num_events) :=
      List.mem_map.mpr ⟨t, List.mem_range.mpr ht, rfl⟩
    obtain ⟨s, hs, hse⟩ := List.mem_map.mp (hperm'.mem_iff.mp hmem)
    rw [← hfst t, ← hse]
    exact ⟨List.mem_range.mp hs, rfl⟩
  · intro s t hst ht heq
    have hp := List.pairwise_map.mp hpair'
    have hlt := pairwise_range x.num_events hp s t hst ht
    rcases hlt with h | h
    · rw [hfst s, hfst t, heq] at h
      exact absurd h (lt_irrefl _)
    · exact h.2

/-- C21: in the freshly constructed engine and after any sequence of messages
and clock callbacks (tempo, beats, quantize, grid, jitter, skip, record, clear,
trigger, tick, transforms) whose tempo arguments are finite single-precision
numbers (below `2^128`): the tempo is positive, `beats_per_cycle >= 1`, and
`cycle_length_ms` is `60000.0 / tempo * beats_per_cycle` as computed in double
precision, hence positive.  A tempo message with `f <= 0` leaves the state
unchanged, one with `f > 0` sets the tempo and recomputes the cycle length; the
default engine has tempo 120 and `cycle_length_ms = 2000`.  The guard
`f > 0.0f` of `telomere_float` is all that protects the cycle length, and it
lets an unbounded tempo through: the rational numbers of this model have no
infinite value, and at the tempo `2^1100`, as at `+inf` in the source, the guard
passes and the quotient `60000.0 / f` is `0`, so that `cycle_length_ms` is `0`
with a positive tempo. -/
theorem C21_cycle_length (tempo : t_float) (fuel : ℕ) (msgs : List t_message) (y : t_telomere)
    (ht : tempo < 2 ^ 128) (hm : ∀ m ∈ msgs, message_finite m)
    (hrun : telomere_run fuel (telomere_new tempo) msgs = some y) :
    0 < y.tempo ∧ 1 ≤ y.beats_per_cycle ∧
    y.cycle_length_ms = f64 (f64 (60000 / y.tempo) * y.beats_per_cycle) ∧
    0 < y.cycle_length_ms ∧
    (∀ (x : t_telomere) (f : t_float), f ≤ 0 → telomere_float x f = x) ∧
    (∀ (x : t_telomere) (f : t_float), 0 < f →
      (telomere_float x f).tempo = f ∧
      (telomere_float x f).cycle_length_ms = f64 (f64 (60000 / f) * x.beats_per_cycle)) ∧
    (telomere_new 0).tempo = 120 ∧ (telomere_new 0).beats_per_cycle = 4 ∧
    (telomere_new 0).cycle_length_ms = 2000 ∧
    0 < (telomere_float (telomere_new 0) (2 ^ 1100)).tempo ∧
    (telomere_float (telomere_new 0) (2 ^ 1100)).cycle_length_ms = 0 := by
  obtain ⟨h1, h2, h3, h4⟩ :=
    (run_inv fuel msgs (telomere_new tempo) y hrun).1 (telomere_new_clock_inv tempo ht) hm
  refine ⟨h1, h3, h4, ?_, ?_, ?_, by decide!, rfl, by decide!, by decide!, by decide!⟩
  · rw [h4]
    exact cycle_length_pos h1 h2 h3
  · intro x f hf
    unfold telomere_float
    rw [if_neg (not_lt.mpr hf)]
  · intro x f hf
    unfold telomere_float
    have : f > 0 := hf
    rw [if_pos this]
    exact ⟨rfl, rfl⟩

/-- A witness for `C21_cycle_length`: the default engine after a tempo message,
a beats message and a clock callback. -/
theorem C21_cycle_length_witness :
    0 < (telomere_tick (fun _ => 0)
      (telomere_beats (telomere_float (telomere_new 0) 90) 3)).1.cycle_length_ms :=
  (C21_cycle_length 0 8
    [t_message.float 90, t_message.beats 3, t_message.tick (fun _ => 0)]
    (telomere_tick (fun _ => 0) (telomere_beats (telomere_float (telomere_new 0) 90) 3)).1
    (by norm_num)
    (by
      intro m hmem
      simp only [List.mem_cons, List.mem_singleton, List.not_mem_nil, or_false] at hmem
      rcases hmem with rfl | rfl | rfl
      · show (90 : t_float) < 2 ^ 128
        norm_num
      · trivial
      · trivial)
    rfl).2.2.2.1

/-- C23 (counterexample): at tempo 7 (cycle length `(60000.0 / 7) * 4` ms) with
the pattern `[0.25, 0.75]` and skip probability 1, the tick that skips the first
event requests the delay `next * cycle - pos * cycle`, which in double precision
is `2356096345234285 / 2^37`; the claimed `max((next - pos) * cycle, 0.1)` is
`4712192690468571 / 2^38`, both exactly and in double precision, one unit in the
last place above. -/
theorem C23_skipped_tick_delay :
    (telomere_skip (telomere_float (engine_with [1 / 4, 3 / 4] 32) 7) 1).cycle_length_ms =
      4712192690468571 / 137438953472 ∧
    (telomere_tick (fun _ => 0)
      (telomere_skip (telomere_float (engine_with [1 / 4, 3 / 4] 32) 7) 1)).2 =
      [t_output.clock_delay (2356096345234285 / 137438953472)] ∧
    max (f64 (f64 (3 / 4 - 1 / 4) * (4712192690468571 / 137438953472))) (f64 (1 / 10)) =
      4712192690468571 / 274877906944 ∧
    max (((3 : ℚ) / 4 - 1 / 4) * (4712192690468571 / 137438953472)) (1 / 10) =
      4712192690468571 / 274877906944 ∧
    (2356096345234285 / 137438953472 : ℚ) ≠ 4712192690468571 / 274877906944 := by
  refine ⟨by decide!, by decide!, by decide!, by decide!, by norm_num⟩

/-- C23 (amended): every scheduling request has a delay of at least the `double`
`0.1`, which is at least one tenth of a millisecond.  The request of a
playback-starting trigger is `max(pattern[0] * cycle_length_ms, 0.1)`; the
request of a tick that emits its event is `max((next - pos) * cycle_length_ms,
0.1)`; the request of a tick that skips its event is
`max(next * cycle_length_ms - pos * cycle_length_ms, 0.1)`; every operation is
in double precision, and the gap may be negative. -/
theorem C23_delays (fuel : ℕ) (elapsed now : ℚ) (draws : ℕ → t_float) (x : t_telomere) :
    (x.recording = false → 1 ≤ x.num_events →
      telomere_bang fuel elapsed now x =
        some ({ x with play_index := 0, cycle_start_time := now },
          [t_output.clock_delay (max (f64 (x.pattern 0 * x.cycle_length_ms)) (f64 (1 / 10)))])) ∧
    (x.play_index + 1 < x.num_events → (x.skip_prob > 0 ∧ draws 0 < x.skip_prob) →
      (telomere_tick draws x).2 =
        [t_output.clock_delay
          (max (f64 (f64 (x.pattern (x.play_index + 1) * x.cycle_length_ms) -
            f64 (x.pattern x.play_index * x.cycle_length_ms))) (f64 (1 / 10)))]) ∧
    (x.play_index + 1 < x.num_events → ¬ (x.skip_prob > 0 ∧ draws 0 < x.skip_prob) →
      ∃ p, (telomere_tick draws x).2 =
        [t_output.out_position p, t_output.out_bang,
          t_output.clock_delay
            (max (f64 (f64 (x.pattern (x.play_index + 1) - x.pattern x.play_index) *
              x.cycle_length_ms)) (f64 (1 / 10)))]) ∧
    (∀ d, t_output.clock_delay d ∈ (telomere_tick draws x).2 → f64 (1 / 10) ≤ d) ∧
    (∀ r d, telomere_bang fuel elapsed now x = some r → t_output.clock_delay d ∈ r.2 →
      f64 (1 / 10) ≤ d) ∧
    (1 : ℚ) / 10 ≤ f64 (1 / 10) := by
  refine ⟨?_, ?_, ?_, ?_, ?_, f64_tenth⟩
  · intro hrec h1
    unfold telomere_bang
    have hr : ¬ x.recording = true := by rw [hrec]; simp
    have hn : ¬ x.num_events = 0 := by omega
    rw [if_neg hr, if_neg hn]
    dsimp only
    rw [floor_delay_eq]
  · intro hn hs
    rw [telomere_tick_skip draws x (by omega) hs, if_pos hn]
  · intro hn hs
    obtain ⟨p, hp⟩ := telomere_tick_emit draws x (by omega) hs
    exact ⟨p, by rw [hp, if_pos hn]⟩
  · intro d hd
    by_cases hend : x.num_events ≤ x.play_index
    · rw [telomere_tick_end draws x hend] at hd
      simp at hd
    · have hlt : x.play_index < x.num_events := by omega
      by_cases hs : x.skip_prob > 0 ∧ draws 0 < x.skip_prob
      · rw [telomere_tick_skip draws x hlt hs] at hd
        dsimp only at hd
        split_ifs at hd
        · simp only [List.mem_singleton, t_output.clock_delay.injEq] at hd
          rw [hd]
          exact le_max_right _ _
        · simp at hd
      · obtain ⟨p, hp⟩ := telomere_tick_emit draws x hlt hs
        rw [hp] at hd
        dsimp only at hd
        split_ifs at hd
        · simp only [List.mem_cons, List.mem_singleton, t_output.clock_delay.injEq,
            List.not_mem_nil, or_false, reduceCtorEq, false_or] at hd
          rw [hd]
          exact le_max_right _ _
        · simp at hd
  · intro r d hr hd
    unfold telomere_bang at hr
    by_cases hrec : x.recording = true
    · rw [if_pos hrec] at hr
      split_ifs at hr
      obtain ⟨pos, _, hpr⟩ := Option.map_eq_some'.mp hr
      rw [← hpr] at hd
      unfold bang_record at hd
      simp at hd
    · rw [if_neg hrec] at hr
      split_ifs at hr
      · simp only [Option.some.injEq] at hr
        rw [← hr] at hd
        simp at hd
      · simp only [Option.some.injEq] at hr
        rw [← hr] at hd
        simp only [List.mem_singleton, t_output.clock_delay.injEq] at hd
        rw [hd, floor_delay_eq]
        exact le_max_right _ _

/-- C24: with the stored position `0.5`, jitter amount `0.5` and the draw
`rand() = RAND_MAX` (so `r = 1`), the tick computes `0.5 + 1 * 0.5 = 1.0`; the
test `out_pos > 1.0f` does not wrap it, and the position `1.0`, outside `[0,1)`,
is sent out.  For every state with stored positions in `[0,1)`, jitter amount
in `[0,1]` and draws in `[0,1]`, the position sent out lies in `[0,1]`. -/
theorem C24_tick_emits_one :
    (∀ p ∈ events (telomere_jitter (engine_with [1 / 2] 32) (1 / 2)), 0 ≤ p ∧ p < 1) ∧
    (telomere_jitter (engine_with [1 / 2] 32) (1 / 2)).jitter_amt = 1 / 2 ∧
    fsub (fmul 1 2) 1 = 1 ∧
    (telomere_tick (fun _ => 1) (telomere_jitter (engine_with [1 / 2] 32) (1 / 2))).2 =
      [t_output.out_position 1, t_output.out_bang, t_output.out_count 1] ∧
    ¬ ((1 : t_float) < 1) ∧
    (∀ (draws : ℕ → t_float) (x : t_telomere),
      (∀ i, i < x.num_events → 0 ≤ x.pattern i ∧ x.pattern i < 1) →
      (0 ≤ x.jitter_amt ∧ x.jitter_amt ≤ 1) →
      (∀ i, 0 ≤ draws i ∧ draws i ≤ 1) →
      ∀ p, t_output.out_position p ∈ (telomere_tick draws x).2 → 0 ≤ p ∧ p ≤ 1) := by
  refine ⟨by decide!, by decide!, by decide!, by decide!, by norm_num,
    fun draws x hpos hj hd => tick_position_range draws x hpos hj hd⟩

/-- C29 (counterexample): at tempo 7 with the pattern `[0.5, 0.75]` and skip
probability `0.5`, the tick requests `2356096345234285 / 2^38` ms when the draw
is 0 (the event is skipped) and `4712192690468571 / 2^39` ms when the draw is 1
(the event is emitted): the two runs differ only in the draw, and the scheduled
delays differ. -/
theorem C29_delay_depends_on_draw :
    (telomere_tick (fun _ => 0)
      (telomere_skip (telomere_float (engine_with [1 / 2, 3 / 4] 32) 7) (1 / 2))).2 =
      [t_output.clock_delay (2356096345234285 / 274877906944)] ∧
    (telomere_tick (fun _ => 1)
      (telomere_skip (telomere_float (engine_with [1 / 2, 3 / 4] 32) 7) (1 / 2))).2 =
      [t_output.out_position (1 / 2), t_output.out_bang,
        t_output.clock_delay (4712192690468571 / 549755813888)] ∧
    (2356096345234285 / 274877906944 : ℚ) ≠ 4712192690468571 / 549755813888 := by
  refine ⟨by decide!, by decide!, by norm_num⟩

/-- C29 (amended): for every engine state and any two outcomes of the random
source, the state after a playback tick (cursor included) and the decision
whether to schedule another callback are the same; the scheduled delay is the
same whenever both runs skip the event or both emit it.  Between a run that
skips and a run that emits, the delay is `max(next * cycle - pos * cycle, 0.1)`
in one and `max((next - pos) * cycle, 0.1)` in the other, each evaluated in
double precision: two roundings of the same real number. -/
theorem C29_timing (draws1 draws2 : ℕ → t_float) (x : t_telomere) :
    (telomere_tick draws1 x).1 = (telomere_tick draws2 x).1 ∧
    (telomere_tick draws1 x).2.any is_request = (telomere_tick draws2 x).2.any is_request ∧
    (((x.skip_prob > 0 ∧ draws1 0 < x.skip_prob) ↔ (x.skip_prob > 0 ∧ draws2 0 < x.skip_prob)) →
      (telomere_tick draws1 x).2.filter is_request =
        (telomere_tick draws2 x).2.filter is_request) ∧
    (∀ d, t_output.clock_delay d ∈ (telomere_tick draws1 x).2 →
      d = max (f64 (f64 (x.pattern (x.play_index + 1) * x.cycle_length_ms) -
            f64 (x.pattern x.play_index * x.cycle_length_ms))) (f64 (1 / 10)) ∨
      d = max (f64 (f64 (x.pattern (x.play_index + 1) - x.pattern x.play_index) *
            x.cycle_length_ms)) (f64 (1 / 10))) ∧
    x.pattern (x.play_index + 1) * x.cycle_length_ms - x.pattern x.play_index * x.cycle_length_ms =
      (x.pattern (x.play_index + 1) - x.pattern x.play_index) * x.cycle_length_ms := by
  refine ⟨?_, ?_, ?_, ?_, by ring⟩
  · rw [telomere_tick_state, telomere_tick_state]
  · by_cases hend : x.num_events ≤ x.play_index
    · rw [telomere_tick_end draws1 x hend, telomere_tick_end draws2 x hend]
    · have hlt : x.play_index < x.num_events := by omega
      obtain ⟨_, a2, a3⟩ := telomere_tick_requests draws1 x hlt
      obtain ⟨_, b2, b3⟩ := telomere_tick_requests draws2 x hlt
      by_cases hn : x.play_index + 1 < x.num_events
      · rw [(a2 hn).2, (b2 hn).2]
      · rw [(a3 hn).2.1, (b3 hn).2.1]
  · intro hsame
    by_cases hend : x.num_events ≤ x.play_index
    · rw [telomere_tick_end draws1 x hend, telomere_tick_end draws2 x hend]
    · have hlt : x.play_index < x.num_events := by omega
      by_cases hs : x.skip_prob > 0 ∧ draws1 0 < x.skip_prob
      · rw [telomere_tick_skip draws1 x hlt hs, telomere_tick_skip draws2 x hlt (hsame.mp hs)]
      · have hs2 : ¬ (x.skip_prob > 0 ∧ draws2 0 < x.skip_prob) := fun h => hs (hsame.mpr h)
        obtain ⟨p1, hp1⟩ := telomere_tick_emit draws1 x hlt hs
        obtain ⟨p2, hp2⟩ := telomere_tick_emit draws2 x hlt hs2
        rw [hp1, hp2]
        dsimp only
        split_ifs <;> rfl
  · intro d hd
    by_cases hend : x.num_events ≤ x.play_index
    · rw [telomere_tick_end draws1 x hend] at hd
      simp at hd
    · have hlt : x.play_index < x.num_events := by omega
      by_cases hs : x.skip_prob > 0 ∧ draws1 0 < x.skip_prob
      · rw [telomere_tick_skip draws1 x hlt hs] at hd
        dsimp only at hd
        split_ifs at hd
        · simp only [List.mem_singleton, t_output.clock_delay.injEq] at hd
          exact Or.inl hd
        · simp at hd
      · obtain ⟨p, hp⟩ := telomere_tick_emit draws1 x hlt hs
        rw [hp] at hd
        dsimp only at hd
        split_ifs at hd
        · simp only [List.mem_cons, List.mem_singleton, t_output.clock_delay.injEq,
            List.not_mem_nil, or_false, reduceCtorEq, false_or] at hd
          exact Or.inr hd
        · simp at hd

/-- C25: for every pattern of length `n` and every outcome of the random draws,
a trigger in the not-recording state does nothing when `n = 0`, and otherwise
sets the cursor to 0 and makes one scheduling request, after which the clock
runs exactly `n` tick callbacks: each of the first `n - 1` makes exactly one
scheduling request, the `n`-th makes none and reports the event count `n`, and
the cursor is left at `n`.  Every tick on a cursor below `n` advances it by
exactly one and changes nothing else; a tick on a cursor at or beyond `n` only
reports the count (no rewind). -/
theorem C25_playback (fuel budget : ℕ) (elapsed now : ℚ) (draws : ℕ → ℕ → t_float)
    (x : t_telomere) (hrec : x.recording = false) (hb : x.num_events ≤ budget) :
    (x.num_events = 0 → telomere_bang fuel elapsed now x = some (x, [])) ∧
    (1 ≤ x.num_events →
      ∃ (d : ℚ) (firsts : List (List t_output)) (last : List t_output),
        telomere_bang fuel elapsed now x =
          some ({ x with play_index := 0, cycle_start_time := now },
            [t_output.clock_delay d]) ∧
        (run_clock draws budget 0 { x with play_index := 0, cycle_start_time := now }).1 =
          firsts ++ [last] ∧
        firsts.length + 1 = x.num_events ∧
        (∀ o ∈ firsts, (o.filter is_request).length = 1) ∧
        last.filter is_request = [] ∧
        t_output.out_count (float_of_int x.num_events) ∈ last ∧
        (run_clock draws budget 0 { x with play_index := 0, cycle_start_time := now }).2 =
          { x with play_index := x.num_events, cycle_start_time := now }) ∧
    (∀ (d : ℕ → t_float) (y : t_telomere), y.play_index < y.num_events →
      (telomere_tick d y).1 = { y with play_index := y.play_index + 1 }) ∧
    (∀ (d : ℕ → t_float) (y : t_telomere), y.num_events ≤ y.play_index →
      telomere_tick d y = (y, [t_output.out_count (float_of_int y.num_events)])) := by
  have hr : ¬ x.recording = true := by rw [hrec]; simp
  refine ⟨?_, ?_, fun d y hy => (telomere_tick_requests d y hy).1,
    fun d y hy => telomere_tick_end d y hy⟩
  · intro h0
    unfold telomere_bang
    rw [if_neg hr, if_pos h0]
  · intro h1
    have hn : ¬ x.num_events = 0 := by omega
    obtain ⟨firsts, last, e1, e2, e3, e4, e5, e6⟩ :=
      run_clock_spec draws (x.num_events - 1) budget 0
        { x with play_index := 0, cycle_start_time := now }
        (by show 0 + (x.num_events - 1) + 1 = x.num_events; omega) (by omega)
    refine ⟨if f64 (x.pattern 0 * x.cycle_length_ms) < f64 (1 / 10) then f64 (1 / 10)
        else f64 (x.pattern 0 * x.cycle_length_ms), firsts, last, ?_, e1, by omega, e3, e4,
      e5, e6⟩
    unfold telomere_bang
    rw [if_neg hr, if_neg hn]

/-- A witness for `C25_playback`: the two-event pattern `[0.25, 0.75]`. -/
theorem C25_playback_witness :
    (engine_with [1 / 4, 3 / 4] 32).recording = false ∧
    (engine_with [1 / 4, 3 / 4] 32).num_events ≤ 2 ∧
    ∀ (d : ℕ → t_float) (y : t_telomere), y.num_events ≤ y.play_index →
      telomere_tick d y = (y, [t_output.out_count (float_of_int y.num_events)]) :=
  ⟨rfl, by decide,
    (C25_playback 0 2 0 0 (fun _ _ => 0) (engine_with [1 / 4, 3 / 4] 32) rfl
      (by decide)).2.2.2⟩

/-- C26: for every engine state, jitter amount, skip probability and outcome of
the random draws, a playback tick leaves the buffer, the length and the
capacity as they were (so the stored pattern is unchanged); the state after the
tick is the state before, with at most the cursor advanced by one. -/
theorem C26_tick_storage (draws : ℕ → t_float) (x : t_telomere) :
    (telomere_tick draws x).1.pattern = x.pattern ∧
    (telomere_tick draws x).1.num_events = x.num_events ∧
    (telomere_tick draws x).1.pattern_alloc = x.pattern_alloc ∧
    events (telomere_tick draws x).1 = events x ∧
    ((telomere_tick draws x).1 = x ∨
      (telomere_tick draws x).1 = { x with play_index := x.play_index + 1 }) := by
  rw [telomere_tick_state]
  split_ifs
  · exact ⟨rfl, rfl, rfl, rfl, Or.inl rfl⟩
  · exact ⟨rfl, rfl, rfl, rfl, Or.inr rfl⟩

/-- C30: every built-in transform leaves every field outside the pattern store
as it was: after palindrome, reverse, slow, euclid, skip and degrade, and after
rotate, fast and jitter whenever they return, the tempo, `beats_per_cycle`,
`cycle_length_ms`, grid, quantize strength, jitter amount, skip probability,
recording flag, cycle-start timestamp and play cursor are unchanged, for every
argument list and outcome of the draws.  A tick on a cursor at or beyond the
length reports the count and requests nothing: after `euclid 1 4` on a
three-event pattern whose cursor is 2, the next tick is the end of the cycle. -/
theorem C30_transform_frame (x : t_telomere) (argv : List t_atom) (fuel : ℕ)
    (draws : ℕ → t_float) :
    same_settings x (transform_palindrome x argv) ∧
    same_settings x (transform_reverse x argv) ∧
    same_settings x (transform_slow x argv) ∧
    same_settings x (transform_euclid x argv) ∧
    same_settings x (transform_skip draws x argv) ∧
    same_settings x (transform_degrade draws x argv) ∧
    (∀ y, transform_rotate fuel x argv = some y → same_settings x y) ∧
    (∀ y, transform_fast fuel x argv = some y → same_settings x y) ∧
    (∀ y, transform_jitter fuel draws x argv = some y → same_settings x y) ∧
    (∀ y, same_settings x y →
      y.tempo = x.tempo ∧ y.beats_per_cycle = x.beats_per_cycle ∧
      y.cycle_length_ms = x.cycle_length_ms ∧ y.grid = x.grid ∧
      y.quantize_pct = x.quantize_pct ∧ y.jitter_amt = x.jitter_amt ∧
      y.skip_prob = x.skip_prob ∧ y.recording = x.recording ∧
      y.cycle_start_time = x.cycle_start_time ∧ y.play_index = x.play_index) ∧
    (∀ (s : t_symbol) (y : t_telomere),
      (telomere_anything (builtins_setup []) fuel draws x s argv).2 = some y →
      same_settings x y) ∧
    (∀ y : t_telomere, y.num_events ≤ y.play_index →
      telomere_tick draws y = (y, [t_output.out_count (float_of_int y.num_events)])) ∧
    (telomere_tick (fun _ => 0)
      (transform_euclid { engine_with [1 / 4, 1 / 2, 3 / 4] 32 with play_index := 2 }
        [t_atom.A_FLOAT 1, t_atom.A_FLOAT 4])).2 = [t_output.out_count 1] := by
  refine ⟨same_settings_palindrome x argv, same_settings_reverse x argv,
    same_settings_slow x argv, same_settings_euclid x argv,
    same_settings_skip draws x argv, same_settings_degrade draws x argv,
    fun y h => same_settings_rotate fuel x y argv h,
    fun y h => same_settings_fast fuel x y argv h,
    fun y h => same_settings_jitter fuel draws x y argv h,
    fun y h => same_settings_fields h,
    fun s y h => anything_same_settings fuel draws x y s argv h,
    fun y h => telomere_tick_end draws y h, by decide!⟩

/-- C27 (counterexample): on the default grid 16, `rotate 16` (one full turn, a
multiple of the grid) applied to the sorted one-event pattern `[2^-30]` leaves
`[0]`: the sum `2^-30 + 1` rounds to `1.0f` and is wrapped to `0`.  The claimed
result is `frac(2^-30 + 16/16) = 2^-30`, the pattern unchanged. -/
theorem C27_full_turn_loses_position :
    (∀ p ∈ events (engine_with [1 / 1073741824] 32), 0 ≤ p ∧ p < 1) ∧
    (engine_with [1 / 1073741824] 32).grid = 16 ∧
    f32 (1 / 1073741824) = 1 / 1073741824 ∧
    (transform_rotate 8 (engine_with [1 / 1073741824] 32) [t_atom.A_FLOAT 16]).map events =
      some [0] ∧
    Int.fract ((1 / 1073741824 : ℚ) + 16 / 16) = 1 / 1073741824 ∧
    (1 / 1073741824 : ℚ) ≠ 0 := by
  refine ⟨by decide!, by decide!, by decide!, by decide!, ?_, by norm_num⟩
  have e : (1 / 1073741824 : ℚ) + 16 / 16 = 1 / 1073741824 + ((1 : ℤ) : ℚ) := by norm_num
  rw [e, Int.fract_add_int]
  exact Int.fract_eq_self.mpr ⟨by norm_num, by norm_num⟩

/-- C27 (amended): for every non-empty pattern with positions in `[0,1)`, every
grid in `[1,128]` and every integer offset whose shift
`(float)offset / (float)grid` satisfies `|shift| + 1 <= 2^24 - 1` and is within
the budget of the wrap loops, the rotate transform completes with the length
unchanged and leaves the ascending sort of the values `w(p)`, where `w(p)` is
the result of the two wrap loops on the single-precision sum `p + shift`; every
`w(p)` lies in `[0,1]`.  `rotate 0` leaves a sorted pattern of single-precision
positions unchanged.  When the grid divides `2^23` (a power of two),
`|offset| <= grid` and the positions are multiples of `2^-23`, the arithmetic
is exact: the result is the ascending sort of `frac(p + offset/grid)`, and a
rotate by `grid` or `-grid` leaves such a sorted pattern unchanged. -/
theorem C27_rotate (fuel : ℕ) (x : t_telomere) (offset : ℤ)
    (h1 : 1 ≤ x.num_events)
    (hpos : ∀ p ∈ events x, 0 ≤ p ∧ p < 1)
    (hg : 1 ≤ x.grid ∧ x.grid ≤ 128)
    (hs : |fdiv (float_of_int offset) (float_of_int x.grid)| + 1 ≤
      ((min fuel 16777215 : ℕ) : ℚ)) :
    ∃ z : t_telomere,
      transform_rotate fuel x [t_atom.A_FLOAT (offset : ℚ)] = some (pattern_sort z) ∧
      (pattern_sort z).num_events = x.num_events ∧
      events (pattern_sort z) = (events z).insertionSort (· ≤ ·) ∧
      (∀ t, t < x.num_events → ∃ w1 w2,
        wrap_down fuel (fadd (x.pattern t)
          (fdiv (float_of_int offset) (float_of_int x.grid))) = some w1 ∧
        wrap_up fuel w1 = some w2 ∧ (0 ≤ w2 ∧ w2 ≤ 1) ∧ z.pattern t = w2) ∧
      (∀ p ∈ events (pattern_sort z), 0 ≤ p ∧ p ≤ 1) ∧
      (offset = 0 → (∀ p ∈ events x, f32 p = p) →
        events (pattern_sort z) = (events x).insertionSort (· ≤ ·)) ∧
      ((8388608 : ℤ) % x.grid = 0 → |offset| ≤ x.grid →
        (∀ p ∈ events x, ∃ a : ℤ, p = (a : ℚ) / 8388608) →
        events (pattern_sort z) =
          ((events x).map (fun p => Int.fract (p + (offset : ℚ) / x.grid))).insertionSort
            (· ≤ ·) ∧
        ((offset = x.grid ∨ offset = -x.grid) →
          events (pattern_sort z) = (events x).insertionSort (· ≤ ·))) := by
  obtain ⟨z, hz, hn, hval⟩ := transform_rotate_spec fuel x offset h1 hpos hg hs
  have hsort : events (pattern_sort z) = (events z).insertionSort (· ≤ ·) :=
    sorted_perm_eq_insertionSort (events_pattern_sort_perm z) (events_pattern_sort_sorted z)
  have hfuel : 1 ≤ fuel := by
    have h0 : (0 : ℚ) ≤ |fdiv (float_of_int offset) (float_of_int x.grid)| := abs_nonneg _
    have h2 : (1 : ℚ) ≤ ((min fuel 16777215 : ℕ) : ℚ) := by linarith
    have h3 : 1 ≤ min fuel 16777215 := by exact_mod_cast h2
    exact le_trans h3 (Nat.min_le_left _ _)
  refine ⟨z, hz, hn, hsort, hval, ?_, ?_, ?_⟩
  · intro p hp
    have hp' := (events_pattern_sort_perm z).mem_iff.mp hp
    obtain ⟨t, ht, hte⟩ := List.mem_map.mp hp'
    have htn : t < x.num_events := by rw [← hn]; exact List.mem_range.mp ht
    obtain ⟨w1, w2, _, _, hr, hzt⟩ := hval t htn
    rw [← hte, hzt]
    exact hr
  · intro h0 hrep
    have hshift : fdiv (float_of_int offset) (float_of_int x.grid) = 0 := by
      rw [h0]
      unfold fdiv float_of_int
      rw [Int.cast_zero, f32_zero, zero_div, f32_zero]
    have hev : events z = (events x).map (fun p => p) := by
      apply events_of_slots x z (fun p => p) hn
      intro t ht
      obtain ⟨w1, w2, hw1, hw2, _, hzt⟩ := hval t ht
      obtain ⟨e0, e1⟩ := slot_of_events x _ hpos t ht
      have er := slot_of_events x _ hrep t ht
      have hv : fadd (x.pattern t) (fdiv (float_of_int offset) (float_of_int x.grid)) =
          x.pattern t := by
        rw [hshift]
        unfold fadd
        rw [add_zero, er]
      rw [hv, wrap_down_of_lt fuel _ e1] at hw1
      simp only [Option.some.injEq] at hw1
      rw [← hw1, wrap_up_of_nonneg fuel _ e0] at hw2
      simp only [Option.some.injEq] at hw2
      rw [hzt, ← hw2]
    rw [hsort, hev, List.map_id']
  · intro hd ho hdy
    obtain ⟨s1, s2, s3⟩ := shift_exact x.grid offset hg hd ho
    have hslot : ∀ t, t < x.num_events →
        z.pattern t = Int.fract (x.pattern t + (offset : ℚ) / x.grid) := by
      intro t ht
      obtain ⟨w1, w2, hw1, hw2, _, hzt⟩ := hval t ht
      obtain ⟨e0, e1⟩ := slot_of_events x _ hpos t ht
      obtain ⟨a, ha⟩ := slot_of_events x _ hdy t ht
      have ha0 : 0 ≤ a := by
        have : (0 : ℚ) ≤ (a : ℚ) / 8388608 := by rw [← ha]; exact e0
        have h2 : (0 : ℚ) ≤ (a : ℚ) := by
          by_contra hneg
          have : (a : ℚ) / 8388608 < 0 := div_neg_of_neg_of_pos (not_le.mp hneg) (by norm_num)
          linarith
        exact_mod_cast h2
      have ha1 : a < 8388608 := by
        have : (a : ℚ) / 8388608 < 1 := by rw [← ha]; exact e1
        rw [div_lt_one (by norm_num)] at this
        exact_mod_cast this
      have hsb := abs_le.mp s3
      have hsum : x.pattern t + (offset : ℚ) / x.grid =
          ((a + offset * (8388608 / x.grid) : ℤ) : ℚ) / 8388608 := by
        rw [ha, ← s2]
        push_cast
        ring
      have hv : fadd (x.pattern t) (fdiv (float_of_int offset) (float_of_int x.grid)) =
          ((a + offset * (8388608 / x.grid) : ℤ) : ℚ) / 8388608 := by
        unfold fadd
        rw [s1, s2, hsum]
        exact f32_grid23 _ (by rw [abs_lt]; constructor <;> omega)
      obtain ⟨v1, hv1, hv2, _, _⟩ :=
        wrap_exact fuel hfuel (a + offset * (8388608 / x.grid)) (by omega) (by omega)
      rw [hv, hv1] at hw1
      simp only [Option.some.injEq] at hw1
      rw [← hw1, hv2] at hw2
      simp only [Option.some.injEq] at hw2
      rw [hzt, ← hw2, hsum]
    have hev : events z =
        (events x).map (fun p => Int.fract (p + (offset : ℚ) / x.grid)) :=
      events_of_slots x z _ hn hslot
    refine ⟨by rw [hsort, hev], ?_⟩
    intro hturn
    have hgq : (x.grid : ℚ) ≠ 0 := by
      have : (0 : ℚ) < (x.grid : ℚ) := by exact_mod_cast (by omega : (0 : ℤ) < x.grid)
      exact ne_of_gt this
    have hid : (events x).map (fun p => Int.fract (p + (offset : ℚ) / x.grid)) = events x := by
      have : ∀ p ∈ events x, Int.fract (p + (offset : ℚ) / x.grid) = p := by
        intro p hp
        obtain ⟨e0, e1⟩ := hpos p hp
        rcases hturn with h | h
        · have : (offset : ℚ) / x.grid = 1 := by
            rw [h]; exact div_self hgq
          rw [this]
          exact (fract_shift_one p e0 e1).1
        · have : (offset : ℚ) / x.grid = -1 := by
            rw [h]; push_cast; rw [neg_div, div_self hgq]
          rw [this]
          exact (fract_shift_one p e0 e1).2
      calc (events x).map (fun p => Int.fract (p + (offset : ℚ) / x.grid))
          = (events x).map (fun p => p) := List.map_congr_left this
        _ = events x := List.map_id' _
    rw [hsort, hev, hid]

/-- A witness for `C27_rotate`: `rotate 4` on the default grid 16 takes the
pattern `[0, 1/4, 7/8]` to `[1/8, 1/4, 1/2]`. -/
theorem C27_rotate_witness :
    ∃ z : t_telomere,
      transform_rotate 8 (engine_with [0, 1 / 4, 7 / 8] 32) [t_atom.A_FLOAT ((4 : ℤ) : ℚ)] =
        some (pattern_sort z) ∧
      (pattern_sort z).num_events = 3 ∧
      events (pattern_sort z) = [1 / 8, 1 / 4, 1 / 2] := by
  obtain ⟨z, h1, h2, _, _, _, _, h7⟩ := C27_rotate 8 (engine_with [0, 1 / 4, 7 / 8] 32) 4
    (by decide) (by decide!) (by decide) (by decide!)
  have hev : events (engine_with [0, 1 / 4, 7 / 8] 32) = [0, 1 / 4, 7 / 8] := by decide!
  have hdy : ∀ p ∈ events (engine_with [0, 1 / 4, 7 / 8] 32),
      ∃ a : ℤ, p = (a : ℚ) / 8388608 := by
    rw [hev]
    intro p hp
    simp only [List.mem_cons, List.mem_singleton, List.not_mem_nil, or_false] at hp
    rcases hp with rfl | rfl | rfl
    · exact ⟨0, by norm_num⟩
    · exact ⟨2097152, by norm_num⟩
    · exact ⟨7340032, by norm_num⟩
  have hex := (h7 (by decide) (by decide) hdy).1
  have hval : ((events (engine_with [0, 1 / 4, 7 / 8] 32)).map
      (fun p => Int.fract (p + ((4 : ℤ) : ℚ) /
        (engine_with [0, 1 / 4, 7 / 8] 32).grid))).insertionSort (· ≤ ·) =
      [1 / 8, 1 / 4, 1 / 2] := by decide!
  exact ⟨z, h1, h2, by rw [hex, hval]⟩

/-- C28: in Recording on the default engine (cycle length 2000 ms) a trigger
at the elapsed time `67108864000` ms has the elapsed fraction `2^25`; in single
precision `2^25 - 1` rounds back to `2^25`, so `while (pos >= 1.0f) pos -= 1.0f;`
makes no progress and the trigger never returns, whatever the iteration budget:
no position is appended.  For every state with `cycle_length_ms > 0`, grid in
`[1,128]`, quantize strength in `[0,1]` and a non-full pattern, a trigger that
returns has appended a position in `[0,1)`, and the trigger returns whenever
the elapsed fraction is at most `2^24 - 1` and within the budget. -/
theorem C28_trigger_never_returns :
    (recording_engine 16 0).recording = true ∧
    (recording_engine 16 0).cycle_length_ms = 2000 ∧
    f32 (f64 (67108864000 / 2000)) = 33554432 ∧
    fsub 33554432 1 = 33554432 ∧
    (∀ (fuel : ℕ) (now : ℚ),
      telomere_bang fuel 67108864000 now (recording_engine 16 0) = none) ∧
    (∀ (fuel : ℕ) (elapsed now : ℚ) (x : t_telomere), x.recording = true →
      0 < x.cycle_length_ms → x.num_events < 256 → (1 ≤ x.grid ∧ x.grid ≤ 128) →
      (0 ≤ x.quantize_pct ∧ x.quantize_pct ≤ 1) →
      (∀ r, telomere_bang fuel elapsed now x = some r →
        ∃ v, events r.1 = events x ++ [v] ∧ 0 ≤ v ∧ v < 1) ∧
      (elapsed / x.cycle_length_ms ≤ ((min fuel 16777215 : ℕ) : ℚ) →
        ∃ r, telomere_bang fuel elapsed now x = some r)) := by
  have hc : (recording_engine 16 0).cycle_length_ms = 2000 := by decide!
  have hp : f32 (f64 (67108864000 / 2000)) = 33554432 := by decide!
  refine ⟨rfl, hc, hp, by decide!, ?_, ?_⟩
  · intro fuel now
    unfold telomere_bang
    have hrec : (recording_engine 16 0).recording = true := rfl
    have hne : ¬ (recording_engine 16 0).cycle_length_ms = 0 := by rw [hc]; norm_num
    rw [if_pos hrec, if_neg hne]
    dsimp only
    rw [hc, hp, wrap_down_stall]
    rfl
  · intro fuel elapsed now x hrec hcyc hfull hg hq
    exact telomere_bang_record_spec fuel elapsed now x hrec hcyc hfull hg hq

end Telomere
